import Mathlib

/-
  Verification of the kfp DSL compiler core (sdk/python/kfp/compiler/compiler.py).

  The data model and every operation below are shallow embeddings of the
  corresponding Python definitions.  A Python dict is embedded as an
  association list (insertion order preserved, first binding wins on lookup);
  a Python set is embedded as a duplicate-free list in insertion order
  (`setAdd` below), so that set membership coincides with list membership.
  Python truthiness on optional fields (`op_name`, `value`, `recursive_ref`)
  is embedded as `Option`: `none` models a falsy field.  Functions that can
  raise (`ValueError`, `KeyError`, `IndexError`, `NameError`) return
  `Except String`; the carried string is the raised message where a claim
  depends on it.  Config-driven optional manifest fields that no claim
  touches (imagePullSecrets, activeDeadlineSeconds, volumes) are omitted
  from the workflow record.
-/

namespace Kfp

/-- A pipeline parameter reference (`dsl.PipelineParam`): a name, an optional
producing-op name (`none` embeds a falsy `op_name`), and an optional immediate
value (`none` embeds a falsy `value`). -/
structure Param where
  name : String
  op_name : Option String := none
  value : Option String := none
deriving DecidableEq, Repr

/-- An operand of a condition: either a `PipelineParam` or a plain value
(whose `str` form is the given string). -/
inductive Operand where
  | param (p : Param)
  | lit (s : String)
deriving DecidableEq, Repr

/-- The payload of a condition group: `operand1 operator operand2`. -/
structure Cond where
  operand1 : Operand
  operator : String
  operand2 : Operand
deriving DecidableEq, Repr

/-- A leaf operation (`BaseOp`): name, declared input parameters, explicit
dependency names, and the `is_exit_handler` flag. -/
structure Op where
  name : String
  inputs : List Param := []
  dependent_names : List String := []
  is_exit_handler : Bool := false
deriving DecidableEq, Repr

/-- The slice of a recursion target that the compiler reads through
`recursive_ref`: its `name` and its declared `inputs` list. -/
structure RecursiveRef where
  name : String
  inputs : List Param := []
deriving DecidableEq, Repr

/-- A node of the pipeline tree (`OpsGroup`): name, kind string (`type`),
child groups, child ops, optional recursion back-reference, declared inputs,
optional condition payload, explicit dependency names, optional exit op. -/
inductive OpsGroup where
  | mk (name : String) (type : String) (groups : List OpsGroup) (ops : List Op)
      (recursive_ref : Option RecursiveRef) (inputs : List Param)
      (condition : Option Cond) (dependencies : List String) (exit_op : Option Op)

def OpsGroup.name : OpsGroup → String
  | .mk n _ _ _ _ _ _ _ _ => n

def OpsGroup.type : OpsGroup → String
  | .mk _ t _ _ _ _ _ _ _ => t

def OpsGroup.groups : OpsGroup → List OpsGroup
  | .mk _ _ gs _ _ _ _ _ _ => gs

def OpsGroup.ops : OpsGroup → List Op
  | .mk _ _ _ os _ _ _ _ _ => os

def OpsGroup.recursive_ref : OpsGroup → Option RecursiveRef
  | .mk _ _ _ _ r _ _ _ _ => r

def OpsGroup.inputs : OpsGroup → List Param
  | .mk _ _ _ _ _ ins _ _ _ => ins

def OpsGroup.condition : OpsGroup → Option Cond
  | .mk _ _ _ _ _ _ c _ _ => c

def OpsGroup.dependencies : OpsGroup → List String
  | .mk _ _ _ _ _ _ _ ds _ => ds

def OpsGroup.exit_op : OpsGroup → Option Op
  | .mk _ _ _ _ _ _ _ _ e => e

/-- A pipeline: its name, its group list (`groups[0]` is the root), and its
op dictionary in insertion order. -/
structure Pipeline where
  name : String
  groups : List OpsGroup
  ops : List Op

/-- Association-list lookup, first binding wins (Python dict lookup). -/
def lookupStr {α : Type} : List (String × α) → String → Option α
  | [], _ => none
  | (k', v) :: rest, k => if k' = k then some v else lookupStr rest k

/-- Lookup of an op by name in the pipeline op dictionary. -/
def lookupOp (ops : List Op) (k : String) : Option Op :=
  lookupStr (ops.map (fun op => (op.name, op))) k

/-- `_pipelineparam_full_name`: `op_name + '-' + name` when there is a
producer, else the bare name. -/
def pipelineparam_full_name (p : Param) : String :=
  match p.op_name with
  | some o => o ++ "-" ++ p.name
  | none => p.name

mutual

/-- `_get_op_groups_helper` entered on one group: its subgroup loop first,
then its op loop; `pre` is the list of names of `current_groups` excluding
this group. -/
def opGroupsEnter : List String → OpsGroup → List (String × List String)
  | pre, .mk n _ gs os _ _ _ _ _ =>
      opGroupsChildren (pre ++ [n]) gs
        ++ os.map (fun op => (op.name, (pre ++ [n]) ++ [op.name]))

/-- The loop over `root_group.groups` of `_get_op_groups_helper`: a
recursive child is recorded as a pseudo-leaf, any other child is entered. -/
def opGroupsChildren : List String → List OpsGroup → List (String × List String)
  | _, [] => []
  | pre, g :: rest =>
      (if g.recursive_ref.isSome then [(g.name, pre ++ [g.name])]
       else opGroupsEnter pre g)
        ++ opGroupsChildren pre rest

end

/-- `_get_groups_for_ops`: op (or recursive-group) name to its ancestry, the
path of group names from the root down to and including the entity itself. -/
def getGroupsForOps (root : OpsGroup) : List (String × List String) :=
  opGroupsEnter [] root

mutual

/-- `_get_opsgroup_groups_helper` entered on one group (already recorded). -/
def opsgroupGroupsEnter : List String → OpsGroup → List (String × List String)
  | pre, .mk _ _ gs _ _ _ _ _ _ => opsgroupGroupsChildren pre gs

/-- The loop of `_get_opsgroup_groups_helper`: records every non-recursive
child group then descends into it; recursive children are skipped. -/
def opsgroupGroupsChildren : List String → List OpsGroup → List (String × List String)
  | _, [] => []
  | pre, g :: rest =>
      (if g.recursive_ref.isSome then []
       else (g.name, pre ++ [g.name]) :: opsgroupGroupsEnter (pre ++ [g.name]) g)
        ++ opsgroupGroupsChildren pre rest

end

/-- `_get_groups_for_opsgroups`: non-recursive group name to its ancestry;
the root itself is not recorded. -/
def getGroupsForOpsgroups (root : OpsGroup) : List (String × List String) :=
  opsgroupGroupsEnter [root.name] root

mutual

/-- `_get_groups_helper` on one group: record it, then walk the children. -/
def getGroupsEnter : OpsGroup → List (String × OpsGroup)
  | .mk n t gs os r i c d e =>
      (n, .mk n t gs os r i c d e) :: getGroupsChildren gs

/-- The child loop of `_get_groups_helper`: recursive groups are skipped
(no template is generated for them). -/
def getGroupsChildren : List OpsGroup → List (String × OpsGroup)
  | [] => []
  | g :: rest =>
      (if g.recursive_ref.isSome then [] else getGroupsEnter g)
        ++ getGroupsChildren rest

end

/-- `_get_groups`: the group index, group name to group, root included,
recursive groups excluded. -/
def getGroups (root : OpsGroup) : List (String × OpsGroup) :=
  getGroupsEnter root

/-- Append an element to a duplicate-free list unless already present: the
embedding of adding to a Python `set`. -/
def setAdd {α : Type} [DecidableEq α] (l : List α) (a : α) : List α :=
  if a ∈ l then l else l ++ [a]

/-- The operand params appended by `_get_condition_params_for_ops_helper` on
entering a `condition` group: `operand1` then `operand2`, each only when it
is a `PipelineParam`. -/
def condOperandParams (c : Option Cond) : List Param :=
  match c with
  | none => []
  | some c =>
      (match c.operand1 with | .param p => [p] | .lit _ => [])
        ++ (match c.operand2 with | .param p => [p] | .lit _ => [])

mutual

/-- `_get_condition_params_for_ops_helper` entered on one group: append its
own operands when it is a `condition` group, record the set for each of its
ops, then walk the children. -/
def condParamsEnter : List Param → OpsGroup → List (String × List Param)
  | cur, .mk _ t gs os _ _ c _ _ =>
      let cur2 := if t = "condition" then cur ++ condOperandParams c else cur
      os.map (fun op => (op.name, cur2.foldl setAdd []))
        ++ condParamsChildren cur2 gs

/-- The child loop of `_get_condition_params_for_ops_helper`: a recursive
child has the accumulated params recorded as its set; any other child is
entered. -/
def condParamsChildren : List Param → List OpsGroup → List (String × List Param)
  | _, [] => []
  | cur, g :: rest =>
      (if g.recursive_ref.isSome then [(g.name, cur.foldl setAdd [])]
       else condParamsEnter cur g)
        ++ condParamsChildren cur rest

end

/-- `_get_condition_params_for_ops`; a missing key means the empty set
(`defaultdict(set)`). -/
def getConditionParams (root : OpsGroup) : List (String × List Param) :=
  condParamsEnter [] root

/-- Lookup in a `defaultdict`-style map whose default is the empty list. -/
def lookupD {α : Type} (m : List (String × List α)) (k : String) : List α :=
  (lookupStr m k).getD []

/-- The count in `_get_uncommon_ancestors`: positions of `zip(l1, l2)` where
the two components are equal (the source counts all such positions, not only
a prefix). -/
def countEqualZip : List String → List String → Nat
  | a :: as, b :: bs => (if a = b then 1 else 0) + countEqualZip as bs
  | _, _ => 0

/-- Resolution of one entity name, in `op_groups` first and otherwise in
`opsgroup_groups`, as `_get_uncommon_ancestors` does for each of its two
arguments. -/
def resolveAncestry (op_groups opsgroup_groups : List (String × List String))
    (n : String) : Option (List String) :=
  match lookupStr op_groups n with
  | some g => some g
  | none => lookupStr opsgroup_groups n

/-- `_get_uncommon_ancestors`: resolve both names, drop the common part,
return the two tails.  The error message on EITHER failed resolution is
built from the first name (the source does so even in the second branch). -/
def getUncommonAncestors (op_groups opsgroup_groups : List (String × List String))
    (name1 name2 : String) : Except String (List String × List String) :=
  match resolveAncestry op_groups opsgroup_groups name1 with
  | none => .error (name1 ++ " does not exist.")
  | some g1 =>
      match resolveAncestry op_groups opsgroup_groups name2 with
      | none => .error (name1 ++ " does not exist.")
      | some g2 =>
          let c := countEqualZip g1 g2
          .ok (g1.drop c, g2.drop c)

/-- One input/output record: `(full_param_name, producing_marker)`; a `none`
marker signals that the value is supplied by the enclosing scope. -/
abbrev LiftRec := String × Option String

/-- A `defaultdict(set)` keyed by group/op name: an association list whose
per-key value is a duplicate-free list in insertion order. -/
abbrev LiftMap := List (String × List LiftRec)

/-- A dependency map: key is a group/op name, value the set of names it
depends on. -/
abbrev DepMap := List (String × List String)

/-- `m[k].add(a)` on a `defaultdict(set)`. -/
def mapAdd {α : Type} [DecidableEq α] :
    List (String × List α) → String → α → List (String × List α)
  | [], k, a => [(k, [a])]
  | (k', l) :: rest, k, a =>
      if k' = k then (k', setAdd l a) :: rest else (k', l) :: mapAdd rest k a

/-- Read a `defaultdict` entry (empty set when absent). -/
def mapGet {α : Type} (m : List (String × List α)) (k : String) : List α :=
  lookupD m k

/-- The `i > 0` portion of the downstream loop of `_get_inputs_outputs`:
every remaining group receives the input with a `None` marker. -/
def addTailInputs (full : String) : List String → LiftMap → LiftMap
  | [], m => m
  | g :: rest, m => addTailInputs full rest (mapAdd m g (full, none))

/-- The downstream loop of `_get_inputs_outputs` for an op: the first group
receives `(full, up[0])`, the rest `(full, None)`. -/
def addDownInputs (full u0 : String) : List String → LiftMap → LiftMap
  | [], m => m
  | g :: rest, m => addTailInputs full rest (mapAdd m g (full, some u0))

/-- The upstream loop of `_get_inputs_outputs`: group `i` emits the output
`(full, up[i+1])`, the last element `(full, None)`. -/
def addUpOutputs (full : String) : List String → LiftMap → LiftMap
  | [], m => m
  | [g], m => mapAdd m g (full, none)
  | g :: g2 :: rest, m => addUpOutputs full (g2 :: rest) (mapAdd m (g) (full, some g2))

/-- The `i > 0` portion of the downstream loop of
`_get_inputs_outputs_recursive_opsgroup`: on the LAST element the input is
skipped when the parameter is a condition param; elsewhere a `None`-marker
input is recorded. -/
def addTailInputsRec (full : String) (isCond : Bool) : List String → LiftMap → LiftMap
  | [], m => m
  | [g], m => if isCond then m else mapAdd m g (full, none)
  | g :: g2 :: rest, m => addTailInputsRec full isCond (g2 :: rest) (mapAdd m g (full, none))

/-- The downstream loop of `_get_inputs_outputs_recursive_opsgroup`: the
`i == 0` branch takes priority, so the first group always receives
`(full, up[0])`, even when it is also the last. -/
def addDownInputsRec (full u0 : String) (isCond : Bool) : List String → LiftMap → LiftMap
  | [], m => m
  | g :: rest, m => addTailInputsRec full isCond rest (mapAdd m g (full, some u0))

/-- The body of the per-parameter loop of `_get_inputs_outputs` for one op:
immediate values are skipped; a produced parameter is lifted along the
uncommon-ancestor tails; a pipeline-level parameter is recorded as input on
every ancestor unless the op is an exit handler.  Failures are the Python
`KeyError` / `IndexError` of the source. -/
def processOpParam (pops : List Op) (op_groups opsgroup_groups : List (String × List String))
    (op : Op) (param : Param) (acc : LiftMap × LiftMap) :
    Except String (LiftMap × LiftMap) :=
  if param.value.isSome then .ok acc
  else
    let full := pipelineparam_full_name param
    match param.op_name with
    | some pname =>
        match lookupOp pops pname with
        | none => .error ("KeyError: " ++ pname)
        | some upstream =>
            match getUncommonAncestors op_groups opsgroup_groups upstream.name op.name with
            | .error e => .error e
            | .ok (up, down) =>
                match down, up with
                | _ :: _, [] => .error "list index out of range"
                | [], _ => .ok (acc.1, addUpOutputs full up acc.2)
                | _ :: _, u0 :: _ =>
                    .ok (addDownInputs full u0 down acc.1, addUpOutputs full up acc.2)
    | none =>
        if op.is_exit_handler then .ok acc
        else
          match lookupStr op_groups op.name with
          | none => .error ("KeyError: " ++ op.name)
          | some gs => .ok (gs.foldl (fun m g => mapAdd m g (full, none)) acc.1, acc.2)

/-- The body of the per-parameter loop of
`_get_inputs_outputs_recursive_opsgroup` for one recursive group (the
parameter is paired with the flag telling whether it came from the
condition-param set). -/
def processRecParam (pops : List Op) (op_groups opsgroup_groups : List (String × List String))
    (gname : String) (acc : LiftMap × LiftMap) (pc : Param × Bool) :
    Except String (LiftMap × LiftMap) :=
  let param := pc.1
  let isCond := pc.2
  if param.value.isSome then .ok acc
  else
    let full := pipelineparam_full_name param
    match param.op_name with
    | some pname =>
        match lookupOp pops pname with
        | none => .error ("KeyError: " ++ pname)
        | some upstream =>
            match getUncommonAncestors op_groups opsgroup_groups upstream.name gname with
            | .error e => .error e
            | .ok (up, down) =>
                match down, up with
                | _ :: _, [] => .error "list index out of range"
                | [], _ => .ok (acc.1, addUpOutputs full up acc.2)
                | _ :: _, u0 :: _ =>
                    .ok (addDownInputsRec full u0 isCond down acc.1, addUpOutputs full up acc.2)
    | none =>
        if isCond then .ok acc
        else
          match lookupStr op_groups gname with
          | none => .error ("KeyError: " ++ gname)
          | some gs => .ok (gs.foldl (fun m g => mapAdd m g (full, none)) acc.1, acc.2)

/-- The parameter list a recursive group lifts: its declared inputs tagged
`False`, then its condition params tagged `True`; non-recursive groups lift
nothing of their own. -/
def recNodeParams (pops : List Op) (op_groups opsgroup_groups : List (String × List String))
    (condm : List (String × List Param)) (gname : String) (isRec : Bool)
    (ins : List Param) (acc : LiftMap × LiftMap) : Except String (LiftMap × LiftMap) :=
  if isRec then
    ((ins.map (fun p => (p, false))) ++ (lookupD condm gname).map (fun p => (p, true))).foldlM
      (processRecParam pops op_groups opsgroup_groups gname) acc
  else .ok acc

mutual

/-- `_get_inputs_outputs_recursive_opsgroup` on one group: lift its own
parameters when it is recursive, then walk the children. -/
def recPassEnter (pops : List Op) (op_groups opsgroup_groups : List (String × List String))
    (condm : List (String × List Param)) :
    LiftMap × LiftMap → OpsGroup → Except String (LiftMap × LiftMap)
  | acc, .mk n _ gs _ r ins _ _ _ => do
      let acc1 ← recNodeParams pops op_groups opsgroup_groups condm n r.isSome ins acc
      recPassChildren pops op_groups opsgroup_groups condm acc1 gs

/-- The child loop of `_get_inputs_outputs_recursive_opsgroup`. -/
def recPassChildren (pops : List Op) (op_groups opsgroup_groups : List (String × List String))
    (condm : List (String × List Param)) :
    LiftMap × LiftMap → List OpsGroup → Except String (LiftMap × LiftMap)
  | acc, [] => .ok acc
  | acc, g :: rest => do
      let acc1 ← recPassEnter pops op_groups opsgroup_groups condm acc g
      recPassChildren pops op_groups opsgroup_groups condm acc1 rest

end

/-- `_get_inputs_outputs`: the op pass followed by the recursive-group pass
started at the root. -/
def getInputsOutputs (p : Pipeline) (root : OpsGroup)
    (op_groups opsgroup_groups : List (String × List String))
    (condm : List (String × List Param)) : Except String (LiftMap × LiftMap) := do
  let acc ← p.ops.foldlM
    (fun a op => (op.inputs ++ lookupD condm op.name).foldlM
      (fun a q => processOpParam p.ops op_groups opsgroup_groups op q a) a)
    (([], []) : LiftMap × LiftMap)
  recPassEnter p.ops op_groups opsgroup_groups condm acc root

/-- Record one dependency edge `down[0] <- up[0]` as
`_get_dependencies` does, with the source's `IndexError` on an empty tail. -/
def recordEdge (op_groups opsgroup_groups : List (String × List String))
    (uname dname : String) (dm : DepMap) : Except String DepMap :=
  match getUncommonAncestors op_groups opsgroup_groups uname dname with
  | .error e => .error e
  | .ok (up, down) =>
      match down, up with
      | d0 :: _, u0 :: _ => .ok (mapAdd dm d0 u0)
      | _, _ => .error "list index out of range"

/-- One upstream name of the op loop of `_get_dependencies`: resolved in
`pipeline.ops`, then in the group index, else the `compiler cannot find`
error. -/
def depEdgeOp (pops : List Op) (opsgroupsIdx : List (String × OpsGroup))
    (op_groups opsgroup_groups : List (String × List String)) (dname : String)
    (dm : DepMap) (upname : String) : Except String DepMap :=
  match lookupOp pops upname with
  | some u => recordEdge op_groups opsgroup_groups u.name dname dm
  | none =>
      match lookupStr opsgroupsIdx upname with
      | some u => recordEdge op_groups opsgroup_groups u.name dname dm
      | none => .error ("compiler cannot find the " ++ upname)

/-- One upstream name of `_get_dependency_opsgroup`: resolved in
`pipeline.ops`, then in `opsgroups_groups` — in which case the source binds
the ancestry LIST as `upstream_op` and `_get_uncommon_ancestors` then fails
on `op1.name` (an `AttributeError`) — else the `compiler cannot find` error. -/
def depEdgeRec (pops : List Op) (op_groups opsgroup_groups : List (String × List String))
    (dname : String) (dm : DepMap) (upname : String) : Except String DepMap :=
  match lookupOp pops upname with
  | some u => recordEdge op_groups opsgroup_groups u.name dname dm
  | none =>
      match lookupStr opsgroup_groups upname with
      | some _ => .error "AttributeError: list object has no attribute name"
      | none => .error ("compiler cannot find the " ++ upname)

/-- The upstream-name set of one group in `_get_dependency_opsgroup`: for a
recursive group the producers of its inputs and condition params, otherwise
its explicit dependency names. -/
def depGroupUpstreamNames (condm : List (String × List Param)) (gname : String)
    (isRec : Bool) (ins : List Param) (deps : List String) : List String :=
  if isRec then
    ((ins ++ lookupD condm gname).filterMap (fun p => p.op_name)).foldl setAdd []
  else deps.foldl setAdd []

mutual

/-- `_get_dependency_opsgroup` on one group: record the edges of its own
upstream set, then walk the children. -/
def depPassEnter (pops : List Op) (op_groups opsgroup_groups : List (String × List String))
    (condm : List (String × List Param)) :
    DepMap → OpsGroup → Except String DepMap
  | dm, .mk n _ gs _ r ins _ deps _ => do
      let names := depGroupUpstreamNames condm n r.isSome ins deps
      let dm1 ← names.foldlM (depEdgeRec pops op_groups opsgroup_groups n) dm
      depPassChildren pops op_groups opsgroup_groups condm dm1 gs

/-- The recursion of `_get_dependency_opsgroup` over the child list. -/
def depPassChildren (pops : List Op) (op_groups opsgroup_groups : List (String × List String))
    (condm : List (String × List Param)) :
    DepMap → List OpsGroup → Except String DepMap
  | dm, [] => .ok dm
  | dm, g :: rest => do
      let dm1 ← depPassEnter pops op_groups opsgroup_groups condm dm g
      depPassChildren pops op_groups opsgroup_groups condm dm1 rest

end

/-- `_get_dependencies`: the op loop, then `_get_dependency_opsgroup`
started at the root. -/
def getDependencies (p : Pipeline) (root : OpsGroup)
    (op_groups opsgroup_groups : List (String × List String))
    (opsgroupsIdx : List (String × OpsGroup))
    (condm : List (String × List Param)) : Except String DepMap := do
  let dm ← p.ops.foldlM
    (fun dm op =>
      (((op.inputs ++ lookupD condm op.name).filterMap (fun q => q.op_name)).foldl setAdd []
          |> fun s => op.dependent_names.foldl setAdd s).foldlM
        (depEdgeOp p.ops opsgroupsIdx op_groups opsgroup_groups op.name) dm)
    ([] : DepMap)
  depPassEnter p.ops op_groups opsgroup_groups condm dm root

/-- Code-point lexicographic comparison on character lists. -/
def charListLe : List Char → List Char → Bool
  | [], _ => true
  | _ :: _, [] => false
  | a :: as, b :: bs => if a = b then charListLe as bs else decide (a < b)

/-- Python string `<=` (code-point lexicographic). -/
def strLe (a b : String) : Bool := charListLe a.data b.data

/-- Stable insertion of `a` into a sorted list: `a` goes after every element
`b` with `le b a`, so elements with equal keys keep their original order. -/
def insertSorted {α : Type} (le : α → α → Bool) (a : α) : List α → List α
  | [] => [a]
  | b :: bs => if le b a then b :: insertSorted le a bs else a :: b :: bs

/-- Stable sort (the embedding of Python `list.sort` / `sorted`, which are
stable): insert the elements left to right. -/
def sortBy {α : Type} (le : α → α → Bool) (l : List α) : List α :=
  l.foldl (fun s a => insertSorted le a s) []

/-- The manifest reference `\x7b\x7btasks.TASK.outputs.parameters.NAME\x7d\x7d`. -/
def tasksOutputRef (task param : String) : String :=
  "\x7b\x7btasks." ++ task ++ ".outputs.parameters." ++ param ++ "\x7d\x7d"

/-- The manifest reference `\x7b\x7binputs.parameters.NAME\x7d\x7d`. -/
def inputsParamRef (param : String) : String :=
  "\x7b\x7binputs.parameters." ++ param ++ "\x7d\x7d"

/-- Python `'%s' % x` on an optional string (`None` prints as `None`). -/
def pyStr : Option String → String
  | some s => s
  | none => "None"

/-- `_resolve_value_or_reference`: a `PipelineParam` resolves through the
group's potential references (first match wins): a non-null task marker
renders a sibling-task output read, a null marker or no match renders an
own-input read; a non-param value renders as its string form. -/
def resolveValueOrReference (v : Operand) (potential : List LiftRec) : String :=
  match v with
  | .lit s => s
  | .param p =>
      let pn := pipelineparam_full_name p
      match (potential.filter (fun r => r.1 == pn)).map (fun r => r.2) with
      | [] => inputsParamRef pn
      | none :: _ => inputsParamRef pn
      | some t :: _ => tasksOutputRef t pn

/-- One `dag.tasks` entry. An empty `dependencies` or `arguments` list embeds
the omitted key. -/
structure Task where
  name : String
  template : String
  whenCond : Option String := none
  dependencies : List String := []
  arguments : List (String × String) := []
deriving DecidableEq, Repr

/-- One emitted template: name, `inputs.parameters` (names),
`outputs.parameters` (name and `valueFrom.parameter`), `dag.tasks`. -/
structure TemplateRec where
  name : String
  inputsParams : List String := []
  outputsParams : List (String × String) := []
  tasks : List Task := []
deriving DecidableEq, Repr

/-- The argument-name computation of `_group_to_template` for a recursive
subgroup: linear scan of the subgroup's declared inputs for the first one
whose full name matches; without a `break` the Python loop variable is left
at the LAST index, and an empty input list leaves it undefined
(`NameError`); the referenced group's input at that index gives the name
(`IndexError` when out of range). -/
def recursiveArgName (subInputs refInputs : List Param) (param_name : String) :
    Except String String :=
  match subInputs with
  | [] => .error "NameError: name index is not defined"
  | _ =>
      let idx :=
        match subInputs.findIdx? (fun inp => pipelineparam_full_name inp == param_name) with
        | some j => j
        | none => subInputs.length - 1
      match refInputs[idx]? with
      | none => .error "IndexError: list index out of range"
      | some ri => .ok (pipelineparam_full_name ri)

/-- One `arguments.parameters` entry of `_group_to_template`: the value reads
a sibling task's output when the record's marker is non-null and the group's
own input otherwise; for a recursive subgroup the name is replaced through
`recursiveArgName`. -/
def buildArg (isRec : Bool) (subInputs refInputs : List Param) (r : LiftRec) :
    Except String (String × String) :=
  let value :=
    match r.2 with
    | some d => tasksOutputRef d r.1
    | none => inputsParamRef r.1
  if isRec then
    match recursiveArgName subInputs refInputs r.1 with
    | .error e => .error e
    | .ok nm => .ok (nm, value)
  else .ok (r.1, value)

/-- The task assembly shared by group and op children of
`_group_to_template`: dependencies sorted, arguments built from the child's
input records and sorted by name. -/
def childTaskCore (ins : LiftMap) (dm : DepMap) (cname tname : String) (isRec : Bool)
    (subInputs refInputs : List Param) (whenOpt : Option String) : Except String Task := do
  let args ← (mapGet ins cname).mapM (buildArg isRec subInputs refInputs)
  .ok { name := tname, template := tname, whenCond := whenOpt,
        dependencies := sortBy strLe (mapGet dm cname),
        arguments := sortBy (fun a b => strLe a.1 b.1) args }

/-- The `when` clause of `_group_to_template` for a `condition` child:
`"{op1} {operator} {op2}"` with operands resolved against the child's own
input records (an `AttributeError` when the condition payload is absent);
no clause for other children. -/
def conditionWhen (ins : LiftMap) (child : OpsGroup) : Except String (Option String) :=
  if child.type = "condition" then
    match child.condition with
    | none => .error "AttributeError: NoneType object has no attribute operand1"
    | some c =>
        .ok (some (resolveValueOrReference c.operand1 (mapGet ins child.name)
          ++ " " ++ c.operator ++ " "
          ++ resolveValueOrReference c.operand2 (mapGet ins child.name)))
  else .ok none

/-- The task of `_group_to_template` for a child group: a recursive subgroup
takes its task and template names from the `recursive_ref`. -/
def groupChildToTask (ins : LiftMap) (dm : DepMap) (child : OpsGroup) :
    Except String Task := do
  let isRec := child.recursive_ref.isSome
  let tname :=
    match child.recursive_ref with
    | some ref => ref.name
    | none => child.name
  let whenOpt ← conditionWhen ins child
  let refInputs :=
    match child.recursive_ref with
    | some ref => ref.inputs
    | none => []
  childTaskCore ins dm child.name tname isRec child.inputs refInputs whenOpt

/-- The task of `_group_to_template` for a child op. -/
def opChildToTask (ins : LiftMap) (dm : DepMap) (op : Op) : Except String Task :=
  childTaskCore ins dm op.name op.name false [] [] none

/-- `_group_to_template`: inputs and outputs sections from the lift maps,
sorted by name; one task per child group then per child op, sorted by name. -/
def groupToTemplate (g : OpsGroup) (ins outs : LiftMap) (dm : DepMap) :
    Except String TemplateRec := do
  let gtasks ← g.groups.mapM (groupChildToTask ins dm)
  let otasks ← g.ops.mapM (opChildToTask ins dm)
  .ok { name := g.name,
        inputsParams := sortBy strLe ((mapGet ins g.name).map (fun r => r.1)),
        outputsParams := sortBy (fun a b => strLe a.1 b.1)
          ((mapGet outs g.name).map (fun r => (r.1, tasksOutputRef (pyStr r.2) r.1))),
        tasks := sortBy (fun a b => strLe a.name b.name) (gtasks ++ otasks) }

/-- `_create_templates`: run the analyses on the root group, synthesize one
template per indexed group, then append the external op handler's templates
(the op-to-template rendering and the op transformers are external
collaborators, so the handler is a parameter). -/
def createTemplates (p : Pipeline) (opHandler : Op → List TemplateRec) :
    Except String (List TemplateRec) := do
  match p.groups with
  | [] => .error "IndexError: list index out of range"
  | root :: _ => do
      let opsgroupsIdx := getGroups root
      let op_groups := getGroupsForOps root
      let opsgroup_groups := getGroupsForOpsgroups root
      let condm := getConditionParams root
      let io ← getInputsOutputs p root op_groups opsgroup_groups condm
      let dm ← getDependencies p root op_groups opsgroup_groups opsgroupsIdx condm
      let gts ← opsgroupsIdx.mapM (fun kv => groupToTemplate kv.2 io.1 io.2 dm)
      .ok (gts ++ p.ops.flatMap opHandler)

/-- The workflow record assembled by `_create_pipeline_workflow`;
config-driven optional fields that no claim touches are omitted. -/
structure Workflow where
  generateName : String
  entrypoint : String
  parameters : List (String × Option String)
  templates : List TemplateRec
  onExit : Option String := none
deriving DecidableEq, Repr

/-- The exit-handler selection of `_create_pipeline_workflow` given the
root's child list: only the FIRST child group is inspected. -/
def workflowExitHandlerFirst : List OpsGroup → Option Op
  | [] => none
  | fg :: _ => if fg.type = "exit_handler" then fg.exit_op else none

/-- The exit-handler selection of `_create_pipeline_workflow` given the
pipeline's group list (`pipeline.groups[0].groups`). -/
def workflowExitHandlerFromGroups : List OpsGroup → Option Op
  | [] => none
  | root :: _ => workflowExitHandlerFirst root.groups

/-- `_create_pipeline_workflow`: input parameters from the argument list
(value present only when a default is), templates sorted by name, the exit
handler read from the FIRST child group of the root when its type is
`exit_handler`, and the name defaulting (`pipeline.name or 'Pipeline'`). -/
def createPipelineWorkflow (args : List Param) (p : Pipeline)
    (opHandler : Op → List TemplateRec) : Except String Workflow := do
  let input_params := args.map (fun a => (a.name, a.value))
  let templates0 ← createTemplates p opHandler
  let templates := sortBy (fun a b => strLe a.name b.name) templates0
  let exit_handler := workflowExitHandlerFromGroups p.groups
  let pipeline_name := if p.name = "" then "Pipeline" else p.name
  .ok { generateName := pipeline_name ++ "-",
        entrypoint := pipeline_name,
        parameters := input_params,
        templates := templates,
        onExit := exit_handler.map (fun e => e.name) }

mutual

/-- `_validate_exit_handler_helper`: raise on an `exit_handler` group when a
handler already exists on the path above or more than one op name has been
accumulated; otherwise extend the accumulated op names with this group's ops
and walk the children (the handler flag is passed down by value, the op-name
list is shared by mutation — here threaded). -/
def validateExitHandlerHelper : OpsGroup → List String → Bool → Except String (List String)
  | .mk _ t gs os _ _ _ _ _, names, handlerExists =>
      if t = "exit_handler" ∧ (handlerExists = true ∨ 1 < names.length) then
        .error "Only one global exit_handler is allowed and all ops need to be included."
      else
        validateChildren gs (names ++ os.map (fun op => op.name))
          (if t = "exit_handler" then true else handlerExists)

/-- The child loop of `_validate_exit_handler_helper`. -/
def validateChildren : List OpsGroup → List String → Bool → Except String (List String)
  | [], names, _ => .ok names
  | g :: rest, names, hx => do
      let names2 ← validateExitHandlerHelper g names hx
      validateChildren rest names2 hx

end

/-- `_validate_exit_handler`: run the helper from the root with no
accumulated ops and no handler seen. -/
def validateExitHandler (p : Pipeline) : Except String Unit :=
  match p.groups with
  | [] => .error "IndexError: list index out of range"
  | root :: _ => (validateExitHandlerHelper root [] false).map (fun _ => ())

/-! ### Derived tree measures used to state claims -/

mutual

/-- Number of groups of kind `exit_handler` in a tree. -/
def countExitHandlers : OpsGroup → Nat
  | .mk _ t gs _ _ _ _ _ _ =>
      (if t = "exit_handler" then 1 else 0) + countExitHandlersList gs

def countExitHandlersList : List OpsGroup → Nat
  | [] => 0
  | g :: rest => countExitHandlers g + countExitHandlersList rest

end

mutual

/-- Whether a tree contains an `exit_handler` group strictly inside another
one (`inside` records whether an ancestor already is one). -/
def nestedHandlerNode : Bool → OpsGroup → Bool
  | inside, .mk _ t gs _ _ _ _ _ _ =>
      (inside && (t == "exit_handler"))
        || nestedHandlerChildren (inside || (t == "exit_handler")) gs

def nestedHandlerChildren : Bool → List OpsGroup → Bool
  | _, [] => false
  | inside, g :: rest =>
      nestedHandlerNode inside g || nestedHandlerChildren inside rest

end

mutual

/-- The parameters that the recursive-group pass of `_get_inputs_outputs`
lifts in the subtree of one group: the group's declared inputs and condition
params when it is recursive, then its children's. -/
def recParamsEnter (condm : List (String × List Param)) : OpsGroup → List Param
  | .mk n _ gs _ r ins _ _ _ =>
      (if r.isSome then ins ++ lookupD condm n else [])
        ++ recParamsChildren condm gs

def recParamsChildren (condm : List (String × List Param)) : List OpsGroup → List Param
  | [] => []
  | g :: rest => recParamsEnter condm g ++ recParamsChildren condm rest

end

/-- Every parameter the input/output lifter ever walks: per-op declared
inputs and condition params, then the recursive-group parameters. -/
def liftedParams (p : Pipeline) (condm : List (String × List Param))
    (root : OpsGroup) : List Param :=
  p.ops.flatMap (fun op => op.inputs ++ lookupD condm op.name)
    ++ recParamsEnter condm root

/-! ### Basic lemmas about the set/map embedding -/

theorem mem_setAdd_self {α : Type} [DecidableEq α] (l : List α) (a : α) :
    a ∈ setAdd l a := by
  unfold setAdd
  by_cases h : a ∈ l <;> simp [h]

theorem mem_setAdd_of_mem {α : Type} [DecidableEq α] {l : List α} {b : α} (a : α)
    (h : b ∈ l) : b ∈ setAdd l a := by
  unfold setAdd
  by_cases h' : a ∈ l <;> simp [h', h]

theorem mem_of_mem_setAdd {α : Type} [DecidableEq α] {l : List α} {a b : α}
    (h : b ∈ setAdd l a) : b ∈ l ∨ b = a := by
  unfold setAdd at h
  by_cases h' : a ∈ l
  · simp [h'] at h; exact Or.inl h
  · simp [h'] at h; exact h

theorem mapGet_nil {α : Type} (k : String) : mapGet ([] : List (String × List α)) k = [] := rfl

theorem mapGet_cons {α : Type} (k' : String) (l : List α) (rest : List (String × List α))
    (k : String) :
    mapGet ((k', l) :: rest) k = if k' = k then l else mapGet rest k := by
  by_cases h : k' = k <;> simp [mapGet, lookupD, lookupStr, h]

theorem mapAdd_cons {α : Type} [DecidableEq α] (k0 : String) (l : List α)
    (rest : List (String × List α)) (k : String) (a : α) :
    mapAdd ((k0, l) :: rest) k a
      = if k0 = k then (k0, setAdd l a) :: rest else (k0, l) :: mapAdd rest k a := rfl

theorem mem_mapGet_mapAdd_self {α : Type} [DecidableEq α]
    (m : List (String × List α)) (k : String) (a : α) :
    a ∈ mapGet (mapAdd m k a) k := by
  induction m with
  | nil => simp [mapAdd, mapGet_cons]
  | cons kv rest ih =>
      obtain ⟨k0, l⟩ := kv
      rw [mapAdd_cons]
      by_cases h : k0 = k
      · subst h
        rw [if_pos rfl, mapGet_cons, if_pos rfl]
        exact mem_setAdd_self l a
      · rw [if_neg h, mapGet_cons, if_neg h]
        exact ih

theorem mem_mapGet_mapAdd_of_mem {α : Type} [DecidableEq α]
    {m : List (String × List α)} {k : String} {b : α} (k' : String) (a : α)
    (h : b ∈ mapGet m k) : b ∈ mapGet (mapAdd m k' a) k := by
  induction m with
  | nil => simp [mapGet_nil] at h
  | cons kv rest ih =>
      obtain ⟨k0, l⟩ := kv
      rw [mapGet_cons] at h
      rw [mapAdd_cons]
      by_cases h0 : k0 = k'
      · rw [if_pos h0, mapGet_cons]
        by_cases h1 : k0 = k
        · rw [if_pos h1]
          rw [if_pos h1] at h
          exact mem_setAdd_of_mem a h
        · rw [if_neg h1]
          rw [if_neg h1] at h
          exact h
      · rw [if_neg h0, mapGet_cons]
        by_cases h1 : k0 = k
        · rw [if_pos h1]
          rw [if_pos h1] at h
          exact h
        · rw [if_neg h1]
          rw [if_neg h1] at h
          exact ih h

theorem mem_mapGet_mapAdd_cases {α : Type} [DecidableEq α]
    {m : List (String × List α)} {k k' : String} {a b : α}
    (h : b ∈ mapGet (mapAdd m k' a) k) : b ∈ mapGet m k ∨ (k' = k ∧ b = a) := by
  induction m with
  | nil =>
      unfold mapAdd at h
      rw [mapGet_cons] at h
      by_cases h1 : k' = k
      · rw [if_pos h1] at h
        simp at h
        exact Or.inr ⟨h1, h⟩
      · rw [if_neg h1] at h
        simp [mapGet_nil] at h
  | cons kv rest ih =>
      obtain ⟨k0, l⟩ := kv
      rw [mapAdd_cons] at h
      by_cases h0 : k0 = k'
      · rw [if_pos h0, mapGet_cons] at h
        by_cases h1 : k0 = k
        · rw [if_pos h1] at h
          rcases mem_of_mem_setAdd h with hh | hh
          · left; rw [mapGet_cons, if_pos h1]; exact hh
          · exact Or.inr ⟨h0 ▸ h1, hh⟩
        · rw [if_neg h1] at h
          left; rw [mapGet_cons, if_neg h1]; exact h
      · rw [if_neg h0, mapGet_cons] at h
        by_cases h1 : k0 = k
        · rw [if_pos h1] at h
          left; rw [mapGet_cons, if_pos h1]; exact h
        · rw [if_neg h1] at h
          rcases ih h with hh | hh
          · left; rw [mapGet_cons, if_neg h1]; exact hh
          · exact Or.inr hh

/-- Pointwise membership inclusion between two maps. -/
def MapLe {α : Type} (m m' : List (String × List α)) : Prop :=
  ∀ k a, a ∈ mapGet m k → a ∈ mapGet m' k

theorem MapLe.rfl {α : Type} (m : List (String × List α)) : MapLe m m :=
  fun _ _ h => h

theorem MapLe.comp {α : Type} {m1 m2 m3 : List (String × List α)}
    (h1 : MapLe m1 m2) (h2 : MapLe m2 m3) : MapLe m1 m3 :=
  fun k a h => h2 k a (h1 k a h)

theorem MapLe.addKey {α : Type} [DecidableEq α] (m : List (String × List α))
    (k : String) (a : α) : MapLe m (mapAdd m k a) :=
  fun _ _ h => mem_mapGet_mapAdd_of_mem _ _ h

/-! ### Reasoning helpers for `Except` computations -/

theorem except_bind_error {ε α β : Type} (e : ε) (f : α → Except ε β) :
    ((Except.error e : Except ε α) >>= f) = Except.error e := rfl

theorem except_bind_ok {ε α β : Type} (a : α) (f : α → Except ε β) :
    ((Except.ok a : Except ε α) >>= f) = f a := rfl

theorem except_pure_bind {ε α β : Type} (a : α) (f : α → Except ε β) :
    ((pure a : Except ε α) >>= f) = f a := rfl

theorem except_bind_ok_inv {ε α β : Type} {A : Except ε α} {f : α → Except ε β} {b : β}
    (h : (A >>= f) = .ok b) : ∃ a, A = .ok a ∧ f a = .ok b := by
  cases hh : A with
  | error e => rw [hh, except_bind_error] at h; exact absurd h (by simp)
  | ok a => rw [hh, except_bind_ok] at h; exact ⟨a, rfl, h⟩

theorem except_bind_error_inv {ε α β : Type} {A : Except ε α} {f : α → Except ε β} {e : ε}
    (h : (A >>= f) = .error e) : A = .error e ∨ ∃ a, A = .ok a ∧ f a = .error e := by
  cases hh : A with
  | error e2 =>
      rw [hh, except_bind_error] at h
      injection h with h'
      left; rw [h']
  | ok a => rw [hh, except_bind_ok] at h; exact Or.inr ⟨a, rfl, h⟩

/-! ### The exit-handler validator: what it actually rejects (claim C1) -/

mutual

/-- Every error the validator helper raises carries the one fixed message. -/
theorem validateHelper_error_eq : ∀ (g : OpsGroup) (names : List String) (hx : Bool)
    (e : String), validateExitHandlerHelper g names hx = Except.error e →
    e = "Only one global exit_handler is allowed and all ops need to be included."
  | .mk n t gs os r i c d ex, names, hx, e, h => by
      simp only [validateExitHandlerHelper] at h
      split at h
      · injection h with h'; exact h'.symm
      · exact validateChildren_error_eq gs _ _ e h

theorem validateChildren_error_eq : ∀ (gs : List OpsGroup) (names : List String) (hx : Bool)
    (e : String), validateChildren gs names hx = Except.error e →
    e = "Only one global exit_handler is allowed and all ops need to be included."
  | [], names, hx, e, h => by simp [validateChildren] at h
  | g :: rest, names, hx, e, h => by
      simp only [validateChildren] at h
      rcases except_bind_error_inv h with h1 | ⟨ns2, _, h2⟩
      · exact validateHelper_error_eq g names hx e h1
      · exact validateChildren_error_eq rest ns2 hx e h2

end

mutual

/-- A nested exit handler in a subtree makes the validator helper raise. -/
theorem validateHelper_nested : ∀ (g : OpsGroup) (names : List String) (hx : Bool),
    nestedHandlerNode hx g = true →
    validateExitHandlerHelper g names hx
      = Except.error "Only one global exit_handler is allowed and all ops need to be included."
  | .mk n t gs os r i c d ex, names, hx, hnest => by
      simp only [nestedHandlerNode, Bool.or_eq_true, Bool.and_eq_true, beq_iff_eq] at hnest
      simp only [validateExitHandlerHelper]
      split
      · rfl
      · rename_i hcond
        rcases hnest with ⟨hhx, ht⟩ | hch
        · exact absurd ⟨ht, Or.inl hhx⟩ hcond
        · have hflag : (if t = "exit_handler" then true else hx) = (hx || (t == "exit_handler")) := by
            by_cases ht : t = "exit_handler" <;> simp [ht]
          rw [hflag]
          exact validateChildren_nested gs _ _ hch

theorem validateChildren_nested : ∀ (gs : List OpsGroup) (names : List String) (hx : Bool),
    nestedHandlerChildren hx gs = true →
    validateChildren gs names hx
      = Except.error "Only one global exit_handler is allowed and all ops need to be included."
  | g :: rest, names, hx, hnest => by
      simp only [nestedHandlerChildren, Bool.or_eq_true] at hnest
      simp only [validateChildren]
      rcases hnest with hg | hrest
      · rw [validateHelper_nested g names hx hg, except_bind_error]
      · cases hh : validateExitHandlerHelper g names hx with
        | error e2 =>
            rw [except_bind_error]
            rw [validateHelper_error_eq g names hx e2 hh]
        | ok ns2 =>
            rw [except_bind_ok]
            exact validateChildren_nested rest ns2 hx hrest

end

/-! ### Concrete pipelines used as witnesses and counterexamples -/

def exOpA : Op := { name := "a" }

def exOpB : Op := { name := "b", inputs := [⟨"x", some "a", none⟩] }

def exRootLinear : OpsGroup := .mk "root" "pipeline" [] [exOpA, exOpB] none [] none [] none

def exPipeLinear : Pipeline :=
  { name := "pipe", groups := [exRootLinear], ops := [exOpA, exOpB] }

def exOpE1 : Op := { name := "e1" }

def exOpE2 : Op := { name := "e2" }

def exEh1 : OpsGroup := .mk "eh1" "exit_handler" [] [exOpE1] none [] none [] (some exOpE1)

def exEh2 : OpsGroup := .mk "eh2" "exit_handler" [] [exOpE2] none [] none [] (some exOpE2)

/-- A root with TWO sibling exit-handler groups, one op each. -/
def exRootTwoHandlers : OpsGroup := .mk "root" "pipeline" [exEh1, exEh2] [] none [] none [] none

def exPipeTwoHandlers : Pipeline :=
  { name := "pipe", groups := [exRootTwoHandlers], ops := [exOpE1, exOpE2] }

def exPlainG : OpsGroup := .mk "g1" "pipeline" [] [exOpA] none [] none [] none

/-- A root whose only exit-handler child is its SECOND child group. -/
def exRootLateHandler : OpsGroup :=
  .mk "root" "pipeline" [exPlainG, exEh2] [] none [] none [] none

def exPipeLateHandler : Pipeline :=
  { name := "pipe", groups := [exRootLateHandler], ops := [exOpA, exOpE2] }

/-- An exit handler nested inside another exit handler. -/
def exEhOuter : OpsGroup := .mk "eho" "exit_handler" [exEh1] [] none [] none [] (some exOpE1)

def exRootNested : OpsGroup := .mk "root" "pipeline" [exEhOuter] [] none [] none [] none

def exPipeNested : Pipeline :=
  { name := "pipe", groups := [exRootNested], ops := [exOpE1] }

def exOpU : Op := { name := "u" }

def exG1 : OpsGroup := .mk "g1" "pipeline" [] [exOpU] none [] none [] none

/-- A recursive group sitting directly under the root, so that its
downstream uncommon-ancestor tail has length one. -/
def exRloop : OpsGroup := .mk "rloop" "graph" [] [] (some ⟨"g1", []⟩) [] none [] none

def exRootRec : OpsGroup := .mk "root" "pipeline" [exG1, exRloop] [] none [] none [] none

def exPipeRec : Pipeline := { name := "pipe", groups := [exRootRec], ops := [exOpU] }

/-- A condition-params map placing the produced param `u-x` in the
guarded set of the recursive group `rloop`. -/
def exCondmRec : List (String × List Param) := [("rloop", [⟨"x", some "u", none⟩])]

/-- The lift maps computed for `exPipeRec` (the run succeeds; see the C5
counterexample). -/
def exLiftRecR : LiftMap × LiftMap :=
  (getInputsOutputs exPipeRec exRootRec (getGroupsForOps exRootRec)
    (getGroupsForOpsgroups exRootRec) exCondmRec).toOption.getD ([], [])

/-! ### Claim C1 -/

/-- Claim C1 (counterexample): a pipeline whose root has two sibling
`exit_handler` groups, each holding one op, PASSES `_validate_exit_handler`,
although the claim says every pipeline with more than one exit-handler group
is rejected. -/
theorem C1_counterexample :
    countExitHandlers exRootTwoHandlers = 2
      ∧ exPipeTwoHandlers.groups = [exRootTwoHandlers]
      ∧ validateExitHandler exPipeTwoHandlers = Except.ok () :=
  ⟨rfl, rfl, rfl⟩

/-- Claim C1 (amended): the validity pass certainly rejects every pipeline
containing an `exit_handler` group strictly nested inside another
`exit_handler` group, raising the one fatal `MultipleExitHandlers` error;
sibling exit handlers or uncovered ops do not by themselves cause
rejection. -/
theorem C1_nested_exit_handler_rejected (p : Pipeline) (root : OpsGroup)
    (rest : List OpsGroup) (hg : p.groups = root :: rest)
    (hnest : nestedHandlerNode false root = true) :
    validateExitHandler p
      = Except.error "Only one global exit_handler is allowed and all ops need to be included." := by
  unfold validateExitHandler
  rw [hg]
  show Except.map (fun _ => ()) (validateExitHandlerHelper root [] false) = _
  rw [validateHelper_nested root [] false hnest]
  rfl

/-- Witness for the amended C1 theorem at a concrete nested-handler
pipeline. -/
theorem C1_nested_exit_handler_rejected_witness :
    validateExitHandler exPipeNested
      = Except.error "Only one global exit_handler is allowed and all ops need to be included." :=
  C1_nested_exit_handler_rejected exPipeNested exRootNested [] rfl rfl

/-! ### Claim C2 -/

/-- The workflow assembled for `exPipeLateHandler` (the run succeeds; see
the C2 counterexample). -/
def exWorkflowLate : Workflow :=
  (createPipelineWorkflow [] exPipeLateHandler (fun _ => [])).toOption.getD
    { generateName := "", entrypoint := "", parameters := [], templates := [] }

/-- The workflow assembled for `exPipeTwoHandlers`. -/
def exWorkflowTwoHandlers : Workflow :=
  (createPipelineWorkflow [] exPipeTwoHandlers (fun _ => [])).toOption.getD
    { generateName := "", entrypoint := "", parameters := [], templates := [] }

/-- Claim C2 (counterexample): `exRootLateHandler` has EXACTLY ONE child
group of kind `exit_handler` (with an exit op), yet the assembled workflow
carries no `onExit`, because the source only inspects the FIRST child
group. -/
theorem C2_counterexample :
    (exRootLateHandler.groups.filter (fun g => g.type == "exit_handler")).length = 1
      ∧ exPipeLateHandler.groups = [exRootLateHandler]
      ∧ createPipelineWorkflow [] exPipeLateHandler (fun _ => [])
          = Except.ok exWorkflowLate
      ∧ exWorkflowLate.onExit = none :=
  ⟨rfl, rfl, rfl, rfl⟩

/-- Claim C2 (amended): in the assembled workflow, `spec.onExit` is set iff
the FIRST child group of the pipeline's root is of kind `exit_handler` and
carries an exit op, and then its value is that exit op's name. -/
theorem C2_onExit_iff_first_child (p : Pipeline) (root : OpsGroup) (rest : List OpsGroup)
    (args : List Param) (h : Op → List TemplateRec) (w : Workflow)
    (hg : p.groups = root :: rest)
    (hok : createPipelineWorkflow args p h = Except.ok w) :
    ∀ s, w.onExit = some s ↔
      ∃ fg grest, root.groups = fg :: grest ∧ fg.type = "exit_handler"
        ∧ ∃ e, fg.exit_op = some e ∧ s = e.name := by
  intro s
  unfold createPipelineWorkflow at hok
  rcases except_bind_ok_inv hok with ⟨t0, hT, hok2⟩
  injection hok2 with h2
  subst h2
  show Option.map (fun e => e.name) (workflowExitHandlerFromGroups p.groups) = some s ↔ _
  rw [hg]
  simp only [workflowExitHandlerFromGroups]
  cases hgs : root.groups with
  | nil =>
      simp only [workflowExitHandlerFirst, Option.map]
      constructor
      · intro hs; exact absurd hs (by simp)
      · rintro ⟨fg, grest, hgs2, _⟩
        exact absurd hgs2 (by simp)
  | cons fg grest =>
      simp only [workflowExitHandlerFirst]
      by_cases ht : fg.type = "exit_handler"
      · rw [if_pos ht]
        cases he : fg.exit_op with
        | none =>
            simp only [Option.map]
            constructor
            · intro hs; exact absurd hs (by simp)
            · rintro ⟨fg2, grest2, hgs2, ht2, e2, he2, _⟩
              injection hgs2 with hfg _
              rw [← hfg] at he2
              rw [he] at he2
              exact absurd he2 (by simp)
        | some e =>
            simp only [Option.map]
            constructor
            · intro hs
              injection hs with hs'
              exact ⟨fg, grest, rfl, ht, e, he, hs'.symm⟩
            · rintro ⟨fg2, grest2, hgs2, ht2, e2, he2, hse2⟩
              injection hgs2 with hfg _
              rw [← hfg] at he2
              rw [he] at he2
              injection he2 with he3
              rw [hse2, he3]
      · rw [if_neg ht]
        simp only [Option.map]
        constructor
        · intro hs; exact absurd hs (by simp)
        · rintro ⟨fg2, grest2, hgs2, ht2, _⟩
          injection hgs2 with hfg _
          rw [← hfg] at ht2
          exact absurd ht2 ht

/-- Witness for the amended C2 theorem: the two-handler pipeline has its
first root child of kind `exit_handler` with exit op `e1`, and the workflow
indeed sets `onExit` to `e1`. -/
theorem C2_onExit_iff_first_child_witness :
    exWorkflowTwoHandlers.onExit = some "e1" ↔
      ∃ fg grest, exRootTwoHandlers.groups = fg :: grest ∧ fg.type = "exit_handler"
        ∧ ∃ e, fg.exit_op = some e ∧ "e1" = e.name :=
  C2_onExit_iff_first_child exPipeTwoHandlers exRootTwoHandlers [] [] (fun _ => [])
    exWorkflowTwoHandlers rfl rfl "e1"

/-! ### Claim C3 -/

/-- Claim C3 (code bug): with the first name resolvable and the second name
`zz` resolvable in NEITHER index, `_get_uncommon_ancestors` raises an error
that names the FIRST entity (`a does not exist.`), not the unresolvable one:
the second lookup's failure branch reuses `op1.name`. -/
theorem C3_error_names_wrong_entity :
    resolveAncestry [("a", ["root", "a"])] [] "zz" = none
      ∧ getUncommonAncestors [("a", ["root", "a"])] [] "a" "zz"
          = Except.error "a does not exist."
      ∧ "a does not exist." ≠ "zz does not exist." :=
  ⟨rfl, rfl, by decide⟩

/-! ### Claim C5 -/

/-- Claim C5 (counterexample): for the recursive group `rloop`, the guarded
(condition) parameter `u-x` has downstream tail `["rloop"]`, whose deepest
element is also its first; the claim says the input record is suppressed on
the deepest element for guarded parameters, but the source's `i == 0` branch
takes priority and records the input `(u-x, g1)` on `rloop`. -/
theorem C5_counterexample :
    getUncommonAncestors (getGroupsForOps exRootRec) (getGroupsForOpsgroups exRootRec)
        "u" "rloop" = Except.ok (["g1", "u"], ["rloop"])
      ∧ lookupD exCondmRec "rloop" = [⟨"x", some "u", none⟩]
      ∧ getInputsOutputs exPipeRec exRootRec (getGroupsForOps exRootRec)
          (getGroupsForOpsgroups exRootRec) exCondmRec = Except.ok exLiftRecR
      ∧ ("u-x", some "g1") ∈ mapGet exLiftRecR.1 "rloop" :=
  ⟨rfl, rfl, rfl, by decide⟩

/-- The `i > 0` recursive-group loop without a condition param is the op
loop. -/
theorem addTailInputsRec_false (full : String) (gs : List String) (m : LiftMap) :
    addTailInputsRec full false gs m = addTailInputs full gs m := by
  induction gs generalizing m with
  | nil => rfl
  | cons g rest ih =>
      cases rest with
      | nil => simp [addTailInputsRec, addTailInputs]
      | cons g2 rest2 =>
          simp only [addTailInputsRec, addTailInputs]
          exact ih (mapAdd m g (full, none))

/-- The `i > 0` recursive-group loop with a condition param is the op loop
on the list without its last element. -/
theorem addTailInputsRec_true (full : String) (gs : List String) (m : LiftMap) :
    addTailInputsRec full true gs m = addTailInputs full gs.dropLast m := by
  induction gs generalizing m with
  | nil => rfl
  | cons g rest ih =>
      cases rest with
      | nil => simp [addTailInputsRec, addTailInputs, List.dropLast]
      | cons g2 rest2 =>
          simp only [addTailInputsRec, List.dropLast, addTailInputs]
          exact ih (mapAdd m g (full, none))

/-- The recursive-group downstream loop without a condition param is the op
downstream loop. -/
theorem addDownInputsRec_false (full u0 : String) (gs : List String) (m : LiftMap) :
    addDownInputsRec full u0 false gs m = addDownInputs full u0 gs m := by
  cases gs with
  | nil => rfl
  | cons g1 rest =>
      simp only [addDownInputsRec, addDownInputs]
      exact addTailInputsRec_false full rest (mapAdd m g1 (full, some u0))

/-- The per-parameter step shape shared by the op pass and the
recursive-group pass, abstracted over the downstream loop and the
skip-when-producer-less flag (for ops the exit-handler flag, for recursive
groups the guarded-parameter flag); both passes are definitionally this
shape. -/
def liftParamStep (pops : List Op) (opG grpG : List (String × List String))
    (gname : String) (acc : LiftMap × LiftMap) (param : Param) (skipNoProd : Bool)
    (downFn : String → String → List String → LiftMap → LiftMap) :
    Except String (LiftMap × LiftMap) :=
  if param.value.isSome then .ok acc
  else
    let full := pipelineparam_full_name param
    match param.op_name with
    | some pname =>
        match lookupOp pops pname with
        | none => .error ("KeyError: " ++ pname)
        | some upstream =>
            match getUncommonAncestors opG grpG upstream.name gname with
            | .error e => .error e
            | .ok (up, down) =>
                match down, up with
                | _ :: _, [] => .error "list index out of range"
                | [], _ => .ok (acc.1, addUpOutputs full up acc.2)
                | _ :: _, u0 :: _ => .ok (downFn full u0 down acc.1, addUpOutputs full up acc.2)
    | none =>
        if skipNoProd then .ok acc
        else
          match lookupStr opG gname with
          | none => .error ("KeyError: " ++ gname)
          | some gs => .ok (gs.foldl (fun m g => mapAdd m g (full, none)) acc.1, acc.2)

/-- Claim C5 (amended): a declared (non-guarded) parameter of a recursive
group is processed exactly as for a non-exit-handler op of the same name.  A
guarded (condition) parameter deviates twice: a guarded parameter WITHOUT a
producer is dropped entirely — no input recorded on any ancestor — where the
op step records a null-marker input on every ancestor group; and for a
produced guarded parameter the downstream loop suppresses the input on the
deepest tail element only when the tail has at least two elements — on a
one-element tail the `i == 0` branch takes priority and `(full, up[0])` is
still recorded. -/
theorem C5_guarded_lift (pops : List Op) (opG grpG : List (String × List String))
    (gname : String) (o : Op) (param pl : Param) (acc : LiftMap × LiftMap)
    (full u0 : String) (gs : List String) (m : LiftMap) (g : String)
    (ho_name : o.name = gname) (ho_eh : o.is_exit_handler = false)
    (hpl_prod : pl.op_name = none) (hpl_val : pl.value = none) :
    processRecParam pops opG grpG gname acc (param, false)
        = processOpParam pops opG grpG o param acc
      ∧ processRecParam pops opG grpG gname acc (pl, true) = .ok acc
      ∧ (∀ ags, lookupStr opG gname = some ags →
          processOpParam pops opG grpG o pl acc
            = .ok (ags.foldl
                (fun m' g' => mapAdd m' g' (pipelineparam_full_name pl, none)) acc.1,
                acc.2))
      ∧ addDownInputsRec full u0 false gs m = addDownInputs full u0 gs m
      ∧ addDownInputsRec full u0 true [g] m = mapAdd m g (full, some u0)
      ∧ (2 ≤ gs.length →
          addDownInputsRec full u0 true gs m = addDownInputs full u0 gs.dropLast m) := by
  obtain ⟨onm, oin, odep, oeh⟩ := o
  obtain ⟨qn, qon, qv⟩ := pl
  simp only [Op.name] at ho_name
  simp only [Op.is_exit_handler] at ho_eh
  simp only [Param.op_name] at hpl_prod
  simp only [Param.value] at hpl_val
  subst ho_name; subst ho_eh; subst hpl_prod; subst hpl_val
  refine ⟨?_, rfl, ?_, addDownInputsRec_false full u0 gs m, rfl, ?_⟩
  · have hRec : processRecParam pops opG grpG onm acc (param, false)
        = liftParamStep pops opG grpG onm acc param false
            (fun full' u0x down m' => addDownInputsRec full' u0x false down m') := rfl
    have hOp : processOpParam pops opG grpG ⟨onm, oin, odep, false⟩ param acc
        = liftParamStep pops opG grpG onm acc param false
            (fun full' u0x down m' => addDownInputs full' u0x down m') := rfl
    rw [hRec, hOp]
    exact congrArg _ (funext fun full' => funext fun u0x => funext fun down =>
      funext fun m' => addDownInputsRec_false full' u0x down m')
  · intro ags h
    show (match lookupStr opG onm with
        | none => Except.error ("KeyError: " ++ onm)
        | some gs2 => Except.ok
            (gs2.foldl (fun m' g' =>
              mapAdd m' g' (pipelineparam_full_name ⟨qn, none, none⟩, none)) acc.1, acc.2))
      = _
    rw [h]
  · intro hlen
    cases gs with
    | nil => simp at hlen
    | cons g1 rest =>
        cases rest with
        | nil => simp at hlen
        | cons g2 rest2 =>
            simp only [addDownInputsRec, List.dropLast, addDownInputs]
            exact addTailInputsRec_true full (g2 :: rest2) (mapAdd m g1 (full, some u0))

/-- Witness for the amended C5 theorem at concrete inputs: the non-guarded
step equals the op step; the guarded producer-less parameter `q` is dropped
while the op step records it on both ancestors; the guarded downstream loop
still records on a one-element tail and drops the deepest element of a
two-element tail. -/
theorem C5_guarded_lift_witness :
    processRecParam [] [("rl", ["root", "rl"])] [] "rl" ([], []) (⟨"x", some "u", none⟩, false)
        = processOpParam [] [("rl", ["root", "rl"])] [] { name := "rl" }
            ⟨"x", some "u", none⟩ ([], [])
      ∧ processRecParam [] [("rl", ["root", "rl"])] [] "rl" ([], []) (⟨"q", none, none⟩, true)
          = Except.ok ([], [])
      ∧ processOpParam [] [("rl", ["root", "rl"])] [] { name := "rl" }
            ⟨"q", none, none⟩ ([], [])
          = Except.ok ([("root", [("q", none)]), ("rl", [("q", none)])], [])
      ∧ addDownInputsRec "u-x" "g1" true ["c"] [] = mapAdd [] "c" ("u-x", some "g1")
      ∧ addDownInputsRec "u-x" "g1" true ["a", "b"] []
          = addDownInputs "u-x" "g1" (["a", "b"].dropLast) [] := by
  have h := C5_guarded_lift [] [("rl", ["root", "rl"])] [] "rl" { name := "rl" }
    ⟨"x", some "u", none⟩ ⟨"q", none, none⟩ ([], []) "u-x" "g1" ["a", "b"] [] "c"
    rfl rfl rfl rfl
  exact ⟨h.1, h.2.1, (h.2.2.1 ["root", "rl"] rfl).trans rfl,
    h.2.2.2.2.1, h.2.2.2.2.2 (by decide)⟩

/-! ### Monotonicity of the lift accumulation -/

/-- Pointwise membership inclusion on an inputs/outputs pair. -/
def PairLe (a b : LiftMap × LiftMap) : Prop := MapLe a.1 b.1 ∧ MapLe a.2 b.2

theorem PairLe.refl (a : LiftMap × LiftMap) : PairLe a a :=
  ⟨MapLe.rfl _, MapLe.rfl _⟩

theorem PairLe.trans {a b c : LiftMap × LiftMap} (h1 : PairLe a b) (h2 : PairLe b c) :
    PairLe a c :=
  ⟨MapLe.comp h1.1 h2.1, MapLe.comp h1.2 h2.2⟩

theorem PairLe.mk {a : LiftMap × LiftMap} {x y : LiftMap}
    (h1 : MapLe a.1 x) (h2 : MapLe a.2 y) : PairLe a (x, y) := ⟨h1, h2⟩

theorem addTailInputs_le (full : String) (gs : List String) (m : LiftMap) :
    MapLe m (addTailInputs full gs m) := by
  induction gs generalizing m with
  | nil => exact MapLe.rfl m
  | cons g rest ih =>
      exact MapLe.comp (MapLe.addKey m g (full, none)) (ih (mapAdd m g (full, none)))

theorem addDownInputs_le (full u0 : String) (gs : List String) (m : LiftMap) :
    MapLe m (addDownInputs full u0 gs m) := by
  cases gs with
  | nil => exact MapLe.rfl m
  | cons g rest =>
      exact MapLe.comp (MapLe.addKey m g (full, some u0))
        (addTailInputs_le full rest (mapAdd m g (full, some u0)))

theorem addUpOutputs_le (full : String) (gs : List String) (m : LiftMap) :
    MapLe m (addUpOutputs full gs m) := by
  induction gs generalizing m with
  | nil => exact MapLe.rfl m
  | cons g rest ih =>
      cases rest with
      | nil => exact MapLe.addKey m g (full, none)
      | cons g2 rest2 =>
          exact MapLe.comp (MapLe.addKey m g (full, some g2))
            (ih (mapAdd m g (full, some g2)))

theorem addTailInputsRec_le (full : String) (isCond : Bool) (gs : List String) (m : LiftMap) :
    MapLe m (addTailInputsRec full isCond gs m) := by
  induction gs generalizing m with
  | nil => exact MapLe.rfl m
  | cons g rest ih =>
      cases rest with
      | nil =>
          cases isCond with
          | true => exact MapLe.rfl m
          | false => exact MapLe.addKey m g (full, none)
      | cons g2 rest2 =>
          exact MapLe.comp (MapLe.addKey m g (full, none)) (ih (mapAdd m g (full, none)))

theorem addDownInputsRec_le (full u0 : String) (isCond : Bool) (gs : List String)
    (m : LiftMap) : MapLe m (addDownInputsRec full u0 isCond gs m) := by
  cases gs with
  | nil => exact MapLe.rfl m
  | cons g rest =>
      exact MapLe.comp (MapLe.addKey m g (full, some u0))
        (addTailInputsRec_le full isCond rest (mapAdd m g (full, some u0)))

theorem foldlAdd_le (full : String) (gs : List String) (m : LiftMap) :
    MapLe m (gs.foldl (fun m g => mapAdd m g (full, none)) m) := by
  induction gs generalizing m with
  | nil => exact MapLe.rfl m
  | cons g rest ih =>
      exact MapLe.comp (MapLe.addKey m g (full, none)) (ih (mapAdd m g (full, none)))

/-- A successful per-parameter op step only accumulates records. -/
theorem processOpParam_le (pops : List Op) (opG grpG : List (String × List String))
    (op : Op) (param : Param) (acc acc' : LiftMap × LiftMap)
    (h : processOpParam pops opG grpG op param acc = .ok acc') : PairLe acc acc' := by
  simp only [processOpParam] at h
  split at h
  · injection h with h'; rw [← h']; exact PairLe.refl acc
  · split at h
    · split at h
      · exact absurd h (by simp)
      · split at h
        · exact absurd h (by simp)
        · split at h
          · exact absurd h (by simp)
          · injection h with h'
            rw [← h']
            exact PairLe.mk (MapLe.rfl _) (addUpOutputs_le _ _ _)
          · injection h with h'
            rw [← h']
            exact PairLe.mk (addDownInputs_le _ _ _ _) (addUpOutputs_le _ _ _)
    · split at h
      · injection h with h'; rw [← h']; exact PairLe.refl acc
      · split at h
        · exact absurd h (by simp)
        · injection h with h'
          rw [← h']
          exact PairLe.mk (foldlAdd_le _ _ _) (MapLe.rfl _)

/-- A successful per-parameter recursive-group step only accumulates
records. -/
theorem processRecParam_le (pops : List Op) (opG grpG : List (String × List String))
    (gname : String) (acc acc' : LiftMap × LiftMap) (pc : Param × Bool)
    (h : processRecParam pops opG grpG gname acc pc = .ok acc') : PairLe acc acc' := by
  simp only [processRecParam] at h
  split at h
  · injection h with h'; rw [← h']; exact PairLe.refl acc
  · split at h
    · split at h
      · exact absurd h (by simp)
      · split at h
        · exact absurd h (by simp)
        · split at h
          · exact absurd h (by simp)
          · injection h with h'
            rw [← h']
            exact PairLe.mk (MapLe.rfl _) (addUpOutputs_le _ _ _)
          · injection h with h'
            rw [← h']
            exact PairLe.mk (addDownInputsRec_le _ _ _ _ _) (addUpOutputs_le _ _ _)
    · split at h
      · injection h with h'; rw [← h']; exact PairLe.refl acc
      · split at h
        · exact absurd h (by simp)
        · injection h with h'
          rw [← h']
          exact PairLe.mk (foldlAdd_le _ _ _) (MapLe.rfl _)

/-- Generic: a successful `foldlM` over `Except` relates its start to its
end through any reflexive transitive relation preserved by the step. -/
theorem foldlM_rel {α β : Type} (R : α → α → Prop) (hrefl : ∀ a, R a a)
    (htrans : ∀ a b c, R a b → R b c → R a c)
    (step : α → β → Except String α)
    (hstep : ∀ acc b acc', step acc b = .ok acc' → R acc acc') :
    ∀ (l : List β) (acc acc'), l.foldlM step acc = .ok acc' → R acc acc'
  | [], acc, acc', h => by
      rw [List.foldlM_nil] at h
      injection h with h'
      rw [← h']; exact hrefl acc
  | b :: l, acc, acc', h => by
      rw [List.foldlM_cons] at h
      rcases except_bind_ok_inv h with ⟨a2, h1, h2⟩
      exact htrans _ _ _ (hstep acc b a2 h1) (foldlM_rel R hrefl htrans step hstep l a2 acc' h2)

/-- A successful `recNodeParams` only accumulates records. -/
theorem recNodeParams_le (pops : List Op) (opG grpG : List (String × List String))
    (condm : List (String × List Param)) (gname : String) (isRec : Bool)
    (ins : List Param) (acc acc' : LiftMap × LiftMap)
    (h : recNodeParams pops opG grpG condm gname isRec ins acc = .ok acc') :
    PairLe acc acc' := by
  unfold recNodeParams at h
  split at h
  · exact foldlM_rel PairLe PairLe.refl (fun _ _ _ => PairLe.trans)
      (processRecParam pops opG grpG gname)
      (fun a b a' hh => processRecParam_le pops opG grpG gname a a' b hh) _ acc acc' h
  · injection h with h'; rw [← h']; exact PairLe.refl acc

mutual

/-- A successful recursive-group pass on one group only accumulates. -/
theorem recPassEnter_le : ∀ (pops : List Op) (opG grpG : List (String × List String))
    (condm : List (String × List Param)) (acc : LiftMap × LiftMap) (g : OpsGroup)
    (acc' : LiftMap × LiftMap),
    recPassEnter pops opG grpG condm acc g = .ok acc' → PairLe acc acc'
  | pops, opG, grpG, condm, acc, .mk n t gs os r i c d e, acc', h => by
      simp only [recPassEnter] at h
      rcases except_bind_ok_inv h with ⟨a2, h1, h2⟩
      exact (recNodeParams_le pops opG grpG condm n r.isSome i acc a2 h1).trans
        (recPassChildren_le pops opG grpG condm a2 gs acc' h2)

/-- A successful recursive-group pass on a child list only accumulates. -/
theorem recPassChildren_le : ∀ (pops : List Op) (opG grpG : List (String × List String))
    (condm : List (String × List Param)) (acc : LiftMap × LiftMap) (gs : List OpsGroup)
    (acc' : LiftMap × LiftMap),
    recPassChildren pops opG grpG condm acc gs = .ok acc' → PairLe acc acc'
  | pops, opG, grpG, condm, acc, [], acc', h => by
      simp only [recPassChildren] at h
      injection h with h'
      rw [← h']; exact PairLe.refl acc
  | pops, opG, grpG, condm, acc, g :: rest, acc', h => by
      simp only [recPassChildren] at h
      rcases except_bind_ok_inv h with ⟨a2, h1, h2⟩
      exact (recPassEnter_le pops opG grpG condm acc g a2 h1).trans
        (recPassChildren_le pops opG grpG condm a2 rest acc' h2)

end

/-! ### Membership in the lift loops -/

theorem addTailInputs_mem (full : String) (gs : List String) (m : LiftMap) :
    ∀ g ∈ gs, (full, (none : Option String)) ∈ mapGet (addTailInputs full gs m) g := by
  induction gs generalizing m with
  | nil => intro g hg; simp at hg
  | cons g0 rest ih =>
      intro g hg
      rcases List.mem_cons.mp hg with h | h
      · subst h
        exact addTailInputs_le full rest _ g _
          (mem_mapGet_mapAdd_self m g (full, none))
      · exact ih (mapAdd m g0 (full, none)) g h

theorem addDownInputs_mem_head (full u0 d0 : String) (dr : List String) (m : LiftMap) :
    (full, some u0) ∈ mapGet (addDownInputs full u0 (d0 :: dr) m) d0 :=
  addTailInputs_le full dr _ d0 _ (mem_mapGet_mapAdd_self m d0 (full, some u0))

theorem addDownInputs_mem_tail (full u0 d0 : String) (dr : List String) (m : LiftMap) :
    ∀ g ∈ dr, (full, (none : Option String)) ∈ mapGet (addDownInputs full u0 (d0 :: dr) m) g :=
  fun g hg => addTailInputs_mem full dr (mapAdd m d0 (full, some u0)) g hg

theorem addUpOutputs_mem (full : String) (gs : List String) (m : LiftMap) :
    ∀ i, i < gs.length →
      (full, if i + 1 < gs.length then some (gs.getD (i + 1) "") else none)
        ∈ mapGet (addUpOutputs full gs m) (gs.getD i "") := by
  induction gs generalizing m with
  | nil => intro i hi; simp at hi
  | cons g rest ih =>
      intro i hi
      cases rest with
      | nil =>
          cases i with
          | zero =>
              simp only [List.getD_cons_zero, addUpOutputs]
              rw [if_neg (by simp)]
              exact mem_mapGet_mapAdd_self m g (full, none)
          | succ j => simp at hi
      | cons g2 rest2 =>
          simp only [addUpOutputs]
          cases i with
          | zero =>
              simp only [List.getD_cons_zero, List.getD_cons_succ]
              rw [if_pos (by simp)]
              exact addUpOutputs_le full (g2 :: rest2) _ g _
                (mem_mapGet_mapAdd_self m g (full, some g2))
          | succ j =>
              have hj : j < (g2 :: rest2).length := by
                simp only [List.length_cons] at hi ⊢
                omega
              have hmem := ih (mapAdd m g (full, some g2)) j hj
              simp only [List.getD_cons_succ] at hmem ⊢
              by_cases hc : j + 1 < (g2 :: rest2).length
              · rw [if_pos hc] at hmem
                rw [if_pos (by simp only [List.length_cons] at hc ⊢; omega)]
                exact hmem
              · rw [if_neg hc] at hmem
                rw [if_neg (by simp only [List.length_cons] at hc ⊢; omega)]
                exact hmem

/-! ### Claim C4 -/

/-- Claim C4: for every op consuming a non-immediate produced parameter, the
lift maps returned by `_get_inputs_outputs` contain, along the
uncommon-ancestor tails `(up, down)` of the producer and the consumer, an
input `(F, up[0])` on the first downstream group and `(F, null)` on every
later one, and an output `(F, up[i+1])` on each upstream group except the
last, which gets `(F, null)`. -/
theorem C4_produced_param_lift
    (p : Pipeline) (root : OpsGroup) (opG grpG : List (String × List String))
    (condm : List (String × List Param)) (io : LiftMap × LiftMap)
    (op : Op) (param : Param) (uname : String) (upstream : Op)
    (up down : List String)
    (hio : getInputsOutputs p root opG grpG condm = .ok io)
    (hop : op ∈ p.ops)
    (hparam : param ∈ op.inputs ++ lookupD condm op.name)
    (hval : param.value = none)
    (hprod : param.op_name = some uname)
    (hup : lookupOp p.ops uname = some upstream)
    (hanc : getUncommonAncestors opG grpG upstream.name op.name = .ok (up, down)) :
    (∀ d0 dr, down = d0 :: dr →
        ∃ u0 ur, up = u0 :: ur
          ∧ (pipelineparam_full_name param, some u0) ∈ mapGet io.1 d0
          ∧ ∀ g ∈ dr,
              (pipelineparam_full_name param, (none : Option String)) ∈ mapGet io.1 g)
      ∧ (∀ i, i < up.length →
          (pipelineparam_full_name param,
            if i + 1 < up.length then some (up.getD (i + 1) "") else none)
            ∈ mapGet io.2 (up.getD i "")) := by
  unfold getInputsOutputs at hio
  rcases except_bind_ok_inv hio with ⟨accA, hops_fold, hrec⟩
  have hio_le : PairLe accA io := recPassEnter_le _ _ _ _ _ _ _ hrec
  obtain ⟨l1, l2, hl⟩ := List.append_of_mem hop
  have hops_fold2 : List.foldlM
      (fun a op => (op.inputs ++ lookupD condm op.name).foldlM
        (fun a q => processOpParam p.ops opG grpG op q a) a)
      (([], []) : LiftMap × LiftMap) (l1 ++ op :: l2) = .ok accA := by
    rw [← hl]; exact hops_fold
  rw [List.foldlM_append] at hops_fold2
  rcases except_bind_ok_inv hops_fold2 with ⟨a1, hfold1, hmid⟩
  rw [List.foldlM_cons] at hmid
  rcases except_bind_ok_inv hmid with ⟨a2, hstep_op, hfold2⟩
  have hOpStepLe : ∀ (acc : LiftMap × LiftMap) (b : Op) (acc' : LiftMap × LiftMap),
      (op.inputs ++ lookupD condm b.name).foldlM
        (fun a q => processOpParam p.ops opG grpG b q a) acc = .ok acc' →
      PairLe acc acc' := fun acc b acc' hh =>
    foldlM_rel PairLe PairLe.refl (fun _ _ _ => PairLe.trans) _
      (fun a q a' hq => processOpParam_le p.ops opG grpG b q a a' hq) _ acc acc' hh
  have hfold2_le : PairLe a2 accA :=
    foldlM_rel PairLe PairLe.refl (fun _ _ _ => PairLe.trans)
      (fun a b => (b.inputs ++ lookupD condm b.name).foldlM
        (fun a q => processOpParam p.ops opG grpG b q a) a)
      (fun acc b acc' hh =>
        foldlM_rel PairLe PairLe.refl (fun _ _ _ => PairLe.trans) _
          (fun a q a' hq => processOpParam_le p.ops opG grpG b q a a' hq) _ acc acc' hh)
      l2 a2 accA hfold2
  have hstep_op' : (op.inputs ++ lookupD condm op.name).foldlM
      (fun a q => processOpParam p.ops opG grpG op q a) a1 = .ok a2 := hstep_op
  obtain ⟨q1, q2, hq⟩ := List.append_of_mem hparam
  rw [hq, List.foldlM_append] at hstep_op'
  rcases except_bind_ok_inv hstep_op' with ⟨b1, hfq1, hmid2⟩
  rw [List.foldlM_cons] at hmid2
  rcases except_bind_ok_inv hmid2 with ⟨b2, hstep_param, hfq2⟩
  have hfq2_le : PairLe b2 a2 :=
    foldlM_rel PairLe PairLe.refl (fun _ _ _ => PairLe.trans) _
      (fun a q a' hq2 => processOpParam_le p.ops opG grpG op q a a' hq2) q2 b2 a2 hfq2
  have hble : PairLe b2 io := hfq2_le.trans (hfold2_le.trans hio_le)
  have hstep_param' : processOpParam p.ops opG grpG op param b1 = .ok b2 := hstep_param
  simp only [processOpParam, hval, hprod, hup, hanc, Option.isSome_none,
    Bool.false_eq_true, if_false] at hstep_param'
  cases down with
  | nil =>
      constructor
      · intro d0 dr hd; exact absurd hd (by simp)
      · intro i hi
        injection hstep_param' with hb2
        rw [← hb2] at hble
        exact hble.2 _ _ (addUpOutputs_mem (pipelineparam_full_name param) up b1.2 i hi)
  | cons d0 dr =>
      cases up with
      | nil => exact absurd hstep_param' (by simp)
      | cons u0 ur =>
          injection hstep_param' with hb2
          rw [← hb2] at hble
          constructor
          · intro d0' dr' hd
            injection hd with hd0 hdr
            refine ⟨u0, ur, rfl, ?_, ?_⟩
            · rw [← hd0]
              exact hble.1 _ _
                (addDownInputs_mem_head (pipelineparam_full_name param) u0 d0 dr b1.1)
            · intro g hg
              rw [← hdr] at hg
              exact hble.1 _ _
                (addDownInputs_mem_tail (pipelineparam_full_name param) u0 d0 dr b1.1 g hg)
          · intro i hi
            exact hble.2 _ _
              (addUpOutputs_mem (pipelineparam_full_name param) (u0 :: ur) b1.2 i hi)

/-- The cross-scope example: `a` at the root produces `x`, consumed by `b`
inside the condition group `cond-1`. -/
def exCondC : Cond :=
  { operand1 := .param ⟨"p", none, none⟩, operator := "==", operand2 := .lit "v" }

def exGrpC : OpsGroup := .mk "cond-1" "condition" [] [exOpB] none [] (some exCondC) [] none

def exRootCross : OpsGroup := .mk "root" "pipeline" [exGrpC] [exOpA] none [] none [] none

def exPipeCross : Pipeline :=
  { name := "pipe", groups := [exRootCross], ops := [exOpA, exOpB] }

/-- The lift maps computed for `exPipeCross`. -/
def exLiftCross : LiftMap × LiftMap :=
  (getInputsOutputs exPipeCross exRootCross (getGroupsForOps exRootCross)
    (getGroupsForOpsgroups exRootCross) (getConditionParams exRootCross)).toOption.getD
    ([], [])

/-- Witness for C4 on the cross-scope example: `up = [a]`,
`down = [cond-1, b]`, so `cond-1` gets input `(a-x, a)`, `b` gets input
`(a-x, null)`, and `a` gets output `(a-x, null)`. -/
theorem C4_produced_param_lift_witness :
    ("a-x", some "a") ∈ mapGet exLiftCross.1 "cond-1"
      ∧ ("a-x", (none : Option String)) ∈ mapGet exLiftCross.1 "b"
      ∧ ("a-x", (none : Option String)) ∈ mapGet exLiftCross.2 "a" := by
  have h := C4_produced_param_lift exPipeCross exRootCross
    (getGroupsForOps exRootCross) (getGroupsForOpsgroups exRootCross)
    (getConditionParams exRootCross) exLiftCross exOpB ⟨"x", some "a", none⟩ "a" exOpA
    ["a"] ["cond-1", "b"] rfl (by decide) (by decide) rfl rfl rfl rfl
  obtain ⟨hdown, hup2⟩ := h
  obtain ⟨u0, ur, hu, m1, m2⟩ := hdown "cond-1" ["b"] rfl
  have hu0 : u0 = "a" := by injection hu with h1 _; exact h1.symm
  refine ⟨?_, ?_, ?_⟩
  · rw [hu0] at m1; exact m1
  · exact m2 "b" (by decide)
  · exact hup2 0 (by decide)

/-! ### Provenance of lifted records (claim C7) -/

/-- `full` is the full name of some non-immediate parameter in `S`. -/
def GoodName (S : List Param) (full : String) : Prop :=
  ∃ q, q ∈ S ∧ q.value = none ∧ pipelineparam_full_name q = full

/-- Every record of the map is named after a non-immediate parameter of
`S`. -/
def ProvenancedBy (S : List Param) (m : LiftMap) : Prop :=
  ∀ k r, r ∈ mapGet m k → GoodName S r.1

/-- Provenance of an inputs/outputs pair. -/
def PairProv (S : List Param) (acc : LiftMap × LiftMap) : Prop :=
  ProvenancedBy S acc.1 ∧ ProvenancedBy S acc.2

theorem PairProv.mk' {S : List Param} {acc : LiftMap × LiftMap} {x y : LiftMap}
    (h1 : ProvenancedBy S x) (h2 : ProvenancedBy S y) (hx : acc = (x, y)) :
    PairProv S acc := by rw [hx]; exact ⟨h1, h2⟩

theorem ProvenancedBy.mapAdd {S : List Param} {m : LiftMap} {full : String}
    (k : String) (mk : Option String) (h : ProvenancedBy S m) (hg : GoodName S full) :
    ProvenancedBy S (Kfp.mapAdd m k (full, mk)) := by
  intro k' r hr
  rcases mem_mapGet_mapAdd_cases hr with h1 | ⟨_, h2⟩
  · exact h k' r h1
  · rw [h2]; exact hg

theorem ProvenancedBy.addTailInputs {S : List Param} {full : String}
    (hg : GoodName S full) :
    ∀ (gs : List String) (m : LiftMap), ProvenancedBy S m →
      ProvenancedBy S (Kfp.addTailInputs full gs m)
  | [], _, h => h
  | g :: rest, _, h =>
      ProvenancedBy.addTailInputs hg rest _ (h.mapAdd g none hg)

theorem ProvenancedBy.addDownInputs {S : List Param} {full u0 : String}
    (hg : GoodName S full) (gs : List String) (m : LiftMap) (h : ProvenancedBy S m) :
    ProvenancedBy S (Kfp.addDownInputs full u0 gs m) := by
  cases gs with
  | nil => exact h
  | cons g rest => exact ProvenancedBy.addTailInputs hg rest _ (h.mapAdd g (some u0) hg)

theorem ProvenancedBy.addUpOutputs {S : List Param} {full : String}
    (hg : GoodName S full) :
    ∀ (gs : List String) (m : LiftMap), ProvenancedBy S m →
      ProvenancedBy S (Kfp.addUpOutputs full gs m)
  | [], _, h => h
  | [g], _, h => h.mapAdd g none hg
  | g :: g2 :: rest, _, h =>
      ProvenancedBy.addUpOutputs hg (g2 :: rest) _ (h.mapAdd g (some g2) hg)

theorem ProvenancedBy.addTailInputsRec {S : List Param} {full : String} {isCond : Bool}
    (hg : GoodName S full) :
    ∀ (gs : List String) (m : LiftMap), ProvenancedBy S m →
      ProvenancedBy S (Kfp.addTailInputsRec full isCond gs m)
  | [], m, h => h
  | [g], m, h => by
      cases isCond with
      | true => exact h
      | false => exact h.mapAdd g none hg
  | g :: g2 :: rest, m, h =>
      ProvenancedBy.addTailInputsRec hg (g2 :: rest) _ (h.mapAdd g none hg)

theorem ProvenancedBy.addDownInputsRec {S : List Param} {full u0 : String} {isCond : Bool}
    (hg : GoodName S full) (gs : List String) (m : LiftMap) (h : ProvenancedBy S m) :
    ProvenancedBy S (Kfp.addDownInputsRec full u0 isCond gs m) := by
  cases gs with
  | nil => exact h
  | cons g rest => exact ProvenancedBy.addTailInputsRec hg rest _ (h.mapAdd g (some u0) hg)

theorem ProvenancedBy.foldlAdd {S : List Param} {full : String} (hg : GoodName S full) :
    ∀ (gs : List String) (m : LiftMap), ProvenancedBy S m →
      ProvenancedBy S (gs.foldl (fun m g => Kfp.mapAdd m g (full, none)) m)
  | [], _, h => h
  | g :: rest, _, h => ProvenancedBy.foldlAdd hg rest _ (h.mapAdd g none hg)

/-- Generic invariant preservation along a successful `foldlM`. -/
theorem foldlM_inv {α β : Type} (P : α → Prop) (step : α → β → Except String α) :
    ∀ (l : List β),
      (∀ b ∈ l, ∀ acc acc', step acc b = .ok acc' → P acc → P acc') →
      ∀ acc acc', l.foldlM step acc = .ok acc' → P acc → P acc'
  | [], _, acc, acc', h, hP => by
      rw [List.foldlM_nil] at h
      injection h with h'
      rw [← h']; exact hP
  | b :: l, hstep, acc, acc', h, hP => by
      rw [List.foldlM_cons] at h
      rcases except_bind_ok_inv h with ⟨a2, h1, h2⟩
      exact foldlM_inv P step l (fun b' hb' => hstep b' (List.mem_cons_of_mem b hb'))
        a2 acc' h2 (hstep b (List.mem_cons_self b l) acc a2 h1 hP)

/-- A successful per-parameter op step keeps provenance when the parameter
is in `S`. -/
theorem processOpParam_prov {S : List Param} (pops : List Op)
    (opG grpG : List (String × List String)) (op : Op) (param : Param)
    (hmem : param ∈ S) (acc acc' : LiftMap × LiftMap)
    (h : processOpParam pops opG grpG op param acc = .ok acc')
    (hP : PairProv S acc) : PairProv S acc' := by
  simp only [processOpParam] at h
  split at h
  · injection h with h'; rw [← h']; exact hP
  · rename_i hval
    have hg : GoodName S (pipelineparam_full_name param) :=
      ⟨param, hmem, by
        cases hv : param.value with
        | none => rfl
        | some v => rw [hv] at hval; simp at hval, rfl⟩
    split at h
    · split at h
      · exact absurd h (by simp)
      · split at h
        · exact absurd h (by simp)
        · split at h
          · exact absurd h (by simp)
          · injection h with h'
            exact PairProv.mk' hP.1 (ProvenancedBy.addUpOutputs hg _ _ hP.2) h'.symm
          · injection h with h'
            exact PairProv.mk' (ProvenancedBy.addDownInputs hg _ _ hP.1)
              (ProvenancedBy.addUpOutputs hg _ _ hP.2) h'.symm
    · split at h
      · injection h with h'; rw [← h']; exact hP
      · split at h
        · exact absurd h (by simp)
        · injection h with h'
          exact PairProv.mk' (ProvenancedBy.foldlAdd hg _ _ hP.1) hP.2 h'.symm

/-- A successful per-parameter recursive-group step keeps provenance when
the parameter is in `S`. -/
theorem processRecParam_prov {S : List Param} (pops : List Op)
    (opG grpG : List (String × List String)) (gname : String)
    (acc acc' : LiftMap × LiftMap) (pc : Param × Bool)
    (hmem : pc.1 ∈ S)
    (h : processRecParam pops opG grpG gname acc pc = .ok acc')
    (hP : PairProv S acc) : PairProv S acc' := by
  simp only [processRecParam] at h
  split at h
  · injection h with h'; rw [← h']; exact hP
  · rename_i hval
    have hg : GoodName S (pipelineparam_full_name pc.1) :=
      ⟨pc.1, hmem, by
        cases hv : pc.1.value with
        | none => rfl
        | some v => rw [hv] at hval; simp at hval, rfl⟩
    split at h
    · split at h
      · exact absurd h (by simp)
      · split at h
        · exact absurd h (by simp)
        · split at h
          · exact absurd h (by simp)
          · injection h with h'
            exact PairProv.mk' hP.1 (ProvenancedBy.addUpOutputs hg _ _ hP.2) h'.symm
          · injection h with h'
            exact PairProv.mk' (ProvenancedBy.addDownInputsRec hg _ _ hP.1)
              (ProvenancedBy.addUpOutputs hg _ _ hP.2) h'.symm
    · split at h
      · injection h with h'; rw [← h']; exact hP
      · split at h
        · exact absurd h (by simp)
        · injection h with h'
          exact PairProv.mk' (ProvenancedBy.foldlAdd hg _ _ hP.1) hP.2 h'.symm

/-- A successful `recNodeParams` keeps provenance when the group's lifted
parameters are all in `S`. -/
theorem recNodeParams_prov {S : List Param} (pops : List Op)
    (opG grpG : List (String × List String)) (condm : List (String × List Param))
    (gname : String) (isRec : Bool) (ins : List Param) (acc acc' : LiftMap × LiftMap)
    (hsub : (if isRec then ins ++ lookupD condm gname else []) ⊆ S)
    (h : recNodeParams pops opG grpG condm gname isRec ins acc = .ok acc')
    (hP : PairProv S acc) : PairProv S acc' := by
  unfold recNodeParams at h
  split at h
  · rename_i hrec
    rw [if_pos hrec] at hsub
    refine foldlM_inv (PairProv S) _ _ ?_ acc acc' h hP
    intro pc hpc a a' hstep hPa
    refine processRecParam_prov pops opG grpG gname a a' pc ?_ hstep hPa
    rcases List.mem_append.mp hpc with hin | hin
    · rcases List.mem_map.mp hin with ⟨q, hq, hqe⟩
      rw [← hqe]
      exact hsub (List.mem_append_left _ hq)
    · rcases List.mem_map.mp hin with ⟨q, hq, hqe⟩
      rw [← hqe]
      exact hsub (List.mem_append_right _ hq)
  · injection h with h'; rw [← h']; exact hP

mutual

/-- Recursive-group pass provenance, one group. -/
theorem recPassEnter_prov : ∀ (S : List Param) (pops : List Op)
    (opG grpG : List (String × List String)) (condm : List (String × List Param))
    (acc : LiftMap × LiftMap) (g : OpsGroup) (acc' : LiftMap × LiftMap),
    recParamsEnter condm g ⊆ S →
    recPassEnter pops opG grpG condm acc g = .ok acc' →
    PairProv S acc → PairProv S acc'
  | S, pops, opG, grpG, condm, acc, .mk n t gs os r i c d e, acc', hsub, h, hP => by
      simp only [recPassEnter] at h
      rcases except_bind_ok_inv h with ⟨a2, h1, h2⟩
      simp only [recParamsEnter] at hsub
      have hsub1 : (if r.isSome then i ++ lookupD condm n else []) ⊆ S :=
        fun x hx => hsub (List.mem_append_left _ hx)
      have hsub2 : recParamsChildren condm gs ⊆ S :=
        fun x hx => hsub (List.mem_append_right _ hx)
      exact recPassChildren_prov S pops opG grpG condm a2 gs acc' hsub2 h2
        (recNodeParams_prov pops opG grpG condm n r.isSome i acc a2 hsub1 h1 hP)

/-- Recursive-group pass provenance, child list. -/
theorem recPassChildren_prov : ∀ (S : List Param) (pops : List Op)
    (opG grpG : List (String × List String)) (condm : List (String × List Param))
    (acc : LiftMap × LiftMap) (gs : List OpsGroup) (acc' : LiftMap × LiftMap),
    recParamsChildren condm gs ⊆ S →
    recPassChildren pops opG grpG condm acc gs = .ok acc' →
    PairProv S acc → PairProv S acc'
  | S, pops, opG, grpG, condm, acc, [], acc', _, h, hP => by
      simp only [recPassChildren] at h
      injection h with h'
      rw [← h']; exact hP
  | S, pops, opG, grpG, condm, acc, g :: rest, acc', hsub, h, hP => by
      simp only [recPassChildren] at h
      rcases except_bind_ok_inv h with ⟨a2, h1, h2⟩
      simp only [recParamsChildren] at hsub
      have hsub1 : recParamsEnter condm g ⊆ S :=
        fun x hx => hsub (List.mem_append_left _ hx)
      have hsub2 : recParamsChildren condm rest ⊆ S :=
        fun x hx => hsub (List.mem_append_right _ hx)
      exact recPassChildren_prov S pops opG grpG condm a2 rest acc' hsub2 h2
        (recPassEnter_prov S pops opG grpG condm acc g a2 hsub1 h1 hP)

end

/-! ### Membership through the stable sort -/

theorem mem_insertSorted {α : Type} (le : α → α → Bool) (a b : α) :
    ∀ l, b ∈ insertSorted le a l ↔ b = a ∨ b ∈ l
  | [] => by simp [insertSorted]
  | c :: l => by
      simp only [insertSorted]
      split
      · rw [List.mem_cons, mem_insertSorted le a b l, List.mem_cons]
        tauto
      · simp only [List.mem_cons]

theorem mem_foldl_insertSorted {α : Type} (le : α → α → Bool) (b : α) :
    ∀ (l : List α) (acc : List α),
      b ∈ l.foldl (fun s a => insertSorted le a s) acc ↔ b ∈ acc ∨ b ∈ l
  | [], acc => by simp
  | a :: l, acc => by
      rw [List.foldl_cons, mem_foldl_insertSorted le b l (insertSorted le a acc),
        mem_insertSorted le a b acc, List.mem_cons]
      tauto

theorem mem_sortBy {α : Type} (le : α → α → Bool) (l : List α) (b : α) :
    b ∈ sortBy le l ↔ b ∈ l := by
  unfold sortBy
  rw [mem_foldl_insertSorted le b l []]
  simp

/-! ### Claim C7 -/

/-- Claim C7: no parameter carrying an immediate value is ever recorded as
an input or output of any group — every record in the lift maps is named
after some walked parameter whose `value` is absent — and consequently every
name in any emitted template's `inputs.parameters` or `outputs.parameters`
is the full name of such a non-immediate parameter. -/
theorem C7_no_immediate_surfaced (p : Pipeline) (root : OpsGroup)
    (opG grpG : List (String × List String)) (condm : List (String × List Param))
    (io : LiftMap × LiftMap)
    (hio : getInputsOutputs p root opG grpG condm = .ok io) :
    (∀ k r, r ∈ mapGet io.1 k → GoodName (liftedParams p condm root) r.1)
      ∧ (∀ k r, r ∈ mapGet io.2 k → GoodName (liftedParams p condm root) r.1)
      ∧ (∀ (g : OpsGroup) (dm : DepMap) (tmpl : TemplateRec),
          groupToTemplate g io.1 io.2 dm = .ok tmpl →
          (∀ nm ∈ tmpl.inputsParams, GoodName (liftedParams p condm root) nm)
            ∧ ∀ pr ∈ tmpl.outputsParams, GoodName (liftedParams p condm root) pr.1) := by
  have hmain : PairProv (liftedParams p condm root) io := by
    unfold getInputsOutputs at hio
    rcases except_bind_ok_inv hio with ⟨accA, hops_fold, hrec⟩
    have hP0 : PairProv (liftedParams p condm root) (([], []) : LiftMap × LiftMap) := by
      constructor <;> intro k r hr <;> simp [mapGet_nil] at hr
    have hPA : PairProv (liftedParams p condm root) accA := by
      refine foldlM_inv (PairProv (liftedParams p condm root)) _ _ ?_ _ accA hops_fold hP0
      intro op hop acc acc' hstep hPacc
      refine foldlM_inv (PairProv (liftedParams p condm root)) _ _ ?_ acc acc' hstep hPacc
      intro q hq a a' hstep2 hPa
      refine processOpParam_prov p.ops opG grpG op q ?_ a a' hstep2 hPa
      exact List.mem_append_left _ (List.mem_flatMap.mpr ⟨op, hop, hq⟩)
    exact recPassEnter_prov (liftedParams p condm root) p.ops opG grpG condm accA root io
      (fun x hx => List.mem_append_right _ hx) hrec hPA
  refine ⟨hmain.1, hmain.2, ?_⟩
  intro g dm tmpl htm
  unfold groupToTemplate at htm
  rcases except_bind_ok_inv htm with ⟨gtasks, _, htm2⟩
  rcases except_bind_ok_inv htm2 with ⟨otasks, _, htm3⟩
  injection htm3 with htm4
  constructor
  · intro nm hnm
    rw [← htm4] at hnm
    simp only at hnm
    rcases List.mem_map.mp ((mem_sortBy _ _ _).mp hnm) with ⟨r, hr, hre⟩
    rw [← hre]
    exact hmain.1 g.name r hr
  · intro pr hpr
    rw [← htm4] at hpr
    simp only at hpr
    rcases List.mem_map.mp ((mem_sortBy _ _ _).mp hpr) with ⟨r, hr, hre⟩
    rw [← hre]
    exact hmain.2 g.name r hr

/-- Witness for C7 on the cross-scope example: the record `(a-x, a)` on the
condition group traces back to a non-immediate walked parameter named
`a-x`. -/
theorem C7_no_immediate_surfaced_witness :
    GoodName
      (liftedParams exPipeCross (getConditionParams exRootCross) exRootCross)
      "a-x" :=
  (C7_no_immediate_surfaced exPipeCross exRootCross (getGroupsForOps exRootCross)
    (getGroupsForOpsgroups exRootCross) (getConditionParams exRootCross)
    exLiftCross rfl).1 "cond-1" ("a-x", some "a") (by decide)

/-! ### Claim C6 -/

/-- A successful `mapM` maps every element of the list to a successful
result that is in the output list. -/
theorem mapM_ok_mem {α β : Type} {f : α → Except String β} :
    ∀ {l : List α} {l' : List β}, l.mapM f = .ok l' →
      ∀ a ∈ l, ∃ b, f a = .ok b ∧ b ∈ l'
  | [], l', _, a, ha => absurd ha (by simp)
  | x :: l, l', h, a, ha => by
      rw [List.mapM_cons] at h
      rcases except_bind_ok_inv h with ⟨b, hb, h2⟩
      rcases except_bind_ok_inv h2 with ⟨bs, hbs, h3⟩
      have h4 : b :: bs = l' := by injection h3
      rcases List.mem_cons.mp ha with rfl | ha2
      · exact ⟨b, hb, by rw [← h4]; exact List.mem_cons_self b bs⟩
      · rcases mapM_ok_mem hbs a ha2 with ⟨b2, hb2, hmem⟩
        exact ⟨b2, hb2, by rw [← h4]; exact List.mem_cons_of_mem b hmem⟩

/-- Claim C6: for every recursive child of a synthesized group, the emitted
task's name and template both equal the `recursion_ref`'s name, and for
every input record of the child whose first matching declared input sits at
position `j`, the emitted argument carries the full name of the referenced
group's input at position `j` (the callee's parameter name) while its value
is resolved from the record of the caller's scope. -/
theorem C6_recursive_child_task (g : OpsGroup) (ins outs : LiftMap) (dm : DepMap)
    (tmpl : TemplateRec) (child : OpsGroup) (ref : RecursiveRef)
    (hchild : child ∈ g.groups)
    (href : child.recursive_ref = some ref)
    (htm : groupToTemplate g ins outs dm = .ok tmpl) :
    ∃ task ∈ tmpl.tasks, task.name = ref.name ∧ task.template = ref.name
      ∧ ∀ r ∈ mapGet ins child.name, ∀ j,
          child.inputs.findIdx? (fun inp => pipelineparam_full_name inp == r.1) = some j →
          ∀ ri, ref.inputs[j]? = some ri →
          (pipelineparam_full_name ri,
            match r.2 with
            | some d => tasksOutputRef d r.1
            | none => inputsParamRef r.1) ∈ task.arguments := by
  unfold groupToTemplate at htm
  rcases except_bind_ok_inv htm with ⟨gtasks, hgt, htm2⟩
  rcases except_bind_ok_inv htm2 with ⟨otasks, hot, htm3⟩
  injection htm3 with htm4
  obtain ⟨task, htask, htaskmem⟩ := mapM_ok_mem hgt child hchild
  refine ⟨task, ?_, ?_⟩
  · rw [← htm4]
    simp only
    rw [mem_sortBy]
    exact List.mem_append_left _ htaskmem
  · simp only [groupChildToTask, href, Option.isSome_some] at htask
    obtain ⟨whenOpt, _, hcore⟩ := except_bind_ok_inv htask
    unfold childTaskCore at hcore
    rcases except_bind_ok_inv hcore with ⟨args, hargs, hcore2⟩
    injection hcore2 with htaskeq
    refine ⟨?_, ?_, ?_⟩
    · rw [← htaskeq]
    · rw [← htaskeq]
    · intro r hr j hfind ri hri
      obtain ⟨b, hb, hbmem⟩ := mapM_ok_mem hargs r hr
      have hne : child.inputs ≠ [] := by
        intro hempty
        rw [hempty] at hfind
        simp [List.findIdx?] at hfind
      simp only [buildArg, if_pos rfl] at hb
      unfold recursiveArgName at hb
      rcases hci : child.inputs with _ | ⟨i0, irest⟩
      · exact absurd hci hne
      · rw [hci] at hb
        rw [hci] at hfind
        rw [hfind] at hb
        simp only at hb
        rw [hri] at hb
        simp only at hb
        injection hb with hb2
        rw [← htaskeq]
        simp only
        rw [mem_sortBy]
        rw [← hb2] at hbmem
        exact hbmem

/-- The concrete recursive-reference scenario: group `parent` holds a
recursive child `rloop2` (declared input `q`) whose reference `R0` declares
input `q0`; the caller-scope record for `q` carries sibling marker `s`. -/
def exRecChild : OpsGroup :=
  .mk "rloop2" "graph" [] [] (some ⟨"R0", [⟨"q0", none, none⟩]⟩)
    [⟨"q", none, none⟩] none [] none

def exRecParent : OpsGroup := .mk "parent" "pipeline" [exRecChild] [] none [] none [] none

def exInsRec : LiftMap := [("rloop2", [("q", some "s")])]

/-- The template synthesized for `exRecParent`. -/
def exTmplRec : TemplateRec :=
  (groupToTemplate exRecParent exInsRec [] []).toOption.getD { name := "" }

/-- Witness for C6: the emitted task is named `R0` with template `R0`, and
its argument carries the callee name `q0` with the caller-resolved value
for `q`. -/
theorem C6_recursive_child_task_witness :
    ∃ task ∈ exTmplRec.tasks, task.name = "R0" ∧ task.template = "R0"
      ∧ ("q0", tasksOutputRef "s" "q") ∈ task.arguments := by
  obtain ⟨task, htmem, hname, htempl, harg⟩ :=
    C6_recursive_child_task exRecParent exInsRec [] [] exTmplRec exRecChild
      ⟨"R0", [⟨"q0", none, none⟩]⟩ (List.mem_cons_self exRecChild []) rfl rfl
  refine ⟨task, htmem, hname, htempl, ?_⟩
  exact harg ("q", some "s") (by decide) 0 rfl ⟨"q0", none, none⟩ rfl

/-! ### Order properties of the code-point comparison (claim C9) -/

theorem charListLe_total : ∀ (a b : List Char), (charListLe a b || charListLe b a) = true
  | [], [] => by simp [charListLe]
  | [], _ :: _ => by simp [charListLe]
  | _ :: _, [] => by simp [charListLe]
  | a :: as, b :: bs => by
      simp only [charListLe]
      by_cases h : a = b
      · rw [if_pos h, if_pos h.symm]
        exact charListLe_total as bs
      · rw [if_neg h, if_neg (fun hh => h hh.symm)]
        rcases lt_trichotomy a b with hlt | heq | hgt
        · simp [hlt]
        · exact absurd heq h
        · simp [hgt]

theorem charListLe_trans : ∀ (a b c : List Char),
    charListLe a b = true → charListLe b c = true → charListLe a c = true
  | [], _, _, _, _ => by simp [charListLe]
  | a :: as, [], c, h1, _ => by simp [charListLe] at h1
  | a :: as, b :: bs, [], _, h2 => by simp [charListLe] at h2
  | a :: as, b :: bs, c :: cs, h1, h2 => by
      simp only [charListLe] at h1 h2 ⊢
      by_cases hab : a = b
      · rw [if_pos hab] at h1
        by_cases hbc : b = c
        · rw [if_pos hbc] at h2
          rw [if_pos (hab.trans hbc)]
          exact charListLe_trans as bs cs h1 h2
        · rw [if_neg hbc] at h2
          have hac : a ≠ c := fun h => hbc (hab ▸ h)
          rw [if_neg hac]
          rw [hab]
          exact h2
      · rw [if_neg hab] at h1
        by_cases hbc : b = c
        · have hac : a ≠ c := fun h => hab (h.trans hbc.symm)
          rw [if_neg hac]
          rw [← hbc]
          exact h1
        · rw [if_neg hbc] at h2
          simp only [decide_eq_true_eq] at h1 h2
          have hlt : a < c := h1.trans h2
          rw [if_neg (ne_of_lt hlt)]
          simp [hlt]

theorem charListLe_antisymm : ∀ (a b : List Char),
    charListLe a b = true → charListLe b a = true → a = b
  | [], [], _, _ => rfl
  | [], _ :: _, _, h2 => by simp [charListLe] at h2
  | _ :: _, [], h1, _ => by simp [charListLe] at h1
  | a :: as, b :: bs, h1, h2 => by
      simp only [charListLe] at h1 h2
      by_cases h : a = b
      · rw [if_pos h] at h1
        rw [if_pos h.symm] at h2
        rw [h, charListLe_antisymm as bs h1 h2]
      · rw [if_neg h] at h1
        rw [if_neg (fun hh => h hh.symm)] at h2
        simp only [decide_eq_true_eq] at h1 h2
        exact absurd (h1.trans h2) (lt_irrefl a)

theorem strLe_total (a b : String) : (strLe a b || strLe b a) = true :=
  charListLe_total a.data b.data

theorem strLe_trans (a b c : String) (h1 : strLe a b = true) (h2 : strLe b c = true) :
    strLe a c = true :=
  charListLe_trans a.data b.data c.data h1 h2

theorem strLe_antisymm (a b : String) (h1 : strLe a b = true) (h2 : strLe b a = true) :
    a = b := by
  cases a with
  | mk da =>
      cases b with
      | mk db =>
          have := charListLe_antisymm da db h1 h2
          rw [this]

/-! ### The stable sort is canonical on duplicate-free keys -/

theorem insertSorted_pairwise {α : Type} (le : α → α → Bool)
    (htot : ∀ a b, (le a b || le b a) = true)
    (htrans : ∀ a b c, le a b = true → le b c = true → le a c = true) (a : α) :
    ∀ (l : List α), l.Pairwise (fun x y => le x y = true) →
      (insertSorted le a l).Pairwise (fun x y => le x y = true)
  | [], _ => by simp [insertSorted]
  | b :: bs, h => by
      rcases List.pairwise_cons.mp h with ⟨hb, hbs⟩
      simp only [insertSorted]
      split
      · rename_i hba
        refine List.pairwise_cons.mpr ⟨?_, insertSorted_pairwise le htot htrans a bs hbs⟩
        intro y hy
        rcases (mem_insertSorted le a y bs).mp hy with rfl | hy2
        · exact hba
        · exact hb y hy2
      · rename_i hba
        have hab : le a b = true := by
          have := htot b a
          rcases Bool.or_eq_true_iff.mp this with h1 | h1
          · exact absurd h1 hba
          · exact h1
        refine List.pairwise_cons.mpr ⟨?_, h⟩
        intro y hy
        rcases List.mem_cons.mp hy with rfl | hy2
        · exact hab
        · exact htrans a b y hab (hb y hy2)

theorem sortBy_pairwise {α : Type} (le : α → α → Bool)
    (htot : ∀ a b, (le a b || le b a) = true)
    (htrans : ∀ a b c, le a b = true → le b c = true → le a c = true) (l : List α) :
    (sortBy le l).Pairwise (fun x y => le x y = true) := by
  have haux : ∀ (l : List α) (acc : List α),
      acc.Pairwise (fun x y => le x y = true) →
      (l.foldl (fun s a => insertSorted le a s) acc).Pairwise (fun x y => le x y = true) := by
    intro l
    induction l with
    | nil => intro acc h; exact h
    | cons a t ih =>
        intro acc h
        exact ih (insertSorted le a acc) (insertSorted_pairwise le htot htrans a acc h)
  exact haux l [] (by simp)

theorem insertSorted_perm {α : Type} (le : α → α → Bool) (a : α) :
    ∀ (l : List α), (insertSorted le a l).Perm (a :: l)
  | [] => List.Perm.refl _
  | b :: bs => by
      simp only [insertSorted]
      split
      · exact ((insertSorted_perm le a bs).cons b).trans (List.Perm.swap a b bs)
      · exact List.Perm.refl _

theorem sortBy_perm {α : Type} (le : α → α → Bool) (l : List α) :
    (sortBy le l).Perm l := by
  have haux : ∀ (l : List α) (acc : List α),
      (l.foldl (fun s a => insertSorted le a s) acc).Perm (acc ++ l) := by
    intro l
    induction l with
    | nil => intro acc; simp
    | cons a t ih =>
        intro acc
        refine (ih (insertSorted le a acc)).trans ?_
        refine (List.Perm.append_right t ((insertSorted_perm le a acc))).trans ?_
        exact List.perm_middle.symm
  have := haux l []
  simpa using this

/-- Two sorted lists that are permutations of each other and have
duplicate-free keys are equal. -/
theorem sorted_perm_eq {α : Type} (key : α → String) :
    ∀ (l1 l2 : List α), l1.Perm l2 →
      l1.Pairwise (fun x y => strLe (key x) (key y) = true) →
      l2.Pairwise (fun x y => strLe (key x) (key y) = true) →
      (l1.map key).Nodup → l1 = l2
  | [], l2, hperm, _, _, _ => (hperm.nil_eq).symm ▸ rfl
  | a :: t1, l2, hperm, hs1, hs2, hnd => by
      cases l2 with
      | nil => exact absurd hperm.symm.nil_eq (by simp)
      | cons b t2 =>
          rcases List.pairwise_cons.mp hs1 with ⟨ha, ht1⟩
          rcases List.pairwise_cons.mp hs2 with ⟨hb, ht2⟩
          have hab : a = b := by
            have hbmem : b ∈ a :: t1 := hperm.symm.subset (List.mem_cons_self b t2)
            rcases List.mem_cons.mp hbmem with rfl | hbmem2
            · rfl
            · have hamem : a ∈ b :: t2 := hperm.subset (List.mem_cons_self a t1)
              rcases List.mem_cons.mp hamem with rfl | hamem2
              · rfl
              · have h1 : strLe (key a) (key b) = true := ha b hbmem2
                have h2 : strLe (key b) (key a) = true := hb a hamem2
                have hkey : key a = key b := strLe_antisymm _ _ h1 h2
                rcases List.nodup_cons.mp hnd with ⟨hknot, _⟩
                exact absurd (hkey ▸ List.mem_map_of_mem key hbmem2) hknot
          subst hab
          have htperm : t1.Perm t2 := hperm.cons_inv
          rw [sorted_perm_eq key t1 t2 htperm ht1 ht2 (List.nodup_cons.mp hnd).2]

/-- The canonical-sort consequence: the stable sort of any two
permutations of a duplicate-free-key list is the same list. -/
theorem sortBy_eq_of_perm {α : Type} [DecidableEq α] (key : α → String)
    (l1 l2 : List α) (hperm : l1.Perm l2) (hnd : (l1.map key).Nodup) :
    sortBy (fun a b => strLe (key a) (key b)) l1
      = sortBy (fun a b => strLe (key a) (key b)) l2 := by
  have htot : ∀ a b : α, (strLe (key a) (key b) || strLe (key b) (key a)) = true :=
    fun a b => strLe_total (key a) (key b)
  have htrans : ∀ a b c : α, strLe (key a) (key b) = true →
      strLe (key b) (key c) = true → strLe (key a) (key c) = true :=
    fun a b c => strLe_trans (key a) (key b) (key c)
  refine sorted_perm_eq key _ _ ?_ ?_ ?_ ?_
  · exact (sortBy_perm _ l1).trans (hperm.trans (sortBy_perm _ l2).symm)
  · exact sortBy_pairwise _ htot htrans l1
  · exact sortBy_pairwise _ htot htrans l2
  · exact ((sortBy_perm _ l1).map key).symm.nodup hnd

/-! ### Permutation stability of the task pieces (claim C9) -/

theorem filter_length_le_one {α : Type} (key : α → String) (pn : String) :
    ∀ (l : List α), (l.map key).Nodup →
      (l.filter (fun r => key r == pn)).length ≤ 1
  | [], _ => by simp
  | r :: t, hnd => by
      rcases List.nodup_cons.mp hnd with ⟨hknot, hndt⟩
      by_cases h : key r = pn
      · rw [List.filter_cons_of_pos (by simp [h])]
        have hft : t.filter (fun x => key x == pn) = [] := by
          rw [List.filter_eq_nil_iff]
          intro x hx
          simp only [beq_iff_eq]
          intro hkey
          exact hknot (by rw [h, ← hkey]; exact List.mem_map_of_mem key hx)
        rw [hft]
        simp
      · rw [List.filter_cons_of_neg (by simp [h])]
        exact filter_length_le_one key pn t hndt

theorem perm_eq_of_length_le_one {α : Type} {l1 l2 : List α}
    (hperm : l1.Perm l2) (hlen : l1.length ≤ 1) : l1 = l2 := by
  cases l1 with
  | nil => exact hperm.nil_eq
  | cons x xs =>
      cases xs with
      | nil => exact (List.perm_singleton.mp hperm.symm).symm
      | cons y ys => simp at hlen

/-- `_resolve_value_or_reference` only reads the first record whose name
matches; with duplicate-free record names it is insensitive to the
iteration order of the record set. -/
theorem resolveValueOrReference_perm (v : Operand) (l1 l2 : List LiftRec)
    (hperm : l1.Perm l2) (hnd : (l1.map (fun r => r.1)).Nodup) :
    resolveValueOrReference v l1 = resolveValueOrReference v l2 := by
  cases v with
  | lit s => rfl
  | param p =>
      simp only [resolveValueOrReference]
      have heq : l1.filter (fun r => r.1 == pipelineparam_full_name p)
          = l2.filter (fun r => r.1 == pipelineparam_full_name p) :=
        perm_eq_of_length_le_one
          (hperm.filter (fun r => r.1 == pipelineparam_full_name p))
          (filter_length_le_one (fun r : LiftRec => r.1) (pipelineparam_full_name p) l1 hnd)
      rw [heq]

theorem mapM_ok_congr {α β : Type} (f1 f2 : α → Except String β) :
    ∀ (l : List α) (o : List β), l.mapM f1 = .ok o →
      (∀ a ∈ l, ∀ b, f1 a = .ok b → f2 a = .ok b) →
      l.mapM f2 = .ok o
  | [], o, h, _ => by rw [List.mapM_nil] at h ⊢; exact h
  | x :: t, o, h, hcong => by
      rw [List.mapM_cons] at h ⊢
      rcases except_bind_ok_inv h with ⟨b, hb, h2⟩
      rcases except_bind_ok_inv h2 with ⟨bs, hbs, h3⟩
      rw [hcong x (List.mem_cons_self x t) b hb, except_bind_ok,
        mapM_ok_congr f1 f2 t bs hbs (fun a ha => hcong a (List.mem_cons_of_mem x ha)),
        except_bind_ok]
      exact h3

theorem mapM_ok_perm {α β : Type} (f : α → Except String β) {l1 l2 : List α}
    (hperm : l1.Perm l2) :
    ∀ {o1 : List β}, l1.mapM f = .ok o1 → ∃ o2, l2.mapM f = .ok o2 ∧ o1.Perm o2 := by
  induction hperm with
  | nil => intro o1 h; exact ⟨o1, h, List.Perm.refl o1⟩
  | cons x p ih =>
      intro o1 h
      rw [List.mapM_cons] at h
      rcases except_bind_ok_inv h with ⟨b, hb, h2⟩
      rcases except_bind_ok_inv h2 with ⟨bs, hbs, h3⟩
      have h4 : b :: bs = o1 := by injection h3
      rcases ih hbs with ⟨bs2, hbs2, hp2⟩
      refine ⟨b :: bs2, ?_, ?_⟩
      · rw [List.mapM_cons, hb, except_bind_ok, hbs2, except_bind_ok]; rfl
      · rw [← h4]; exact hp2.cons b
  | swap x y t =>
      intro o1 h
      rw [List.mapM_cons] at h
      rcases except_bind_ok_inv h with ⟨b1, hb1, h2⟩
      rcases except_bind_ok_inv h2 with ⟨bs1, hbs1, h3⟩
      have h4 : b1 :: bs1 = o1 := by injection h3
      rw [List.mapM_cons] at hbs1
      rcases except_bind_ok_inv hbs1 with ⟨b2, hb2, h5⟩
      rcases except_bind_ok_inv h5 with ⟨bt, hbt, h6⟩
      have h7 : b2 :: bt = bs1 := by injection h6
      refine ⟨b2 :: b1 :: bt, ?_, ?_⟩
      · rw [List.mapM_cons, hb2, except_bind_ok, List.mapM_cons, hb1, except_bind_ok,
          hbt, except_bind_ok]
        rfl
      · rw [← h4, ← h7]
        exact List.Perm.swap b2 b1 bt
  | trans p1 p2 ih1 ih2 =>
      intro o1 h
      rcases ih1 h with ⟨o2, h2, hp⟩
      rcases ih2 h2 with ⟨o3, h3, hp2⟩
      exact ⟨o3, h3, hp.trans hp2⟩

/-- `childTaskCore` emits the same task when its input records and
dependency set are permuted, provided the sort keys it uses are
duplicate-free. -/
theorem childTaskCore_stable (insA insB : LiftMap) (dmA dmB : DepMap)
    (cname tname : String) (isRec : Bool) (subInputs refInputs : List Param)
    (whenOpt : Option String) (task : Task)
    (hinsPermC : (mapGet insA cname).Perm (mapGet insB cname))
    (hdmPermC : (mapGet dmA cname).Perm (mapGet dmB cname))
    (hdmNodupC : (mapGet dmA cname).Nodup)
    (hargNodup : (task.arguments.map (fun a => a.1)).Nodup)
    (h : childTaskCore insA dmA cname tname isRec subInputs refInputs whenOpt = .ok task) :
    childTaskCore insB dmB cname tname isRec subInputs refInputs whenOpt = .ok task := by
  unfold childTaskCore at h ⊢
  rcases except_bind_ok_inv h with ⟨args, hargs, h2⟩
  injection h2 with h3
  rcases mapM_ok_perm _ hinsPermC hargs with ⟨args2, hargs2, hpargs⟩
  rw [hargs2, except_bind_ok]
  have hdeps : sortBy strLe (mapGet dmB cname) = sortBy strLe (mapGet dmA cname) :=
    (sortBy_eq_of_perm (fun s : String => s) _ _ hdmPermC
      (by simpa using hdmNodupC)).symm
  have hargnd : (args.map (fun a => a.1)).Nodup := by
    have hperm2 : ((sortBy (fun a b => strLe a.1 b.1) args).map (fun a => a.1)).Nodup := by
      have : task.arguments = sortBy (fun a b => strLe a.1 b.1) args := by
        rw [← h3]
      rw [← this]
      exact hargNodup
    exact ((sortBy_perm (fun a b => strLe a.1 b.1) args).map (fun a => a.1)).nodup hperm2
  have hargseq : sortBy (fun a b => strLe a.1 b.1) args2
      = sortBy (fun a b => strLe a.1 b.1) args :=
    (sortBy_eq_of_perm (fun a : String × String => a.1) _ _ hpargs hargnd).symm
  rw [hdeps, hargseq, h3]

/-- The `when` clause is insensitive to the record-set iteration order when
the child's record names are duplicate-free. -/
theorem conditionWhen_perm (insA insB : LiftMap) (child : OpsGroup)
    (hperm : (mapGet insA child.name).Perm (mapGet insB child.name))
    (hnd : ((mapGet insA child.name).map (fun r => r.1)).Nodup) :
    conditionWhen insA child = conditionWhen insB child := by
  unfold conditionWhen
  split
  · split
    · rfl
    · rw [resolveValueOrReference_perm _ _ _ hperm hnd,
        resolveValueOrReference_perm _ _ _ hperm hnd]
  · rfl

/-- `groupChildToTask` emits the same task under record-set permutation with
duplicate-free keys. -/
theorem groupChildToTask_stable (insA insB : LiftMap) (dmA dmB : DepMap)
    (child : OpsGroup) (task : Task)
    (hinsPermC : (mapGet insA child.name).Perm (mapGet insB child.name))
    (hinsNodupC : ((mapGet insA child.name).map (fun r => r.1)).Nodup)
    (hdmPermC : (mapGet dmA child.name).Perm (mapGet dmB child.name))
    (hdmNodupC : (mapGet dmA child.name).Nodup)
    (hargNodup : (task.arguments.map (fun a => a.1)).Nodup)
    (h : groupChildToTask insA dmA child = .ok task) :
    groupChildToTask insB dmB child = .ok task := by
  unfold groupChildToTask at h ⊢
  rcases except_bind_ok_inv h with ⟨w, hw, hcore⟩
  rw [← conditionWhen_perm insA insB child hinsPermC hinsNodupC, hw, except_bind_ok]
  exact childTaskCore_stable insA insB dmA dmB child.name _ _ _ _ _ _
    hinsPermC hdmPermC hdmNodupC hargNodup hcore

/-- `opChildToTask` emits the same task under record-set permutation with
duplicate-free keys. -/
theorem opChildToTask_stable (insA insB : LiftMap) (dmA dmB : DepMap)
    (op : Op) (task : Task)
    (hinsPermC : (mapGet insA op.name).Perm (mapGet insB op.name))
    (hdmPermC : (mapGet dmA op.name).Perm (mapGet dmB op.name))
    (hdmNodupC : (mapGet dmA op.name).Nodup)
    (hargNodup : (task.arguments.map (fun a => a.1)).Nodup)
    (h : opChildToTask insA dmA op = .ok task) :
    opChildToTask insB dmB op = .ok task := by
  unfold opChildToTask at h ⊢
  exact childTaskCore_stable insA insB dmA dmB op.name _ _ _ _ _ _
    hinsPermC hdmPermC hdmNodupC hargNodup h

/-! ### Claim C9 -/

/-- Claim C9 (amended): with the Python set-iteration order of the analysis
results modelled as the order of each per-key record list, sorting all
emitted collections by name canonicalizes the template only when the sort
keys involved are duplicate-free: under any per-key permutation of the
inputs, outputs and dependency sets, `_group_to_template` emits the
byte-identical template, provided no two records of a key share a full
name and no task's argument names collide. -/
theorem C9_sorted_emission_canonical (g : OpsGroup) (ins1 ins2 outs1 outs2 : LiftMap)
    (dm1 dm2 : DepMap) (tmpl1 : TemplateRec)
    (hinsPerm : ∀ k, (mapGet ins1 k).Perm (mapGet ins2 k))
    (houtsPerm : ∀ k, (mapGet outs1 k).Perm (mapGet outs2 k))
    (hdmPerm : ∀ k, (mapGet dm1 k).Perm (mapGet dm2 k))
    (hinsNodup : ∀ k, ((mapGet ins1 k).map (fun r => r.1)).Nodup)
    (houtsNodup : ∀ k, ((mapGet outs1 k).map (fun r => r.1)).Nodup)
    (hdmNodup : ∀ k, (mapGet dm1 k).Nodup)
    (h1 : groupToTemplate g ins1 outs1 dm1 = .ok tmpl1)
    (hargNodup : ∀ task ∈ tmpl1.tasks, (task.arguments.map (fun a => a.1)).Nodup) :
    groupToTemplate g ins2 outs2 dm2 = .ok tmpl1 := by
  unfold groupToTemplate at h1 ⊢
  rcases except_bind_ok_inv h1 with ⟨gtasks, hgt, h2⟩
  rcases except_bind_ok_inv h2 with ⟨otasks, hot, h3⟩
  injection h3 with h4
  have htasknd : ∀ task ∈ gtasks ++ otasks, (task.arguments.map (fun a => a.1)).Nodup := by
    intro task ht
    apply hargNodup
    rw [← h4]
    simp only
    rw [mem_sortBy]
    exact ht
  have hgt2 : g.groups.mapM (groupChildToTask ins2 dm2) = .ok gtasks := by
    refine mapM_ok_congr _ _ _ _ hgt ?_
    intro c hc task htask
    obtain ⟨task', htask', hmem'⟩ := mapM_ok_mem hgt c hc
    have hte : task = task' := by
      rw [htask] at htask'
      injection htask'
    refine groupChildToTask_stable ins1 ins2 dm1 dm2 c task (hinsPerm c.name)
      (hinsNodup c.name) (hdmPerm c.name) (hdmNodup c.name) ?_ htask
    rw [hte]
    exact htasknd task' (List.mem_append_left _ hmem')
  have hot2 : g.ops.mapM (opChildToTask ins2 dm2) = .ok otasks := by
    refine mapM_ok_congr _ _ _ _ hot ?_
    intro c hc task htask
    obtain ⟨task', htask', hmem'⟩ := mapM_ok_mem hot c hc
    have hte : task = task' := by
      rw [htask] at htask'
      injection htask'
    refine opChildToTask_stable ins1 ins2 dm1 dm2 c task (hinsPerm c.name)
      (hdmPerm c.name) (hdmNodup c.name) ?_ htask
    rw [hte]
    exact htasknd task' (List.mem_append_right _ hmem')
  rw [hgt2, except_bind_ok, hot2, except_bind_ok]
  have hin_eq : sortBy strLe ((mapGet ins2 g.name).map (fun r => r.1))
      = sortBy strLe ((mapGet ins1 g.name).map (fun r => r.1)) :=
    (sortBy_eq_of_perm (fun s : String => s) _ _ ((hinsPerm g.name).map _)
      (by simpa using hinsNodup g.name)).symm
  have hout_eq : sortBy (fun a b => strLe a.1 b.1)
        ((mapGet outs2 g.name).map (fun r => (r.1, tasksOutputRef (pyStr r.2) r.1)))
      = sortBy (fun a b => strLe a.1 b.1)
        ((mapGet outs1 g.name).map (fun r => (r.1, tasksOutputRef (pyStr r.2) r.1))) := by
    refine (sortBy_eq_of_perm (fun a : String × String => a.1) _ _
      ((houtsPerm g.name).map _) ?_).symm
    rw [List.map_map]
    exact houtsNodup g.name
  rw [hin_eq, hout_eq, h4]

/-- The duplicate-full-name scenario: `a` at `g1` produces `x`, consumed by
`b` inside `g2`, while `c` inside `g2` consumes a pipeline-level parameter
that happens to be NAMED `a-x`; the group `g2` then carries two input
records with the same full name and different markers. -/
def exOpBDup : Op := { name := "b", inputs := [⟨"x", some "a", none⟩] }

def exOpCDup : Op := { name := "c", inputs := [⟨"a-x", none, none⟩] }

def exG2Dup : OpsGroup := .mk "g2" "pipeline" [] [exOpBDup, exOpCDup] none [] none [] none

def exG1Dup : OpsGroup := .mk "g1" "pipeline" [exG2Dup] [exOpA] none [] none [] none

def exRootDup : OpsGroup := .mk "root" "pipeline" [exG1Dup] [] none [] none [] none

def exPipeDup : Pipeline :=
  { name := "pipe", groups := [exRootDup], ops := [exOpA, exOpBDup, exOpCDup] }

/-- The lift maps computed for `exPipeDup`. -/
def exLiftDup : LiftMap × LiftMap :=
  (getInputsOutputs exPipeDup exRootDup (getGroupsForOps exRootDup)
    (getGroupsForOpsgroups exRootDup) (getConditionParams exRootDup)).toOption.getD
    ([], [])

/-- The two set-iteration orders of `g2`'s input records. -/
def exInsDupA : LiftMap := [("g2", [("a-x", some "a"), ("a-x", none)])]

def exInsDupB : LiftMap := [("g2", [("a-x", none), ("a-x", some "a")])]

/-- Claim C9 (counterexample): a real pipeline tree gives the group `g2` two
input records with the same full name `a-x` and different markers; the
emission sorts entries by name only, which does not order two equal names,
so the two set-iteration orders of those records (both reachable across two
Python runs through randomized string hashing) yield different templates:
byte-identical output is NOT guaranteed for every input tree. -/
theorem C9_counterexample :
    (mapGet exInsDupA "g2").Perm (mapGet exInsDupB "g2")
      ∧ getInputsOutputs exPipeDup exRootDup (getGroupsForOps exRootDup)
          (getGroupsForOpsgroups exRootDup) (getConditionParams exRootDup)
          = Except.ok exLiftDup
      ∧ ("a-x", some "a") ∈ mapGet exLiftDup.1 "g2"
      ∧ ("a-x", (none : Option String)) ∈ mapGet exLiftDup.1 "g2"
      ∧ (groupToTemplate exG1Dup exInsDupA [] []).toOption
          ≠ (groupToTemplate exG1Dup exInsDupB [] []).toOption :=
  ⟨by decide, rfl, by decide, by decide, by decide⟩

/-- The duplicate-free witness group for the amended C9 theorem. -/
def exOpS : Op := { name := "hc" }

def exGS : OpsGroup := .mk "h" "pipeline" [] [exOpS] none [] none [] none

def exInsS1 : LiftMap := [("hc", [("x", some "t"), ("y", none)])]

def exInsS2 : LiftMap := [("hc", [("y", none), ("x", some "t")])]

/-- The template emitted for `exGS` under the first iteration order. -/
def exTmplS : TemplateRec :=
  (groupToTemplate exGS exInsS1 [] []).toOption.getD { name := "" }

/-- Witness for the amended C9 theorem: with duplicate-free record names the
permuted iteration order emits the identical template. -/
theorem C9_sorted_emission_canonical_witness :
    groupToTemplate exGS exInsS2 [] [] = Except.ok exTmplS := by
  refine C9_sorted_emission_canonical exGS exInsS1 exInsS2 [] [] [] [] exTmplS
    ?_ ?_ ?_ ?_ ?_ ?_ rfl ?_
  · intro k
    by_cases h : "hc" = k
    · rw [← h]; decide
    · simp [mapGet, lookupD, lookupStr, h]
  · intro k; exact List.Perm.refl _
  · intro k; exact List.Perm.refl _
  · intro k
    by_cases h : "hc" = k
    · rw [← h]; decide
    · simp [mapGet, lookupD, lookupStr, h]
  · intro k; simp [mapGet_nil]
  · intro k; simp [mapGet_nil]
  · have hall : ∀ task ∈ exTmplS.tasks, ((task.arguments.map (fun a => a.1)).Nodup) := by
      decide
    exact hall

/-! ### Claim C10 -/

/-- Claim C10: when the pipeline's name is empty (absent), the assembled
workflow uses the literal name `Pipeline`: `metadata.generateName` is
`Pipeline-` and `spec.entrypoint` is `Pipeline`. -/
theorem C10_empty_name_defaults (args : List Param) (p : Pipeline)
    (h : Op → List TemplateRec) (w : Workflow)
    (hname : p.name = "")
    (hok : createPipelineWorkflow args p h = Except.ok w) :
    w.generateName = "Pipeline-" ∧ w.entrypoint = "Pipeline" := by
  unfold createPipelineWorkflow at hok
  rcases except_bind_ok_inv hok with ⟨t0, hT, hok2⟩
  injection hok2 with h2
  subst h2
  constructor
  · simp [hname]
  · simp [hname]

/-- The workflow assembled for the empty-named copy of the linear
pipeline. -/
def exWorkflowNoName : Workflow :=
  (createPipelineWorkflow [] { exPipeLinear with name := "" } (fun _ => [])).toOption.getD
    { generateName := "", entrypoint := "", parameters := [], templates := [] }

/-- Witness for C10 at a concrete pipeline with an empty name. -/
theorem C10_empty_name_defaults_witness :
    exWorkflowNoName.generateName = "Pipeline-" ∧ exWorkflowNoName.entrypoint = "Pipeline" :=
  C10_empty_name_defaults [] { exPipeLinear with name := "" } (fun _ => [])
    exWorkflowNoName rfl rfl

/-! ### Claim C8: tree metadata -/

mutual

/-- Every entity name of a subtree: the group's own name, its op names, then
recursively the names of its child subtrees. -/
def allNames : OpsGroup → List String
  | .mk n _ gs os _ _ _ _ _ => n :: (os.map Op.name ++ allNamesList gs)

/-- `allNames` accumulated over a child list. -/
def allNamesList : List OpsGroup → List String
  | [] => []
  | g :: rest => allNames g ++ allNamesList rest

end

mutual

/-- Every group node of a subtree, the subtree root included. -/
def allGroups : OpsGroup → List OpsGroup
  | .mk n t gs os r i c d e => .mk n t gs os r i c d e :: allGroupsList gs

/-- `allGroups` accumulated over a child list. -/
def allGroupsList : List OpsGroup → List OpsGroup
  | [] => []
  | g :: rest => allGroups g ++ allGroupsList rest

end

/-- The names of a group's immediate children: child groups then child ops. -/
def childNames (g : OpsGroup) : List String :=
  g.groups.map OpsGroup.name ++ g.ops.map Op.name

/-- One parent-child naming step of the tree: some group of the tree is
named `s`, is not recursive, and has an immediate child named `x`. -/
def ChildLink (root : OpsGroup) (s x : String) : Prop :=
  ∃ G, G ∈ allGroups root ∧ G.name = s ∧ G.recursive_ref = none ∧ x ∈ childNames G

/-- A chain of parent-child naming steps starting below the entity named
`s`: the shape of every ancestry-path tail the two walkers record. -/
inductive Linked (root : OpsGroup) : String → List String → Prop where
  | nil (s : String) : Linked root s []
  | cons {s x : String} {xs : List String} (hlink : ChildLink root s x)
      (htail : Linked root x xs) : Linked root s (x :: xs)

theorem allNames_eq (g : OpsGroup) :
    allNames g = g.name :: (g.ops.map Op.name ++ allNamesList g.groups) := by
  cases g; rfl

theorem allGroups_eq (g : OpsGroup) :
    allGroups g = g :: allGroupsList g.groups := by
  cases g; rfl

theorem mem_allNamesList {x : String} : ∀ (gs : List OpsGroup),
    x ∈ allNamesList gs ↔ ∃ C, C ∈ gs ∧ x ∈ allNames C
  | [] => by simp [allNamesList]
  | g :: rest => by
      simp only [allNamesList, List.mem_append, List.mem_cons, mem_allNamesList rest]
      constructor
      · rintro (h | ⟨C, hC, hx⟩)
        · exact ⟨g, Or.inl rfl, h⟩
        · exact ⟨C, Or.inr hC, hx⟩
      · rintro ⟨C, (rfl | hC), hx⟩
        · exact Or.inl hx
        · exact Or.inr ⟨C, hC, hx⟩

theorem mem_allGroupsList {G : OpsGroup} : ∀ (gs : List OpsGroup),
    G ∈ allGroupsList gs ↔ ∃ C, C ∈ gs ∧ G ∈ allGroups C
  | [] => by simp [allGroupsList]
  | g :: rest => by
      simp only [allGroupsList, List.mem_append, List.mem_cons, mem_allGroupsList rest]
      constructor
      · rintro (h | ⟨C, hC, hx⟩)
        · exact ⟨g, Or.inl rfl, h⟩
        · exact ⟨C, Or.inr hC, hx⟩
      · rintro ⟨C, (rfl | hC), hx⟩
        · exact Or.inl hx
        · exact Or.inr ⟨C, hC, hx⟩

theorem self_mem_allGroups (g : OpsGroup) : g ∈ allGroups g := by
  rw [allGroups_eq]; exact List.mem_cons_self _ _

theorem allGroups_child {g C G : OpsGroup} (hC : C ∈ g.groups)
    (hG : G ∈ allGroups C) : G ∈ allGroups g := by
  rw [allGroups_eq]
  exact List.mem_cons_of_mem _ ((mem_allGroupsList g.groups).mpr ⟨C, hC, hG⟩)

theorem self_name_mem_allNames (g : OpsGroup) : g.name ∈ allNames g := by
  rw [allNames_eq]; exact List.mem_cons_self _ _

mutual

theorem allNames_of_allGroups : ∀ (g G : OpsGroup), G ∈ allGroups g →
    ∀ (x : String), x ∈ allNames G → x ∈ allNames g
  | .mk n t gs os r i c d e, G, hG, x, hx => by
      rw [allGroups_eq] at hG
      rcases List.mem_cons.mp hG with h | h
      · rw [← h]; exact hx
      · rw [allNames_eq]
        exact List.mem_cons_of_mem _
          (List.mem_append_right _ (allNamesList_of_allGroupsList gs G h x hx))

theorem allNamesList_of_allGroupsList : ∀ (gs : List OpsGroup) (G : OpsGroup),
    G ∈ allGroupsList gs → ∀ (x : String), x ∈ allNames G → x ∈ allNamesList gs
  | [], G, hG, x, hx => absurd hG (List.not_mem_nil _)
  | g :: rest, G, hG, x, hx => by
      rcases List.mem_append.mp hG with h | h
      · exact List.mem_append_left _ (allNames_of_allGroups g G h x hx)
      · exact List.mem_append_right _ (allNamesList_of_allGroupsList rest G h x hx)

end

/-- A child name occurs in the tail of the parent's `allNames`. -/
theorem childNames_mem_tail {g : OpsGroup} {x : String} (hx : x ∈ childNames g) :
    x ∈ g.ops.map Op.name ++ allNamesList g.groups := by
  rcases List.mem_append.mp hx with h | h
  · rcases List.mem_map.mp h with ⟨C, hC, rfl⟩
    exact List.mem_append_right _
      ((mem_allNamesList g.groups).mpr ⟨C, hC, self_name_mem_allNames C⟩)
  · exact List.mem_append_left _ h

theorem childNames_mem_allNames {g : OpsGroup} {x : String} (hx : x ∈ childNames g) :
    x ∈ allNames g := by
  rw [allNames_eq]
  exact List.mem_cons_of_mem _ (childNames_mem_tail hx)

mutual

theorem allNames_sublist : ∀ (g G : OpsGroup), G ∈ allGroups g →
    (allNames G).Sublist (allNames g)
  | .mk n t gs os r i c d e, G, hG => by
      rw [allGroups_eq] at hG
      rcases List.mem_cons.mp hG with h | h
      · rw [h]
      · have h2 : (allNamesList gs).Sublist (allNames (.mk n t gs os r i c d e)) := by
          rw [allNames_eq]
          exact List.Sublist.cons _ (List.sublist_append_right _ _)
        exact (allNamesList_sublist gs G h).trans h2

theorem allNamesList_sublist : ∀ (gs : List OpsGroup) (G : OpsGroup),
    G ∈ allGroupsList gs → (allNames G).Sublist (allNamesList gs)
  | [], G, hG => absurd hG (List.not_mem_nil _)
  | g :: rest, G, hG => by
      rcases List.mem_append.mp hG with h | h
      · exact (allNames_sublist g G h).trans (List.sublist_append_left _ _)
      · exact (allNamesList_sublist rest G h).trans (List.sublist_append_right _ _)

end

/-- Decomposition of `Nodup (allNames g)` into its head/segment facts. -/
theorem nodup_allNames_parts {g : OpsGroup} (h : (allNames g).Nodup) :
    g.name ∉ g.ops.map Op.name ++ allNamesList g.groups
      ∧ (g.ops.map Op.name).Nodup ∧ (allNamesList g.groups).Nodup
      ∧ (g.ops.map Op.name).Disjoint (allNamesList g.groups) := by
  rw [allNames_eq] at h
  rcases List.nodup_cons.mp h with ⟨h1, h2⟩
  rcases List.nodup_append.mp h2 with ⟨h3, h4, h5⟩
  exact ⟨h1, h3, h4, h5⟩

theorem nodup_allNames_of_mem {root G : OpsGroup} (hnd : (allNames root).Nodup)
    (hG : G ∈ allGroups root) : (allNames G).Nodup :=
  hnd.sublist (allNames_sublist root G hG)

theorem op_names_mem_allNames {g : OpsGroup} {x : String}
    (hx : x ∈ g.ops.map Op.name) : x ∈ allNames g := by
  rw [allNames_eq]
  exact List.mem_cons_of_mem _ (List.mem_append_left _ hx)

theorem name_mem_of_allGroups {g G : OpsGroup} (h : G ∈ allGroups g) :
    G.name ∈ allNames g :=
  allNames_of_allGroups g G h _ (self_name_mem_allNames G)

theorem name_mem_of_allGroupsList {gs : List OpsGroup} {G : OpsGroup}
    (h : G ∈ allGroupsList gs) : G.name ∈ allNamesList gs :=
  allNamesList_of_allGroupsList gs G h _ (self_name_mem_allNames G)

/-- Under name uniqueness, sibling subtrees with a common name are the same
subtree. -/
theorem sibling_eq_of_overlap {x : String} : ∀ (gs : List OpsGroup),
    (allNamesList gs).Nodup → ∀ (C1 C2 : OpsGroup), C1 ∈ gs → C2 ∈ gs →
    x ∈ allNames C1 → x ∈ allNames C2 → C1 = C2
  | [], _, C1, _, h1, _, _, _ => absurd h1 (List.not_mem_nil _)
  | g :: rest, hnd, C1, C2, h1, h2, hx1, hx2 => by
      simp only [allNamesList] at hnd
      rcases List.nodup_append.mp hnd with ⟨_, hn2, hdisj⟩
      rcases List.mem_cons.mp h1 with e1 | h1' <;> rcases List.mem_cons.mp h2 with e2 | h2'
      · rw [e1, e2]
      · exact absurd ((mem_allNamesList rest).mpr ⟨C2, h2', hx2⟩)
          (fun hm => hdisj (e1 ▸ hx1) hm)
      · exact absurd ((mem_allNamesList rest).mpr ⟨C1, h1', hx1⟩)
          (fun hm => hdisj (e2 ▸ hx2) hm)
      · exact sibling_eq_of_overlap rest hn2 C1 C2 h1' h2' hx1 hx2

mutual

/-- Under name uniqueness, a group of the tree is determined by its name. -/
theorem group_name_unique : ∀ (g : OpsGroup), (allNames g).Nodup →
    ∀ (G1 G2 : OpsGroup), G1 ∈ allGroups g → G2 ∈ allGroups g →
    G1.name = G2.name → G1 = G2
  | .mk n t gs os r i c d e, hnd, G1, G2, h1, h2, hname => by
      obtain ⟨hhead, _, hlnd, _⟩ := nodup_allNames_parts hnd
      rw [allGroups_eq] at h1 h2
      rcases List.mem_cons.mp h1 with e1 | h1' <;> rcases List.mem_cons.mp h2 with e2 | h2'
      · rw [e1, e2]
      · exfalso
        apply hhead
        have hm : G2.name ∈ allNamesList gs := name_mem_of_allGroupsList h2'
        have hn : G1.name = OpsGroup.name (.mk n t gs os r i c d e) := by rw [e1]
        rw [hname] at hn
        exact List.mem_append_right _ (hn ▸ hm)
      · exfalso
        apply hhead
        have hm : G1.name ∈ allNamesList gs := name_mem_of_allGroupsList h1'
        have hn : G2.name = OpsGroup.name (.mk n t gs os r i c d e) := by rw [e2]
        rw [← hname] at hn
        exact List.mem_append_right _ (hn ▸ hm)
      · exact group_name_unique_list gs hlnd G1 G2 h1' h2' hname

theorem group_name_unique_list : ∀ (gs : List OpsGroup), (allNamesList gs).Nodup →
    ∀ (G1 G2 : OpsGroup), G1 ∈ allGroupsList gs → G2 ∈ allGroupsList gs →
    G1.name = G2.name → G1 = G2
  | [], _, G1, _, h1, _, _ => absurd h1 (List.not_mem_nil _)
  | g :: rest, hnd, G1, G2, h1, h2, hname => by
      simp only [allNamesList] at hnd
      rcases List.nodup_append.mp hnd with ⟨hn1, hn2, hdisj⟩
      rcases List.mem_append.mp h1 with h1' | h1' <;>
        rcases List.mem_append.mp h2 with h2' | h2'
      · exact group_name_unique g hn1 G1 G2 h1' h2' hname
      · exact absurd (name_mem_of_allGroupsList h2')
          (fun hm => hdisj (hname ▸ name_mem_of_allGroups h1') hm)
      · exact absurd (name_mem_of_allGroupsList h1')
          (fun hm => hdisj (hname ▸ name_mem_of_allGroups h2') hm)
      · exact group_name_unique_list rest hn2 G1 G2 h1' h2' hname

end

mutual

/-- Under name uniqueness, no group of the tree bears the name of any op of
the tree. -/
theorem op_group_clash : ∀ (g : OpsGroup), (allNames g).Nodup →
    ∀ (C G2 : OpsGroup), C ∈ allGroups g → G2 ∈ allGroups g →
    ∀ (x : String), x ∈ C.ops.map Op.name → G2.name = x → False
  | .mk n t gs os r i c d e, hnd, C, G2, h1, h2, x, hx, hname => by
      obtain ⟨hhead, _, hlnd, hdisj⟩ := nodup_allNames_parts hnd
      rw [allGroups_eq] at h1 h2
      rcases List.mem_cons.mp h1 with e1 | h1' <;> rcases List.mem_cons.mp h2 with e2 | h2'
      · apply hhead
        have hn : G2.name = n := by rw [e2]; rfl
        have hx' : x ∈ os.map Op.name := by
          have hco : C.ops = os := by rw [e1]; rfl
          exact hco ▸ hx
        exact List.mem_append_left _ ((hname ▸ hn) ▸ hx')
      · have hx' : x ∈ os.map Op.name := by
          have hco : C.ops = os := by rw [e1]; rfl
          exact hco ▸ hx
        exact hdisj hx' (hname ▸ name_mem_of_allGroupsList h2')
      · apply hhead
        have hn : G2.name = n := by rw [e2]; rfl
        have hm : x ∈ allNamesList gs :=
          allNamesList_of_allGroupsList gs C h1' x (op_names_mem_allNames hx)
        exact List.mem_append_right _ ((hname ▸ hn) ▸ hm)
      · exact op_group_clash_list gs hlnd C G2 h1' h2' x hx hname

theorem op_group_clash_list : ∀ (gs : List OpsGroup), (allNamesList gs).Nodup →
    ∀ (C G2 : OpsGroup), C ∈ allGroupsList gs → G2 ∈ allGroupsList gs →
    ∀ (x : String), x ∈ C.ops.map Op.name → G2.name = x → False
  | [], _, C, _, h1, _, _, _, _ => absurd h1 (List.not_mem_nil _)
  | g :: rest, hnd, C, G2, h1, h2, x, hx, hname => by
      simp only [allNamesList] at hnd
      rcases List.nodup_append.mp hnd with ⟨hn1, hn2, hdisj⟩
      rcases List.mem_append.mp h1 with h1' | h1' <;>
        rcases List.mem_append.mp h2 with h2' | h2'
      · exact op_group_clash g hn1 C G2 h1' h2' x hx hname
      · exact hdisj (allNames_of_allGroups g C h1' x (op_names_mem_allNames hx))
          (hname ▸ name_mem_of_allGroupsList h2')
      · exact hdisj (hname ▸ name_mem_of_allGroups h2')
          (allNamesList_of_allGroupsList rest C h1' x (op_names_mem_allNames hx))
      · exact op_group_clash_list rest hn2 C G2 h1' h2' x hx hname

end

/-- Under name uniqueness, an entity name that is an immediate child name of
the subtree root cannot also be an immediate child name of a strictly deeper
group. -/
theorem not_parent_below : ∀ (g : OpsGroup), (allNames g).Nodup →
    ∀ (G2 : OpsGroup), G2 ∈ allGroupsList g.groups →
    ∀ (x : String), x ∈ childNames g → x ∈ childNames G2 → False
  | .mk n t gs os r i c d e, hnd, G2, h2, x, hx1, hx2 => by
      obtain ⟨hhead, _, hlnd, hdisj⟩ := nodup_allNames_parts hnd
      obtain ⟨C, hC, hGC⟩ := (mem_allGroupsList gs).mp h2
      have hx1' : x ∈ gs.map OpsGroup.name ++ os.map Op.name := hx1
      have hxG2 : x ∈ allNames G2 := childNames_mem_allNames hx2
      have hxC : x ∈ allNames C := allNames_of_allGroups C G2 hGC x hxG2
      rcases List.mem_append.mp hx1' with hg | ho
      · obtain ⟨C', hC', hxC'⟩ := List.mem_map.mp hg
        have hxC'2 : x ∈ allNames C' := hxC' ▸ self_name_mem_allNames C'
        have hCC : C = C' := sibling_eq_of_overlap gs hlnd C C' hC hC' hxC hxC'2
        rw [← hCC] at hxC'
        have hCmem : C ∈ allGroupsList gs :=
          (mem_allGroupsList gs).mpr ⟨C, hC, self_mem_allGroups C⟩
        have hndC : (allNames C).Nodup := hlnd.sublist (allNamesList_sublist gs C hCmem)
        obtain ⟨hheadC, _, _, _⟩ := nodup_allNames_parts hndC
        rw [allGroups_eq] at hGC
        rcases List.mem_cons.mp hGC with e2 | h2' <;> apply hheadC
        · rw [hxC']
          exact childNames_mem_tail (e2 ▸ hx2)
        · rw [hxC']
          exact List.mem_append_right _
            (allNamesList_of_allGroupsList C.groups G2 h2' x hxG2)
      · exact hdisj ho ((mem_allNamesList gs).mpr ⟨C, hC, hxC⟩)

mutual

/-- Under name uniqueness, every entity name has at most one parent group in
the tree. -/
theorem parent_unique : ∀ (g : OpsGroup), (allNames g).Nodup →
    ∀ (G1 G2 : OpsGroup), G1 ∈ allGroups g → G2 ∈ allGroups g →
    ∀ (x : String), x ∈ childNames G1 → x ∈ childNames G2 → G1 = G2
  | .mk n t gs os r i c d e, hnd, G1, G2, h1, h2, x, hx1, hx2 => by
      obtain ⟨_, _, hlnd, _⟩ := nodup_allNames_parts hnd
      rw [allGroups_eq] at h1 h2
      rcases List.mem_cons.mp h1 with e1 | h1' <;> rcases List.mem_cons.mp h2 with e2 | h2'
      · rw [e1, e2]
      · exact (not_parent_below (.mk n t gs os r i c d e) hnd G2 h2' x (e1 ▸ hx1) hx2).elim
      · exact (not_parent_below (.mk n t gs os r i c d e) hnd G1 h1' x (e2 ▸ hx2) hx1).elim
      · exact parent_unique_list gs hlnd G1 G2 h1' h2' x hx1 hx2

theorem parent_unique_list : ∀ (gs : List OpsGroup), (allNamesList gs).Nodup →
    ∀ (G1 G2 : OpsGroup), G1 ∈ allGroupsList gs → G2 ∈ allGroupsList gs →
    ∀ (x : String), x ∈ childNames G1 → x ∈ childNames G2 → G1 = G2
  | [], _, G1, _, h1, _, _, _, _ => absurd h1 (List.not_mem_nil _)
  | g :: rest, hnd, G1, G2, h1, h2, x, hx1, hx2 => by
      simp only [allNamesList] at hnd
      rcases List.nodup_append.mp hnd with ⟨hn1, hn2, hdisj⟩
      rcases List.mem_append.mp h1 with h1' | h1' <;>
        rcases List.mem_append.mp h2 with h2' | h2'
      · exact parent_unique g hn1 G1 G2 h1' h2' x hx1 hx2
      · exact (hdisj (allNames_of_allGroups g G1 h1' x (childNames_mem_allNames hx1))
          (allNamesList_of_allGroupsList rest G2 h2' x (childNames_mem_allNames hx2))).elim
      · exact (hdisj (allNames_of_allGroups g G2 h2' x (childNames_mem_allNames hx2))
          (allNamesList_of_allGroupsList rest G1 h1' x (childNames_mem_allNames hx1))).elim
      · exact parent_unique_list rest hn2 G1 G2 h1' h2' x hx1 hx2

end

mutual

theorem allGroups_trans : ∀ (g C G : OpsGroup), C ∈ allGroups g →
    G ∈ allGroups C → G ∈ allGroups g
  | .mk n t gs os r i c d e, C, G, hC, hG => by
      rw [allGroups_eq] at hC
      rcases List.mem_cons.mp hC with e1 | h1
      · rw [← e1]; exact hG
      · rw [allGroups_eq]
        exact List.mem_cons_of_mem _ (allGroups_trans_list gs C G h1 hG)

theorem allGroups_trans_list : ∀ (gs : List OpsGroup) (C G : OpsGroup),
    C ∈ allGroupsList gs → G ∈ allGroups C → G ∈ allGroupsList gs
  | [], C, _, hC, _ => absurd hC (List.not_mem_nil _)
  | g :: rest, C, G, hC, hG => by
      rcases List.mem_append.mp hC with h | h
      · exact List.mem_append_left _ (allGroups_trans g C G h hG)
      · exact List.mem_append_right _ (allGroups_trans_list rest C G h hG)

end

/-- A link chain starting at an op name is empty: op names have no children. -/
theorem linked_op_stop {root : OpsGroup} (hnd : (allNames root).Nodup)
    {C : OpsGroup} (hC : C ∈ allGroups root) {z : String}
    (hz : z ∈ C.ops.map Op.name) {t : List String} (ht : Linked root z t) : t = [] := by
  cases ht with
  | nil => rfl
  | cons hlink _ =>
      obtain ⟨G', hG', hG'name, _, _⟩ := hlink
      exact (op_group_clash root hnd C G' hC hG' z hz hG'name).elim

/-- A link chain below a group stays inside that group's subtree. -/
theorem linked_subset {root : OpsGroup} (hnd : (allNames root).Nodup) :
    ∀ (t : List String) (C : OpsGroup), C ∈ allGroups root →
    Linked root C.name t → ∀ (y : String), y ∈ t → y ∈ allNames C
  | [], _, _, _, _, hy => absurd hy (List.not_mem_nil _)
  | z :: zs, C, hC, hlk, y, hy => by
      cases hlk with
      | cons hlink htail =>
          obtain ⟨G, hG, hGname, _, hz⟩ := hlink
          have hGC : G = C := group_name_unique root hnd G C hG hC hGname
          subst hGC
          rcases List.mem_cons.mp hy with e | hy'
          · rw [e]; exact childNames_mem_allNames hz
          · rcases List.mem_append.mp hz with hzg | hzo
            · obtain ⟨C', hC', hzname⟩ := List.mem_map.mp hzg
              have hC'G : C' ∈ allGroups G :=
                allGroups_child hC' (self_mem_allGroups C')
              have hC'root : C' ∈ allGroups root := allGroups_trans root G C' hG hC'G
              have htail' : Linked root C'.name zs := hzname.symm ▸ htail
              have hy2 : y ∈ allNames C' := linked_subset hnd zs C' hC'root htail' y hy'
              exact allNames_of_allGroups G C' hC'G y hy2
            · have hstop : zs = [] := linked_op_stop hnd hG hzo htail
              rw [hstop] at hy'
              exact absurd hy' (List.not_mem_nil _)

theorem countEqualZip_nil_left (b : List String) : countEqualZip [] b = 0 := by
  cases b <;> rfl

theorem countEqualZip_nil_right (a : List String) : countEqualZip a [] = 0 := by
  cases a <;> rfl

theorem countEqualZip_cons (a b : String) (as bs : List String) :
    countEqualZip (a :: as) (b :: bs)
      = (if a = b then 1 else 0) + countEqualZip as bs := rfl

theorem countEqualZip_pos_mem : ∀ (a b : List String), countEqualZip a b ≠ 0 →
    ∃ y, y ∈ a ∧ y ∈ b
  | [], b, h => absurd (countEqualZip_nil_left b) h
  | x :: xs, [], h => absurd (countEqualZip_nil_right _) h
  | x :: xs, z :: zs, h => by
      by_cases hxz : x = z
      · refine ⟨x, List.mem_cons_self _ _, ?_⟩
        rw [hxz]; exact List.mem_cons_self _ _
      · rw [countEqualZip_cons, if_neg hxz, Nat.zero_add] at h
        obtain ⟨y, hy1, hy2⟩ := countEqualZip_pos_mem xs zs h
        exact ⟨y, List.mem_cons_of_mem _ hy1, List.mem_cons_of_mem _ hy2⟩

theorem countEqualZip_eq_zero_of_disjoint {a b : List String}
    (h : ∀ (y : String), y ∈ a → y ∈ b → False) : countEqualZip a b = 0 := by
  by_contra hne
  obtain ⟨y, h1, h2⟩ := countEqualZip_pos_mem a b hne
  exact h y h1 h2

/-- The heart of C8: strip the position-wise equal entries off two link
chains with a common start; the two heads that remain are immediate children
of one shared non-recursive group, and the chains continue below the heads. -/
theorem linked_uncommon_sibling {root : OpsGroup} (hnd : (allNames root).Nodup) :
    ∀ (t1 : List String) (s : String) (t2 : List String),
    Linked root s t1 → Linked root s t2 →
    ∀ (u0 d0 : String) (us ds : List String),
    t1.drop (countEqualZip t1 t2) = u0 :: us →
    t2.drop (countEqualZip t1 t2) = d0 :: ds →
    (∃ P, P ∈ allGroups root ∧ P.recursive_ref = none
        ∧ u0 ∈ childNames P ∧ d0 ∈ childNames P)
      ∧ Linked root u0 us ∧ Linked root d0 ds
  | [], _, t2, _, _, u0, d0, us, ds, hd1, _ => by
      rw [List.drop_nil] at hd1
      exact absurd hd1 (by simp)
  | x1 :: r1, s, [], _, _, u0, d0, us, ds, _, hd2 => by
      rw [List.drop_nil] at hd2
      exact absurd hd2 (by simp)
  | x1 :: r1, s, x2 :: r2, h1, h2, u0, d0, us, ds, hd1, hd2 => by
      cases h1 with
      | cons hlink1 htail1 =>
      cases h2 with
      | cons hlink2 htail2 =>
      by_cases hx : x1 = x2
      · subst hx
        rw [countEqualZip_cons, if_pos rfl, Nat.add_comm, List.drop_succ_cons] at hd1 hd2
        exact linked_uncommon_sibling hnd r1 x1 r2 htail1 htail2 u0 d0 us ds hd1 hd2
      · obtain ⟨G1, hG1, hG1n, hG1r, hx1c⟩ := hlink1
        obtain ⟨G2, hG2, hG2n, hG2r, hx2c⟩ := hlink2
        have hGG : G1 = G2 := group_name_unique root hnd G1 G2 hG1 hG2 (hG1n.trans hG2n.symm)
        subst hGG
        have hndG1 : (allNames G1).Nodup := nodup_allNames_of_mem hnd hG1
        obtain ⟨_, _, hlndG1, _⟩ := nodup_allNames_parts hndG1
        have hm : countEqualZip r1 r2 = 0 := by
          rcases List.mem_append.mp hx1c with h1g | h1o
          · rcases List.mem_append.mp hx2c with h2g | h2o
            · obtain ⟨C1, hC1, hC1name⟩ := List.mem_map.mp h1g
              obtain ⟨C2, hC2, hC2name⟩ := List.mem_map.mp h2g
              have hC1root : C1 ∈ allGroups root :=
                allGroups_trans root G1 C1 hG1 (allGroups_child hC1 (self_mem_allGroups C1))
              have hC2root : C2 ∈ allGroups root :=
                allGroups_trans root G1 C2 hG1 (allGroups_child hC2 (self_mem_allGroups C2))
              apply countEqualZip_eq_zero_of_disjoint
              intro y hy1 hy2
              have hyC1 : y ∈ allNames C1 :=
                linked_subset hnd r1 C1 hC1root (hC1name.symm ▸ htail1) y hy1
              have hyC2 : y ∈ allNames C2 :=
                linked_subset hnd r2 C2 hC2root (hC2name.symm ▸ htail2) y hy2
              have hceq : C1 = C2 := sibling_eq_of_overlap G1.groups hlndG1 C1 C2 hC1 hC2 hyC1 hyC2
              apply hx
              rw [← hC1name, ← hC2name, hceq]
            · rw [linked_op_stop hnd hG1 h2o htail2]
              exact countEqualZip_nil_right r1
          · rw [linked_op_stop hnd hG1 h1o htail1]
            exact countEqualZip_nil_left r2
        rw [countEqualZip_cons, if_neg hx, hm, List.drop_zero] at hd1 hd2
        obtain ⟨e1a, e1b⟩ := List.cons.inj hd1
        obtain ⟨e2a, e2b⟩ := List.cons.inj hd2
        subst e1a; subst e1b; subst e2a; subst e2b
        exact ⟨⟨G1, hG1, hG1r, hx1c, hx2c⟩, htail1, htail2⟩

theorem getLast?_cons_getLastD : ∀ (t : List String) (a : String),
    (a :: t).getLast? = some (t.getLastD a)
  | [], _ => rfl
  | y :: ys, a => by
      rw [List.getLast?_cons_cons, List.getLastD_cons]
      exact getLast?_cons_getLastD ys y

/-- Extend a link chain by one more child of its deepest entity. -/
theorem linked_snoc {root : OpsGroup} : ∀ (t : List String) (s x : String),
    Linked root s t → ChildLink root (t.getLastD s) x → Linked root s (t ++ [x])
  | [], s, x, _, hlink => Linked.cons hlink (Linked.nil x)
  | y :: ys, s, x, hlk, hlink => by
      cases hlk with
      | cons hl ht =>
          rw [List.getLastD_cons] at hlink
          exact Linked.cons hl (linked_snoc ys y x ht hlink)

theorem getLast?_of_drop_singleton : ∀ (l : List String) (n : Nat) (a : String),
    l.drop n = [a] → l.getLast? = some a
  | [], n, a, h => by rw [List.drop_nil] at h; exact absurd h (by simp)
  | x :: xs, 0, a, h => by rw [List.drop_zero] at h; rw [h]; simp
  | x :: xs, n + 1, a, h => by
      rw [List.drop_succ_cons] at h
      have ih := getLast?_of_drop_singleton xs n a h
      cases xs with
      | nil => rw [List.drop_nil] at h; exact absurd h (by simp)
      | cons y ys => rw [List.getLast?_cons_cons]; exact ih

theorem lookupStr_mem {α : Type} : ∀ (m : List (String × α)) (k : String) (v : α),
    lookupStr m k = some v → (k, v) ∈ m
  | [], k, v, h => by simp [lookupStr] at h
  | (k', v') :: rest, k, v, h => by
      simp only [lookupStr] at h
      by_cases hk : k' = k
      · rw [if_pos hk] at h
        injection h with h'
        rw [← hk, ← h']
        exact List.mem_cons_self _ _
      · rw [if_neg hk] at h
        exact List.mem_cons_of_mem _ (lookupStr_mem rest k v h)

theorem lookupOp_mem {ops : List Op} {k : String} {u : Op}
    (h : lookupOp ops k = some u) : u ∈ ops ∧ u.name = k := by
  have hm := lookupStr_mem _ _ _ h
  obtain ⟨op, hop, heq⟩ := List.mem_map.mp hm
  injection heq with e1 e2
  constructor
  · rw [← e2]; exact hop
  · rw [← e2]; exact e1

theorem resolveAncestry_cases {opG grpG : List (String × List String)} {n : String}
    {l : List String} (h : resolveAncestry opG grpG n = some l) :
    (n, l) ∈ opG ∨ (n, l) ∈ grpG := by
  unfold resolveAncestry at h
  cases hh : lookupStr opG n with
  | some g =>
      rw [hh] at h
      injection h with h'
      exact Or.inl (h' ▸ lookupStr_mem _ _ _ hh)
  | none =>
      rw [hh] at h
      exact Or.inr (lookupStr_mem _ _ _ h)

theorem getUncommonAncestors_ok {opG grpG : List (String × List String)}
    {n1 n2 : String} {up down : List String}
    (h : getUncommonAncestors opG grpG n1 n2 = .ok (up, down)) :
    ∃ l1 l2, resolveAncestry opG grpG n1 = some l1
      ∧ resolveAncestry opG grpG n2 = some l2
      ∧ up = l1.drop (countEqualZip l1 l2) ∧ down = l2.drop (countEqualZip l1 l2) := by
  unfold getUncommonAncestors at h
  cases h1 : resolveAncestry opG grpG n1 with
  | none => rw [h1] at h; exact absurd h (by simp)
  | some g1 =>
      rw [h1] at h
      cases h2 : resolveAncestry opG grpG n2 with
      | none => rw [h2] at h; exact absurd h (by simp)
      | some g2 =>
          rw [h2] at h
          injection h with h'
          injection h'.symm with e1 e2
          exact ⟨g1, g2, rfl, rfl, e1, e2⟩

mutual

/-- Every ancestry the op walker records is a rooted link chain ending in
the recorded key. -/
theorem opGroupsEnter_paths : ∀ (root : OpsGroup) (pre : List String) (c : OpsGroup)
    (t : List String),
    pre ++ [c.name] = root.name :: t → Linked root root.name t →
    c ∈ allGroups root → c.recursive_ref = none →
    ∀ (k : String) (l : List String), (k, l) ∈ opGroupsEnter pre c →
    ∃ t', l = root.name :: t' ∧ Linked root root.name t' ∧ l.getLast? = some k
  | root, pre, .mk n ty gs os r i cc d e, t, hpre, hlk, hmem, hrec, k, l, hkl => by
      simp only [opGroupsEnter] at hkl
      have hlast : (pre ++ [n]).getLast? = some n := List.getLast?_concat _
      have htlast : t.getLastD root.name = n := by
        have hcg := congrArg List.getLast? hpre
        rw [List.getLast?_concat, getLast?_cons_getLastD] at hcg
        injection hcg with hv
        exact hv.symm
      rcases List.mem_append.mp hkl with hkl | hkl
      · refine opGroupsChildren_paths root (pre ++ [n]) gs
          (.mk n ty gs os r i cc d e) t hpre hlk hmem hrec ?_ ?_ k l hkl
        · exact hlast
        · intro c0 hc0; exact hc0
      · obtain ⟨op, hop, heq⟩ := List.mem_map.mp hkl
        injection heq with ek el
        refine ⟨t ++ [op.name], ?_, ?_, ?_⟩
        · rw [← el, ← List.cons_append, ← hpre]
          rfl
        · refine linked_snoc t root.name op.name hlk ?_
          rw [htlast]
          refine ⟨.mk n ty gs os r i cc d e, hmem, rfl, hrec, ?_⟩
          exact List.mem_append_right _ (List.mem_map.mpr ⟨op, hop, rfl⟩)
        · rw [← el, ← ek]
          exact List.getLast?_concat _

/-- The child loop of the op walker keeps the rooted-chain shape. -/
theorem opGroupsChildren_paths : ∀ (root : OpsGroup) (pre : List String)
    (gs : List OpsGroup) (g : OpsGroup) (t : List String),
    pre = root.name :: t → Linked root root.name t →
    g ∈ allGroups root → g.recursive_ref = none →
    pre.getLast? = some g.name → (∀ c0, c0 ∈ gs → c0 ∈ g.groups) →
    ∀ (k : String) (l : List String), (k, l) ∈ opGroupsChildren pre gs →
    ∃ t', l = root.name :: t' ∧ Linked root root.name t' ∧ l.getLast? = some k
  | root, pre, [], g, t, _, _, _, _, _, _, k, l, hkl => absurd hkl (List.not_mem_nil _)
  | root, pre, c0 :: rest, g, t, hpre, hlk, hmem, hrec, hglast, hsub, k, l, hkl => by
      have htlast : t.getLastD root.name = g.name := by
        rw [hpre, getLast?_cons_getLastD] at hglast
        injection hglast
      have hc0g : c0.name ∈ childNames g :=
        List.mem_append_left _ (List.mem_map.mpr ⟨c0, hsub c0 (List.mem_cons_self _ _), rfl⟩)
      have hlink : ChildLink root (t.getLastD root.name) c0.name := by
        rw [htlast]
        exact ⟨g, hmem, rfl, hrec, hc0g⟩
      have hsnoc : Linked root root.name (t ++ [c0.name]) :=
        linked_snoc t root.name c0.name hlk hlink
      simp only [opGroupsChildren] at hkl
      rcases List.mem_append.mp hkl with hkl | hkl
      · by_cases hr : c0.recursive_ref.isSome
        · rw [if_pos hr] at hkl
          rcases List.mem_cons.mp hkl with e1 | h1
          · injection e1 with ek el
            refine ⟨t ++ [c0.name], ?_, hsnoc, ?_⟩
            · rw [el, hpre, List.cons_append]
            · rw [el, ek]
              exact List.getLast?_concat _
          · exact absurd h1 (List.not_mem_nil _)
        · rw [if_neg hr] at hkl
          have hc0mem : c0 ∈ allGroups root :=
            allGroups_trans root g c0 hmem
              (allGroups_child (hsub c0 (List.mem_cons_self _ _)) (self_mem_allGroups c0))
          refine opGroupsEnter_paths root pre c0 (t ++ [c0.name]) ?_ hsnoc hc0mem
            (Option.not_isSome_iff_eq_none.mp hr) k l hkl
          rw [hpre, List.cons_append]
      · exact opGroupsChildren_paths root pre rest g t hpre hlk hmem hrec hglast
          (fun c1 hc1 => hsub c1 (List.mem_cons_of_mem _ hc1)) k l hkl

end

/-- Path soundness of `_get_groups_for_ops` at the root call. -/
theorem getGroupsForOps_paths {root : OpsGroup} (hroot : root.recursive_ref = none)
    {k : String} {l : List String} (hkl : (k, l) ∈ getGroupsForOps root) :
    ∃ t', l = root.name :: t' ∧ Linked root root.name t' ∧ l.getLast? = some k := by
  refine opGroupsEnter_paths root [] root [] ?_ (Linked.nil _) (self_mem_allGroups root)
    hroot k l hkl
  rfl

mutual

/-- Every ancestry the opsgroup walker records is a rooted link chain ending
in the recorded key. -/
theorem opsgroupGroupsEnter_paths : ∀ (root : OpsGroup) (pre : List String)
    (c : OpsGroup) (t : List String),
    pre = root.name :: t → Linked root root.name t →
    c ∈ allGroups root → c.recursive_ref = none → pre.getLast? = some c.name →
    ∀ (k : String) (l : List String), (k, l) ∈ opsgroupGroupsEnter pre c →
    ∃ t', l = root.name :: t' ∧ Linked root root.name t' ∧ l.getLast? = some k
  | root, pre, .mk n ty gs os r i cc d e, t, hpre, hlk, hmem, hrec, hlast, k, l, hkl => by
      simp only [opsgroupGroupsEnter] at hkl
      exact opsgroupGroupsChildren_paths root pre gs (.mk n ty gs os r i cc d e) t
        hpre hlk hmem hrec hlast (fun c0 hc0 => hc0) k l hkl

/-- The child loop of the opsgroup walker keeps the rooted-chain shape. -/
theorem opsgroupGroupsChildren_paths : ∀ (root : OpsGroup) (pre : List String)
    (gs : List OpsGroup) (g : OpsGroup) (t : List String),
    pre = root.name :: t → Linked root root.name t →
    g ∈ allGroups root → g.recursive_ref = none →
    pre.getLast? = some g.name → (∀ c0, c0 ∈ gs → c0 ∈ g.groups) →
    ∀ (k : String) (l : List String), (k, l) ∈ opsgroupGroupsChildren pre gs →
    ∃ t', l = root.name :: t' ∧ Linked root root.name t' ∧ l.getLast? = some k
  | root, pre, [], g, t, _, _, _, _, _, _, k, l, hkl => absurd hkl (List.not_mem_nil _)
  | root, pre, c0 :: rest, g, t, hpre, hlk, hmem, hrec, hglast, hsub, k, l, hkl => by
      have htlast : t.getLastD root.name = g.name := by
        rw [hpre, getLast?_cons_getLastD] at hglast
        injection hglast
      have hc0g : c0.name ∈ childNames g :=
        List.mem_append_left _ (List.mem_map.mpr ⟨c0, hsub c0 (List.mem_cons_self _ _), rfl⟩)
      have hlink : ChildLink root (t.getLastD root.name) c0.name := by
        rw [htlast]
        exact ⟨g, hmem, rfl, hrec, hc0g⟩
      have hsnoc : Linked root root.name (t ++ [c0.name]) :=
        linked_snoc t root.name c0.name hlk hlink
      simp only [opsgroupGroupsChildren] at hkl
      rcases List.mem_append.mp hkl with hkl | hkl
      · by_cases hr : c0.recursive_ref.isSome
        · rw [if_pos hr] at hkl
          exact absurd hkl (List.not_mem_nil _)
        · rw [if_neg hr] at hkl
          have hc0mem : c0 ∈ allGroups root :=
            allGroups_trans root g c0 hmem
              (allGroups_child (hsub c0 (List.mem_cons_self _ _)) (self_mem_allGroups c0))
          rcases List.mem_cons.mp hkl with e1 | h1
          · injection e1 with ek el
            refine ⟨t ++ [c0.name], ?_, hsnoc, ?_⟩
            · rw [el, hpre, List.cons_append]
            · rw [el, ek]
              exact List.getLast?_concat _
          · refine opsgroupGroupsEnter_paths root (pre ++ [c0.name]) c0 (t ++ [c0.name])
              ?_ hsnoc hc0mem (Option.not_isSome_iff_eq_none.mp hr) ?_ k l h1
            · rw [hpre, List.cons_append]
            · exact List.getLast?_concat _
      · exact opsgroupGroupsChildren_paths root pre rest g t hpre hlk hmem hrec hglast
          (fun c1 hc1 => hsub c1 (List.mem_cons_of_mem _ hc1)) k l hkl

end

/-- Path soundness of `_get_groups_for_opsgroups` at the root call. -/
theorem getGroupsForOpsgroups_paths {root : OpsGroup} (hroot : root.recursive_ref = none)
    {k : String} {l : List String} (hkl : (k, l) ∈ getGroupsForOpsgroups root) :
    ∃ t', l = root.name :: t' ∧ Linked root root.name t' ∧ l.getLast? = some k := by
  refine opsgroupGroupsEnter_paths root [root.name] root [] rfl (Linked.nil _)
    (self_mem_allGroups root) hroot ?_ k l hkl
  rfl

mutual

/-- Every entry of the group index names a non-recursive group of the tree
by its own name. -/
theorem getGroupsEnter_entries : ∀ (root g : OpsGroup), g ∈ allGroups root →
    g.recursive_ref = none → ∀ (k : String) (G : OpsGroup), (k, G) ∈ getGroupsEnter g →
    G.name = k ∧ G ∈ allGroups root ∧ G.recursive_ref = none
  | root, .mk n t gs os r i c d e, hmem, hrec, k, G, hkG => by
      simp only [getGroupsEnter] at hkG
      rcases List.mem_cons.mp hkG with e1 | h1
      · injection e1 with ek eG
        subst ek; subst eG
        exact ⟨rfl, hmem, hrec⟩
      · refine getGroupsChildren_entries root gs ?_ k G h1
        intro c0 hc0
        exact allGroups_trans root _ c0 hmem
          (allGroups_child hc0 (self_mem_allGroups c0))

theorem getGroupsChildren_entries : ∀ (root : OpsGroup) (gs : List OpsGroup),
    (∀ c0, c0 ∈ gs → c0 ∈ allGroups root) →
    ∀ (k : String) (G : OpsGroup), (k, G) ∈ getGroupsChildren gs →
    G.name = k ∧ G ∈ allGroups root ∧ G.recursive_ref = none
  | root, [], _, k, G, h => absurd h (List.not_mem_nil _)
  | root, g :: rest, hsub, k, G, h => by
      rcases List.mem_append.mp h with h1 | h1
      · by_cases hr : g.recursive_ref.isSome
        · rw [if_pos hr] at h1
          exact absurd h1 (List.not_mem_nil _)
        · rw [if_neg hr] at h1
          exact getGroupsEnter_entries root g (hsub g (List.mem_cons_self _ _))
            (Option.not_isSome_iff_eq_none.mp hr) k G h1
      · exact getGroupsChildren_entries root rest
          (fun c0 hc0 => hsub c0 (List.mem_cons_of_mem _ hc0)) k G h1

end

/-- Index soundness of `_get_groups` at the root call. -/
theorem getGroups_entries {root : OpsGroup} (hroot : root.recursive_ref = none)
    {k : String} {G : OpsGroup} (hkG : (k, G) ∈ getGroups root) :
    G.name = k ∧ G ∈ allGroups root ∧ G.recursive_ref = none :=
  getGroupsEnter_entries root root (self_mem_allGroups root) hroot k G hkG

/-- Provenance of one recorded dependency edge `u0 ∈ dm[d0]`: two entity
names whose uncommon-ancestor tails start with `u0` and `d0`, the upstream
one resolved from the op dictionary or the group index. -/
def EdgeWitness (pops : List Op) (idx : List (String × OpsGroup))
    (opG grpG : List (String × List String)) (d0 u0 : String) : Prop :=
  ∃ uname dname up down us ds,
    getUncommonAncestors opG grpG uname dname = Except.ok (up, down)
      ∧ up = u0 :: us ∧ down = d0 :: ds
      ∧ ((∃ u, u ∈ pops ∧ u.name = uname)
          ∨ (∃ k G, (k, G) ∈ idx ∧ G.name = uname))

/-- Every edge of a dependency map has a provenance. -/
def EdgeInv (pops : List Op) (idx : List (String × OpsGroup))
    (opG grpG : List (String × List String)) (dm : DepMap) : Prop :=
  ∀ d0 u0, u0 ∈ mapGet dm d0 → EdgeWitness pops idx opG grpG d0 u0

theorem recordEdge_inv {pops : List Op} {idx : List (String × OpsGroup)}
    {opG grpG : List (String × List String)} {uname dname : String} {dm dm' : DepMap}
    (h : recordEdge opG grpG uname dname dm = .ok dm')
    (horig : (∃ u, u ∈ pops ∧ u.name = uname) ∨ (∃ k G, (k, G) ∈ idx ∧ G.name = uname))
    (hinv : EdgeInv pops idx opG grpG dm) : EdgeInv pops idx opG grpG dm' := by
  unfold recordEdge at h
  cases hu : getUncommonAncestors opG grpG uname dname with
  | error e => rw [hu] at h; exact absurd h (by simp)
  | ok pr =>
      obtain ⟨up, down⟩ := pr
      rw [hu] at h
      cases down with
      | nil => exact absurd h (by simp)
      | cons d0 dr =>
          cases up with
          | nil => exact absurd h (by simp)
          | cons u0 ur =>
              injection h with h'
              rw [← h']
              intro dk uk hmemk
              rcases mem_mapGet_mapAdd_cases hmemk with hold | ⟨hk, hv⟩
              · exact hinv dk uk hold
              · rw [← hk, hv]
                exact ⟨uname, dname, u0 :: ur, d0 :: dr, ur, dr, hu, rfl, rfl, horig⟩

theorem depEdgeOp_inv {pops : List Op} {idx : List (String × OpsGroup)}
    {opG grpG : List (String × List String)} {dname upname : String} {dm dm' : DepMap}
    (h : depEdgeOp pops idx opG grpG dname dm upname = .ok dm')
    (hinv : EdgeInv pops idx opG grpG dm) : EdgeInv pops idx opG grpG dm' := by
  unfold depEdgeOp at h
  cases h1 : lookupOp pops upname with
  | some u =>
      rw [h1] at h
      exact recordEdge_inv h (Or.inl ⟨u, (lookupOp_mem h1).1, rfl⟩) hinv
  | none =>
      rw [h1] at h
      cases h2 : lookupStr idx upname with
      | some u =>
          rw [h2] at h
          exact recordEdge_inv h (Or.inr ⟨upname, u, lookupStr_mem _ _ _ h2, rfl⟩) hinv
      | none => rw [h2] at h; exact absurd h (by simp)

theorem depEdgeRec_inv {pops : List Op} {idx : List (String × OpsGroup)}
    {opG grpG : List (String × List String)} {dname upname : String} {dm dm' : DepMap}
    (h : depEdgeRec pops opG grpG dname dm upname = .ok dm')
    (hinv : EdgeInv pops idx opG grpG dm) : EdgeInv pops idx opG grpG dm' := by
  unfold depEdgeRec at h
  cases h1 : lookupOp pops upname with
  | some u =>
      rw [h1] at h
      exact recordEdge_inv h (Or.inl ⟨u, (lookupOp_mem h1).1, rfl⟩) hinv
  | none =>
      rw [h1] at h
      cases h2 : lookupStr grpG upname with
      | some _ => rw [h2] at h; exact absurd h (by simp)
      | none => rw [h2] at h; exact absurd h (by simp)

mutual

/-- The recursive dependency pass only records provenanced edges. -/
theorem depPassEnter_inv : ∀ (pops : List Op) (idx : List (String × OpsGroup))
    (opG grpG : List (String × List String)) (condm : List (String × List Param))
    (dm : DepMap) (g : OpsGroup) (dm' : DepMap),
    depPassEnter pops opG grpG condm dm g = .ok dm' →
    EdgeInv pops idx opG grpG dm → EdgeInv pops idx opG grpG dm'
  | pops, idx, opG, grpG, condm, dm, .mk n t gs os r i c d e, dm', h, hinv => by
      simp only [depPassEnter] at h
      rcases except_bind_ok_inv h with ⟨dm1, h1, h2⟩
      have hinv1 : EdgeInv pops idx opG grpG dm1 :=
        foldlM_inv _ _ _ (fun b _ acc acc' hs hP => depEdgeRec_inv hs hP) dm dm1 h1 hinv
      exact depPassChildren_inv pops idx opG grpG condm dm1 gs dm' h2 hinv1

theorem depPassChildren_inv : ∀ (pops : List Op) (idx : List (String × OpsGroup))
    (opG grpG : List (String × List String)) (condm : List (String × List Param))
    (dm : DepMap) (gs : List OpsGroup) (dm' : DepMap),
    depPassChildren pops opG grpG condm dm gs = .ok dm' →
    EdgeInv pops idx opG grpG dm → EdgeInv pops idx opG grpG dm'
  | pops, idx, opG, grpG, condm, dm, [], dm', h, hinv => by
      simp only [depPassChildren] at h
      injection h with h'
      rw [← h']; exact hinv
  | pops, idx, opG, grpG, condm, dm, g :: rest, dm', h, hinv => by
      simp only [depPassChildren] at h
      rcases except_bind_ok_inv h with ⟨dm1, h1, h2⟩
      exact depPassChildren_inv pops idx opG grpG condm dm1 rest dm' h2
        (depPassEnter_inv pops idx opG grpG condm dm g dm1 h1 hinv)

end

/-- Every edge `_get_dependencies` ever records has a provenance. -/
theorem getDependencies_inv {p : Pipeline} {root : OpsGroup}
    {opG grpG : List (String × List String)} {idx : List (String × OpsGroup)}
    {condm : List (String × List Param)} {dm : DepMap}
    (h : getDependencies p root opG grpG idx condm = .ok dm) :
    EdgeInv p.ops idx opG grpG dm := by
  unfold getDependencies at h
  rcases except_bind_ok_inv h with ⟨dm0, h1, h2⟩
  have hinv0 : EdgeInv p.ops idx opG grpG dm0 := by
    refine foldlM_inv _ _ _ ?_ _ dm0 h1 ?_
    · intro op _ acc acc' hs hP
      exact foldlM_inv _ _ _ (fun b _ a a' hss hQ => depEdgeOp_inv hss hQ) acc acc' hs hP
    · intro d0 u0 hmem
      rw [mapGet_nil] at hmem
      exact absurd hmem (List.not_mem_nil _)
  exact depPassEnter_inv p.ops idx opG grpG condm dm0 root dm h2 hinv0

theorem mapM_ok_mem_rev {α β : Type} {f : α → Except String β} :
    ∀ {l : List α} {l' : List β}, l.mapM f = .ok l' →
      ∀ (b : β), b ∈ l' → ∃ a, a ∈ l ∧ f a = .ok b
  | [], l', h, b, hb => by
      rw [List.mapM_nil] at h
      injection h with h'
      rw [← h'] at hb
      exact absurd hb (List.not_mem_nil _)
  | x :: l, l', h, b, hb => by
      rw [List.mapM_cons] at h
      rcases except_bind_ok_inv h with ⟨y, hy, h2⟩
      rcases except_bind_ok_inv h2 with ⟨ys, hys, h3⟩
      have h4 : y :: ys = l' := by injection h3
      rw [← h4] at hb
      rcases List.mem_cons.mp hb with e | hb2
      · exact ⟨x, List.mem_cons_self _ _, by rw [e]; exact hy⟩
      · rcases mapM_ok_mem_rev hys b hb2 with ⟨a, ha, hfa⟩
        exact ⟨a, List.mem_cons_of_mem _ ha, hfa⟩

theorem childTaskCore_ok_fields {ins : LiftMap} {dm : DepMap} {cname tname : String}
    {isRec : Bool} {subI refI : List Param} {whenOpt : Option String} {task : Task}
    (h : childTaskCore ins dm cname tname isRec subI refI whenOpt = .ok task) :
    task.name = tname ∧ task.dependencies = sortBy strLe (mapGet dm cname) := by
  unfold childTaskCore at h
  rcases except_bind_ok_inv h with ⟨args, _, h2⟩
  injection h2 with h'
  rw [← h']
  exact ⟨rfl, rfl⟩

theorem groupChildToTask_ok_fields {ins : LiftMap} {dm : DepMap} {child : OpsGroup}
    {task : Task} (h : groupChildToTask ins dm child = .ok task) :
    task.dependencies = sortBy strLe (mapGet dm child.name)
      ∧ (child.recursive_ref = none → task.name = child.name) := by
  unfold groupChildToTask at h
  rcases except_bind_ok_inv h with ⟨whenOpt, _, h2⟩
  obtain ⟨hn, hd⟩ := childTaskCore_ok_fields h2
  refine ⟨hd, ?_⟩
  intro hrec
  rw [hn, hrec]

theorem opChildToTask_ok_fields {ins : LiftMap} {dm : DepMap} {op : Op} {task : Task}
    (h : opChildToTask ins dm op = .ok task) :
    task.name = op.name ∧ task.dependencies = sortBy strLe (mapGet dm op.name) := by
  unfold opChildToTask at h
  exact childTaskCore_ok_fields h

theorem groupToTemplate_ok_tasks {g : OpsGroup} {ins outs : LiftMap} {dm : DepMap}
    {tmpl : TemplateRec} (h : groupToTemplate g ins outs dm = .ok tmpl) :
    ∃ gtasks otasks, g.groups.mapM (groupChildToTask ins dm) = .ok gtasks
      ∧ g.ops.mapM (opChildToTask ins dm) = .ok otasks
      ∧ tmpl.tasks = sortBy (fun a b => strLe a.name b.name) (gtasks ++ otasks) := by
  unfold groupToTemplate at h
  rcases except_bind_ok_inv h with ⟨gt, h1, h2⟩
  rcases except_bind_ok_inv h2 with ⟨ot, h3, h4⟩
  injection h4 with h'
  exact ⟨gt, ot, h1, h3, by rw [← h']⟩

/-- From a provenanced edge, under name uniqueness: the two tail heads share
a non-recursive parent group of the tree, and every group of the tree named
after the upstream head is non-recursive (so it produces a task under its
own name). -/
theorem edgeWitness_resolve {root : OpsGroup} (hroot : root.recursive_ref = none)
    (hnd : (allNames root).Nodup) {pops : List Op}
    (hops : ∀ u, u ∈ pops → ∃ D, D ∈ allGroups root ∧ u ∈ D.ops)
    {d0 u0 : String}
    (hw : EdgeWitness pops (getGroups root) (getGroupsForOps root)
        (getGroupsForOpsgroups root) d0 u0) :
    ∃ P, P ∈ allGroups root ∧ P.recursive_ref = none
      ∧ u0 ∈ childNames P ∧ d0 ∈ childNames P
      ∧ ∀ C, C ∈ allGroups root → C.name = u0 → C.recursive_ref = none := by
  obtain ⟨uname, dname, up, down, us, ds, huc, hup, hdown, horig⟩ := hw
  obtain ⟨l1, l2, hr1, hr2, he1, he2⟩ := getUncommonAncestors_ok huc
  have hp1 : ∃ t', l1 = root.name :: t' ∧ Linked root root.name t'
      ∧ l1.getLast? = some uname := by
    rcases resolveAncestry_cases hr1 with hm | hm
    · exact getGroupsForOps_paths hroot hm
    · exact getGroupsForOpsgroups_paths hroot hm
  have hp2 : ∃ t', l2 = root.name :: t' ∧ Linked root root.name t'
      ∧ l2.getLast? = some dname := by
    rcases resolveAncestry_cases hr2 with hm | hm
    · exact getGroupsForOps_paths hroot hm
    · exact getGroupsForOpsgroups_paths hroot hm
  obtain ⟨t1, hl1, hlk1, hlast1⟩ := hp1
  obtain ⟨t2, hl2, hlk2, hlast2⟩ := hp2
  have hd1 : t1.drop (countEqualZip t1 t2) = u0 :: us := by
    have h0 : l1.drop (countEqualZip l1 l2) = u0 :: us := by rw [← he1, hup]
    rw [hl1, hl2, countEqualZip_cons, if_pos rfl, Nat.add_comm, List.drop_succ_cons] at h0
    exact h0
  have hd2 : t2.drop (countEqualZip t1 t2) = d0 :: ds := by
    have h0 : l2.drop (countEqualZip l1 l2) = d0 :: ds := by rw [← he2, hdown]
    rw [hl1, hl2, countEqualZip_cons, if_pos rfl, Nat.add_comm, List.drop_succ_cons] at h0
    exact h0
  obtain ⟨⟨P, hP, hPrec, hu0P, hd0P⟩, hLu0, _⟩ :=
    linked_uncommon_sibling hnd t1 root.name t2 hlk1 hlk2 u0 d0 us ds hd1 hd2
  refine ⟨P, hP, hPrec, hu0P, hd0P, ?_⟩
  intro C hC hCname
  cases us with
  | cons w ws =>
      cases hLu0 with
      | cons hlink _ =>
          obtain ⟨G', hG', hG'name, hG'rec, _⟩ := hlink
          rw [group_name_unique root hnd C G' hC hG' (hCname.trans hG'name.symm)]
          exact hG'rec
  | nil =>
      have hlast : l1.getLast? = some u0 := by
        refine getLast?_of_drop_singleton l1 (countEqualZip l1 l2) u0 ?_
        rw [← he1, hup]
      have huu : u0 = uname := by
        rw [hlast] at hlast1
        injection hlast1
      rcases horig with ⟨u, hu, huname⟩ | ⟨k, G2, hkG2, hG2name⟩
      · obtain ⟨D, hD, huD⟩ := hops u hu
        have hxmem : u0 ∈ D.ops.map Op.name := by
          rw [huu, ← huname]
          exact List.mem_map.mpr ⟨u, huD, rfl⟩
        exact absurd hCname (fun hc => op_group_clash root hnd D C hD hC u0 hxmem hc)
      · obtain ⟨hG2n, hG2mem, hG2rec⟩ := getGroups_entries hroot hkG2
        have hG2u0 : G2.name = u0 := by rw [hG2name, huu]
        rw [group_name_unique root hnd C G2 hC hG2mem (hCname.trans hG2u0.symm)]
        exact hG2rec

/-- Claim C8: under the global assumptions the compiler relies on (the root
group is not recursive, entity names in the tree are unique, and every op of
the op dictionary belongs to some group of the tree), every edge
`_get_dependencies` records is `down[0] <- up[0]` for the uncommon-ancestor
tails `(up, down)` of a resolved upstream/downstream pair, and the two tail
heads are immediate children of one shared non-recursive parent group;
consequently every name in any emitted template's `dag.tasks[*].dependencies`
names a sibling task of the same template, so no cross-scope dependency is
ever emitted. -/
theorem C8_dependencies_are_sibling_edges (p : Pipeline) (root : OpsGroup) (dm : DepMap)
    (hroot : root.recursive_ref = none)
    (hnd : (allNames root).Nodup)
    (hops : ∀ u, u ∈ p.ops → ∃ D, D ∈ allGroups root ∧ u ∈ D.ops)
    (hdm : getDependencies p root (getGroupsForOps root) (getGroupsForOpsgroups root)
        (getGroups root) (getConditionParams root) = .ok dm) :
    (∀ d0 u0, u0 ∈ mapGet dm d0 →
      (∃ uname dname up down us ds,
          getUncommonAncestors (getGroupsForOps root) (getGroupsForOpsgroups root)
            uname dname = .ok (up, down) ∧ up = u0 :: us ∧ down = d0 :: ds)
      ∧ ∃ P, P ∈ allGroups root ∧ P.recursive_ref = none
          ∧ u0 ∈ childNames P ∧ d0 ∈ childNames P)
    ∧ (∀ (k : String) (G : OpsGroup), (k, G) ∈ getGroups root →
      ∀ (ins outs : LiftMap) (tmpl : TemplateRec),
        groupToTemplate G ins outs dm = .ok tmpl →
        ∀ task, task ∈ tmpl.tasks → ∀ n, n ∈ task.dependencies →
          ∃ task2, task2 ∈ tmpl.tasks ∧ task2.name = n) := by
  have hinv := getDependencies_inv hdm
  constructor
  · intro d0 u0 hmem
    have hw := hinv d0 u0 hmem
    constructor
    · obtain ⟨uname, dname, up, down, us, ds, huc, hup, hdown, _⟩ := hw
      exact ⟨uname, dname, up, down, us, ds, huc, hup, hdown⟩
    · obtain ⟨P, hP, hPrec, hu0, hd0, _⟩ := edgeWitness_resolve hroot hnd hops hw
      exact ⟨P, hP, hPrec, hu0, hd0⟩
  · intro k G hkG ins outs tmpl htmpl task htask n hdep
    obtain ⟨hGname, hGmem, hGrec⟩ := getGroups_entries hroot hkG
    obtain ⟨gtasks, otasks, hgt, hot, htasks⟩ := groupToTemplate_ok_tasks htmpl
    rw [htasks] at htask
    have htask2 : task ∈ gtasks ++ otasks := (mem_sortBy _ _ _).mp htask
    have hstep : ∃ cname, cname ∈ childNames G ∧ n ∈ mapGet dm cname := by
      rcases List.mem_append.mp htask2 with hg | ho
      · obtain ⟨child, hchild, hfc⟩ := mapM_ok_mem_rev hgt task hg
        obtain ⟨hdeps, _⟩ := groupChildToTask_ok_fields hfc
        refine ⟨child.name,
          List.mem_append_left _ (List.mem_map.mpr ⟨child, hchild, rfl⟩), ?_⟩
        rw [hdeps] at hdep
        exact (mem_sortBy _ _ _).mp hdep
      · obtain ⟨o, ho2, hfo⟩ := mapM_ok_mem_rev hot task ho
        obtain ⟨_, hdeps⟩ := opChildToTask_ok_fields hfo
        refine ⟨o.name,
          List.mem_append_right _ (List.mem_map.mpr ⟨o, ho2, rfl⟩), ?_⟩
        rw [hdeps] at hdep
        exact (mem_sortBy _ _ _).mp hdep
    obtain ⟨cname, hcnameG, hnmem⟩ := hstep
    have hw := hinv cname n hnmem
    obtain ⟨P, hP, hPrec, hnP, hcnameP, hCrec⟩ := edgeWitness_resolve hroot hnd hops hw
    have hGP : G = P := parent_unique root hnd G P hGmem hP cname hcnameG hcnameP
    have hnG : n ∈ childNames G := by rw [hGP]; exact hnP
    rcases List.mem_append.mp hnG with hg | ho
    · obtain ⟨C, hCmem, hCname⟩ := List.mem_map.mp hg
      have hCroot : C ∈ allGroups root :=
        allGroups_trans root G C hGmem (allGroups_child hCmem (self_mem_allGroups C))
      have hCnonrec : C.recursive_ref = none := hCrec C hCroot hCname
      obtain ⟨taskC, hfC, htaskC⟩ := mapM_ok_mem hgt C hCmem
      obtain ⟨_, hname⟩ := groupChildToTask_ok_fields hfC
      refine ⟨taskC, ?_, ?_⟩
      · rw [htasks]
        exact (mem_sortBy _ _ _).mpr (List.mem_append_left _ htaskC)
      · rw [hname hCnonrec, hCname]
    · obtain ⟨o, homem, honame⟩ := List.mem_map.mp ho
      obtain ⟨taskO, hfO, htaskO⟩ := mapM_ok_mem hot o homem
      obtain ⟨hname, _⟩ := opChildToTask_ok_fields hfO
      refine ⟨taskO, ?_, ?_⟩
      · rw [htasks]
        exact (mem_sortBy _ _ _).mpr (List.mem_append_right _ htaskO)
      · rw [hname, honame]

/-- The dependency map computed for the cross-scope example pipeline. -/
def exDmCross : DepMap :=
  (getDependencies exPipeCross exRootCross (getGroupsForOps exRootCross)
    (getGroupsForOpsgroups exRootCross) (getGroups exRootCross)
    (getConditionParams exRootCross)).toOption.getD []

/-- The root template of the cross-scope example pipeline. -/
def exTmplRootCross : TemplateRec :=
  (groupToTemplate exRootCross exLiftCross.1 exLiftCross.2 exDmCross).toOption.getD
    { name := "" }

/-- The task emitted for the condition child of the cross-scope example. -/
def exTaskCondCross : Task :=
  (groupChildToTask exLiftCross.1 exDmCross exGrpC).toOption.getD
    { name := "", template := "" }

/-- Witness for C8 on the cross-scope example: the recorded edge
`cond-1 <- a` joins two children of the root, and the `a` in the condition
task's dependencies names the sibling task `a` of the root template. -/
theorem C8_dependencies_are_sibling_edges_witness :
    "a" ∈ mapGet exDmCross "cond-1"
      ∧ (∃ P, P ∈ allGroups exRootCross ∧ P.recursive_ref = none
          ∧ "a" ∈ childNames P ∧ "cond-1" ∈ childNames P)
      ∧ ∃ task2, task2 ∈ exTmplRootCross.tasks ∧ task2.name = "a" := by
  have hops : ∀ u, u ∈ exPipeCross.ops → ∃ D, D ∈ allGroups exRootCross ∧ u ∈ D.ops := by
    intro u hu
    rcases List.mem_cons.mp hu with e | hu2
    · exact ⟨exRootCross, self_mem_allGroups _, by rw [e]; exact List.mem_cons_self _ _⟩
    · rcases List.mem_cons.mp hu2 with e | hu3
      · refine ⟨exGrpC, allGroups_child (List.mem_cons_self _ _) (self_mem_allGroups _), ?_⟩
        rw [e]; exact List.mem_cons_self _ _
      · exact absurd hu3 (List.not_mem_nil _)
  have hmain := C8_dependencies_are_sibling_edges exPipeCross exRootCross exDmCross
    rfl (by decide) hops rfl
  refine ⟨by decide, ?_, ?_⟩
  · exact (hmain.1 "cond-1" "a" (by decide)).2
  · exact hmain.2 "root" exRootCross (List.mem_cons_self _ _) exLiftCross.1 exLiftCross.2
      exTmplRootCross rfl exTaskCondCross (by decide) "a" (by decide)

end Kfp
